import Mathlib

/-!
# The script compiler of `include/compiler.cpp`

A shallow embedding of the lexical normalizer (`RemoveComments`, `GetCodeLines`) and
of the recursive scope builder (`compiler::Compile`), followed by the properties
proved about them.

Conventions of the embedding.

* `std::wstring` is `List Char`; a `std::vector<T>` is a `List T`.
* A C++ `int` that can hold `npos` after the conversion from `size_t` is an `Int`
  (`-1` for "not found"); indices that are never negative are `Nat`.
* The builder reports diagnostics through `ShowCompilerError`, which does not stop
  the pass; a run is therefore an `Outcome`: the diagnostics reported so far, in
  order, together with either the value produced or the fault that ended the run
  (an index outside a vector, an exception, or the fuel of the model running out).
* The expression sub-evaluator (`area::GetCalculation`), the keyword table
  (`GetType`) and the constructors of `variable` are not part of the sources; what
  the builder needs of them are the fields of `Env`.
* The string helpers that the sources call but do not contain (`split_string`,
  `trim`, `substrcomp`, `Find`, `FindLine`, `replace`, `makelowercase`, `strtol`)
  are modelled from the spec; each says so in its comment.
-/

namespace Compiler

/-! ## Strings -/

/-- A `std::wstring`. -/
abbrev wstring := List Char

/-- Index of the first occurrence of `c` in `s`, if any. -/
def findIdx (c : Char) : wstring → Option Nat
  | [] => none
  | x :: xs => if x = c then some 0 else (findIdx c xs).map (· + 1)

/-- The call `s.find(c, pos)` with its result stored in an `int`: the index of the first
occurrence of `c` at or after `pos`, and `-1` (the value of `npos` as an `int`) when
there is none. -/
def wfind (s : wstring) (c : Char) (pos : Nat) : Int :=
  match findIdx c (s.drop pos) with
  | some k => ((pos + k : Nat) : Int)
  | none => -1

/-- The call `s.substr(pos, count)` for a position `pos ≤ s.size()`. The count is
converted to `size_t`, so a negative `int` count is larger than every length and
the result runs to the end of the string. -/
def substr (s : wstring) (pos : Nat) (count : Int) : wstring :=
  if count < 0 then s.drop pos else (s.drop pos).take count.toNat

/-- The white-space characters of the "C" locale. -/
def iswspace (c : Char) : Bool :=
  c = ' ' || c = '\t' || c = '\n' || c = '\x0b' || c = '\x0c' || c = '\r'

/-- Modelled from the spec: `trim` (and `trim_copy`), which is not in the sources;
the spec calls the result "whitespace-trimmed": leading and trailing white space
is removed. -/
def trim (s : wstring) : wstring :=
  ((s.dropWhile iswspace).reverse.dropWhile iswspace).reverse

/-- Modelled from the spec: `substrcomp(s, word)`, which is not in the sources. The
builder uses it to recognise a leading keyword ("const or constexpr, does not
matter"): it holds when `s` begins with `word`. -/
def substrcomp (s word : wstring) : Bool :=
  word.isPrefixOf s

/-- Modelled from the spec: `split_string(s, delimiter)`, which is not in the sources:
the pieces of `s` between the occurrences of the one-character delimiter, empty
pieces included ("lines can be empty strings"). -/
def split_string (d : Char) : wstring → List wstring
  | [] => [[]]
  | c :: cs =>
    if c = d then [] :: split_string d cs
    else
      match split_string d cs with
      | [] => [[c]]
      | p :: ps => (c :: p) :: ps

/-- The nesting depth after reading `x`, for a pair of delimiters to skip. -/
def skipDepth {α : Type} [DecidableEq α] (skip : α × α) (depth : Nat) (x : α) : Nat :=
  if x = skip.1 then depth + 1 else if x = skip.2 then depth - 1 else depth

/-- Modelled from the spec: `split_string(s, delimiter, skip)`, which is not in the
sources: as `split_string`, but a delimiter nested inside a `skip` pair does not
split. -/
def split_string_skip (d : Char) (skip : Char × Char) : Nat → wstring → List wstring
  | _, [] => [[]]
  | depth, c :: cs =>
    if depth = 0 ∧ c = d then [] :: split_string_skip d skip 0 cs
    else
      match split_string_skip d skip (skipDepth skip depth c) cs with
      | [] => [[c]]
      | p :: ps => (c :: p) :: ps

/-- The balance search shared by `Find` and `FindLine`: the offset of the first
element equal to `seek` that is not nested inside a `skip` pair, counting the
openers and closers passed on the way. -/
def seekBalanced {α : Type} [DecidableEq α] (seek : α) (skip : α × α) :
    Nat → List α → Option Nat
  | _, [] => none
  | depth, x :: xs =>
    if depth = 0 ∧ x = seek then some 0
    else (seekBalanced seek skip (skipDepth skip depth x) xs).map (· + 1)

/-- Modelled from the spec: `Find(s, start, seek, skip)`, which is not in the sources:
the index of the first `seek` at or after `start` outside every `skip` pair opened
since `start`, or `-1`. -/
def Find (s : wstring) (start : Nat) (seek : Char) (skip : Char × Char) : Int :=
  match seekBalanced seek skip 0 (s.drop start) with
  | some k => ((start + k : Nat) : Int)
  | none => -1

/-- Modelled from the spec: `FindLine(lines, start, seek, skip)`, which is not in the
sources: "the matching closing brace is located by scanning forward counting
nested open/close brace statements (depth-first balance, not first-match)". The
result is the index of the first line equal to `seek` at or after `start` that is
not nested in a `skip` pair opened since `start`, or `-1`. -/
def FindLine (lines : List wstring) (start : Nat) (seek : wstring)
    (skip : wstring × wstring) : Int :=
  match seekBalanced seek skip 0 (lines.drop start) with
  | some k => ((start + k : Nat) : Int)
  | none => -1

/-- The pair of delimiters of the global `skip`: a parenthesised group. -/
def skip : Char × Char := ('(', ')')

/-- The pair `wstringcontainer{ L"{", L"}" }` handed to `FindLine`. -/
def braces : wstring × wstring := (['{'], ['}'])

/-! ## Numbers -/

/-- The value of a string of decimal digits, most significant digit first. -/
def decimalValue (ds : wstring) : Nat :=
  ds.foldl (fun acc c => 10 * acc + (c.toNat - '0'.toNat)) 0

/-- Modelled from the spec: the helper `strtol(text, value, 10)`, which is not in the
sources: the capacity and the integer literals are "parsed as an integer" in base
ten. The model reads an optional minus sign followed by one or more decimal
digits; for any other text it yields no value. -/
def strtol (s : wstring) : Option Int :=
  match s with
  | '-' :: ds =>
    if ds ≠ [] ∧ ds.all Char.isDigit then some (-(decimalValue ds : Int)) else none
  | ds =>
    if ds ≠ [] ∧ ds.all Char.isDigit then some (decimalValue ds : Int) else none

/-- The conversion `(int)l` of a `long` to a 32-bit `int`. -/
def toInt32 (l : Int) : Int :=
  (l + 2 ^ 31) % 2 ^ 32 - 2 ^ 31

/-! ## The data model -/

/-- The semantic types `tbool`, `tint` and `tfp`. The negative value that `GetType`
returns for a word that names no type is `none` of `Option types`. -/
inductive types
  | tbool
  | tint
  | tfp
  deriving DecidableEq

/-- The storage behind `variable::var`: the slot of a scalar, or the array allocated
by an array declaration. A floating-point element is kept as the token handed to
`strtod`. -/
inductive storage
  | scalar
  | bools (vals : List Bool)
  | ints (vals : List Int)
  | fps (vals : List wstring)
  deriving DecidableEq

/-- The class `variable` (a reserved word, hence the capital). -/
structure Variable where
  type : Option types
  modifyable : Bool
  name : wstring
  var : storage
  deriving DecidableEq

/-- The class `action` with its subclasses `calculation`, `loop` and `ifstatement`.
An action sequence is a vector of pointers; `null` is a null pointer in it. The
calculations are values of the type `Calc` of the expression sub-evaluator. -/
inductive action (Calc : Type) : Type
  | calculation (c : Calc)
  | loop (actions : List (action Calc))
  | ifstatement (actionswhentrue actionswhenfalse : List (action Calc))
  | null

/-- The class `internalfunction`. -/
structure internalfunction (Calc : Type) where
  name : wstring
  arguments : List Variable
  actions : List (action Calc)

/-- The class `area`: a scope. `vars` is the member `variables`. -/
structure area (Calc : Type) where
  Parent : Option (area Calc)
  vars : List Variable
  functions : List (internalfunction Calc)
  actions : List (action Calc)

/-- The kinds of diagnostics handed to `ShowCompilerError`. -/
inductive compilererror
  | linetooshort
  | noclosingbrace
  | notallindexesinitialized
  deriving DecidableEq

/-- A reported diagnostic: its kind and the text it carries. -/
abbrev Diag := compilererror × wstring

/-- The ways a run stops without a value. -/
inductive Fault
  /-- an index or a range outside a vector (`operator[]`, the range constructor) -/
  | badIndex
  /-- `std::out_of_range`, thrown by `substr` -/
  | outOfRange
  /-- an array allocation with a negative length -/
  | badLength
  /-- a number read from a text that `strtol` does not accept -/
  | noNumber
  /-- the fuel of the model is used up -/
  | outOfFuel
  deriving DecidableEq

/-- A run of the builder: the diagnostics reported, in order, and the value it
returned or the fault that ended it. -/
structure Outcome (α : Type) where
  diags : List Diag
  value : Except Fault α

namespace Outcome

/-- A run that returns at once. -/
def ret {α : Type} (a : α) : Outcome α := ⟨[], .ok a⟩

/-- A run that stops with a fault. -/
def fail {α : Type} (e : Fault) : Outcome α := ⟨[], .error e⟩

/-- The call `ShowCompilerError(kind, text)`: the diagnostic is reported and the run
goes on. -/
def report (kind : compilererror) (text : wstring) : Outcome Unit := ⟨[(kind, text)], .ok ()⟩

/-- Sequencing: the diagnostics of the first run, then those of the second. -/
def bind {α β : Type} (x : Outcome α) (f : α → Outcome β) : Outcome β :=
  match x.value with
  | .error e => ⟨x.diags, .error e⟩
  | .ok a => ⟨x.diags ++ (f a).diags, (f a).value⟩

end Outcome

/-- The element `xs[k]` of a vector; outside the vector the behaviour is undefined. -/
def index {α : Type} (xs : List α) (k : Nat) : Outcome α :=
  match xs[k]? with
  | some x => Outcome.ret x
  | none => Outcome.fail Fault.badIndex

/-- The range constructor `wstringcontainer{ &lines[first], &lines[last] }`: the
lines from `first` up to, not including, `last`. A `last` of `-1`, the result of a
failed search, is not a valid range. -/
def lineRange (lines : List wstring) (first : Nat) (last : Int) : Outcome (List wstring) :=
  if last < 0 then Outcome.fail Fault.badIndex
  else Outcome.ret ((lines.drop first).take (last.toNat - first))

/-- What the sources do not contain: the keyword table `GetType`, the expression
sub-evaluator `area::GetCalculation` (its last argument tells whether a result slot
is passed instead of `NULL`), and the mutability flag that the default constructor
of `variable` sets. -/
structure Env (Calc : Type) where
  GetType : wstring → Option types
  GetCalculation : area Calc → wstring → Bool → Option Calc
  defaultModifyable : Bool

/-! ## The scope builder -/

section Builder

variable {Calc : Type}

/-- The scope `new area()` with its `Parent` set. -/
def area.fresh (parent : Option (area Calc)) : area Calc :=
  { Parent := parent, vars := [], functions := [], actions := [] }

/-- The call `a->variables.push_back(v)`. -/
def area.pushVariable (a : area Calc) (v : Variable) : area Calc :=
  { a with vars := a.vars ++ [v] }

/-- The call `a->actions.push_back(x)`. -/
def area.pushAction (a : area Calc) (x : action Calc) : area Calc :=
  { a with actions := a.actions ++ [x] }

/-- The call `a->functions.push_back(f)`. -/
def area.pushFunction (a : area Calc) (f : internalfunction Calc) : area Calc :=
  { a with functions := a.functions ++ [f] }

/-- The keyword `const`. -/
def kwConst : wstring := ['c', 'o', 'n', 's', 't']

/-- The keyword `for`. -/
def kwFor : wstring := ['f', 'o', 'r']

/-- The keyword `if`. -/
def kwIf : wstring := ['i', 'f']

/-- The keyword `else`. -/
def kwElse : wstring := ['e', 'l', 's', 'e']

/-- The literal `true`. -/
def kwTrue : wstring := ['t', 'r', 'u', 'e']

/-- Lines 60-64: one argument of a function header becomes a modifiable variable; the
text before its first space is its type, the text after it its name. -/
def parseArgument (env : Env Calc) (argument : wstring) : Variable :=
  let arg := trim argument
  let spaceindex := wfind arg ' ' 0
  { type := env.GetType (trim (substr arg 0 spaceindex))
    modifyable := true
    name := trim (substr arg (spaceindex + 1).toNat (arg.length - spaceindex - 1))
    var := storage.scalar }

/-- Lines 47-78: a function definition. `rec` is the recursive call of `Compile`. -/
def compileFunction (env : Env Calc)
    (rec : List wstring → area Calc → Outcome (area Calc))
    (lines : List wstring) (cur : area Calc) (i : Nat) (line : wstring)
    (space1index index1 index2 brace2 : Int) : Outcome (area Calc × Int) :=
  let name := substr line (space1index + 1).toNat (index1 - space1index - 1)
  let argumentspace := substr line (index1 + 1).toNat (index2 - index1 - 1)
  let arguments :=
    if argumentspace.length ≠ 0 then (split_string ',' argumentspace).map (parseArgument env)
    else []
  let WithArguments : area Calc :=
    { Parent := some cur, vars := arguments, functions := [], actions := [] }
  (lineRange lines (i + 2) brace2).bind fun functionlines =>
  (rec functionlines WithArguments).bind fun a =>
  Outcome.ret
    (cur.pushFunction { name := name, arguments := arguments, actions := a.actions }, brace2)

/-- The first `count` elements of the literal list, each trimmed and converted; the
list has to hold that many. -/
def fillArray {β : Type} (conv : wstring → Outcome β) :
    Nat → List wstring → Outcome (List β)
  | 0, _ => Outcome.ret []
  | _ + 1, [] => Outcome.fail Fault.badIndex
  | n + 1, v :: vs =>
    (conv (trim v)).bind fun x => (fillArray conv n vs).bind fun xs => Outcome.ret (x :: xs)

/-- Lines 96-126: the storage `new T[count]` filled from the literal list. -/
def arrayStorage (vartype : types) (count : Int) (valcontainer : List wstring) :
    Outcome storage :=
  if count < 0 then Outcome.fail Fault.badLength
  else
    match vartype with
    | types.tbool =>
      (fillArray (fun v => Outcome.ret (decide (v = kwTrue))) count.toNat valcontainer).bind
        fun xs => Outcome.ret (storage.bools xs)
    | types.tint =>
      (fillArray
        (fun v =>
          match strtol v with
          | some l => Outcome.ret (toInt32 l)
          | none => Outcome.fail Fault.noNumber)
        count.toNat valcontainer).bind
        fun xs => Outcome.ret (storage.ints xs)
    | types.tfp =>
      (fillArray (fun v => Outcome.ret v) count.toNat valcontainer).bind
        fun xs => Outcome.ret (storage.fps xs)

/-- Lines 79-128: an array declaration. -/
def compileArray (env : Env Calc) (lines : List wstring) (cur : area Calc) (i : Nat)
    (line : wstring) (words : List wstring) (typeindex : Nat) (vartype : types)
    (brace2 : Int) : Outcome (area Calc × Int) :=
  let bracket0 := (wfind line '[' 0 + 1).toNat
  let bracket1 := wfind line ']' 0
  (index words (typeindex + 1)).bind fun namewithbrackets =>
  let name := substr namewithbrackets 0 (wfind namewithbrackets '[' 0)
  (match strtol (substr line bracket0 (bracket1 - bracket0)) with
    | some count => Outcome.ret count
    | none => Outcome.fail Fault.noNumber).bind fun count =>
  (index lines (i + 2)).bind fun values =>
  let valcontainer := split_string ',' values
  (if (valcontainer.length : Int) ≠ count then
      Outcome.report compilererror.notallindexesinitialized namewithbrackets
    else Outcome.ret ()).bind fun _ =>
  (arrayStorage vartype count valcontainer).bind fun var =>
  Outcome.ret
    (cur.pushVariable
      { type := some vartype, modifyable := env.defaultModifyable, name := name, var := var },
     brace2)

/-- Lines 136-159: the names of a scalar declaration list, in order. -/
def declareNames (env : Env Calc) (vartype : types) : area Calc → List wstring → area Calc
  | cur, [] => cur
  | cur, n :: names =>
    let declaration := trim n
    if declaration.length > 0 then
      let equalsindex := wfind declaration '=' 0
      if equalsindex > 0 then
        let cur1 := cur.pushVariable
          { type := some vartype, modifyable := true
            name := trim (substr declaration 0 equalsindex), var := storage.scalar }
        match env.GetCalculation cur1 declaration false with
        | some c => declareNames env vartype (cur1.pushAction (action.calculation c)) names
        | none => declareNames env vartype cur1 names
      else
        declareNames env vartype
          (cur.pushVariable
            { type := some vartype, modifyable := true
              name := trim declaration, var := storage.scalar })
          names
    else declareNames env vartype cur names

/-- Lines 132-160: a scalar declaration list. The name part starts at the first space
(the second one after `const`); without that space `substr` throws. -/
def compileScalars (env : Env Calc) (cur : area Calc) (i : Nat) (line : wstring)
    (vartype : types) (nameindex : Int) : Outcome (area Calc × Int) :=
  if nameindex < 0 then Outcome.fail Fault.outOfRange
  else
    let namepart := substr line nameindex.toNat (-1)
    let names := split_string_skip ',' skip 0 namepart
    Outcome.ret (declareNames env vartype cur names, (i : Int))

/-- Lines 162-195: a `for` construct. -/
def compileFor (env : Env Calc)
    (rec : List wstring → area Calc → Outcome (area Calc))
    (lines : List wstring) (cur : area Calc) (i : Nat) (line : wstring) :
    Outcome (area Calc × Int) :=
  let index1 := (wfind line '(' 0 + 1).toNat
  let index2 := Find line index1 ')' skip
  let betweenparentheses := substr line index1 (index2 - index1)
  let parenthesescontainer := split_string ';' betweenparentheses
  let bracket1 := i + 1
  let bracket2 := FindLine lines (bracket1 + 1) ['}'] braces
  (lineRange lines (bracket1 + 1) bracket2).bind fun betweenbrackets =>
  (index parenthesescontainer 2).bind fun increment =>
  let bracketscontainer := betweenbrackets ++ [increment]
  (index parenthesescontainer 0).bind fun init =>
  (rec [init] cur).bind fun abegin =>
  let cur1 : area Calc :=
    { cur with actions := cur.actions ++ abegin.actions, vars := cur.vars ++ abegin.vars }
  (rec bracketscontainer cur1).bind fun a =>
  (index parenthesescontainer 1).bind fun condition =>
  match env.GetCalculation a condition true with
  | some check =>
    Outcome.ret
      ((cur1.pushAction (action.calculation check)).pushAction
        (action.loop (a.actions ++ [action.calculation check])), bracket2)
  | none => Outcome.ret (cur1.pushAction (action.loop a.actions), bracket2)

/-- Lines 196-235: an `if` construct with its optional `else`. -/
def compileIf (env : Env Calc)
    (rec : List wstring → area Calc → Outcome (area Calc))
    (lines : List wstring) (cur : area Calc) (i : Nat) (line : wstring) :
    Outcome (area Calc × Int) :=
  let index1 := (wfind line '(' 0 + 1).toNat
  let index2 := Find line index1 ')' skip
  let betweenparentheses := substr line index1 (index2 - index1)
  let cur1 :=
    match env.GetCalculation cur betweenparentheses true with
    | some check => cur.pushAction (action.calculation check)
    | none => cur
  let truebracket1 := i + 1
  let truebracket2 := FindLine lines (truebracket1 + 1) ['}'] braces
  (lineRange lines (truebracket1 + 1) truebracket2).bind fun bracketscontainer =>
  (rec bracketscontainer cur1).bind fun truea =>
  (index lines (truebracket2 + 1).toNat).bind fun next =>
  if substrcomp next kwElse then
    let falsebracket1 := (truebracket2 + 2).toNat
    let falsebracket2 := FindLine lines (falsebracket1 + 1) ['}'] braces
    (lineRange lines (falsebracket1 + 1) falsebracket2).bind fun falsebracketscontainer =>
    (rec falsebracketscontainer cur1).bind fun falsea =>
    Outcome.ret (cur1.pushAction (action.ifstatement truea.actions falsea.actions), falsebracket2)
  else
    Outcome.ret (cur1.pushAction (action.ifstatement truea.actions []), truebracket2)

/-- Lines 236-240: a general statement; the pointer returned by the sub-evaluator is
pushed as it is. -/
def compileStatement (env : Env Calc) (cur : area Calc) (i : Nat) (line : wstring) :
    Outcome (area Calc × Int) :=
  match env.GetCalculation cur line false with
  | some c => Outcome.ret (cur.pushAction (action.calculation c), (i : Int))
  | none => Outcome.ret (cur.pushAction action.null, (i : Int))

/-- Lines 25-245: the body of the main loop for the line at the cursor `i`. The result
is the scope afterwards and the value of the cursor at the end of the body, before
the loop increments it. -/
def compileLine (env : Env Calc)
    (rec : List wstring → area Calc → Outcome (area Calc))
    (lines : List wstring) (cur : area Calc) (i : Nat) (line : wstring) :
    Outcome (area Calc × Int) :=
  if line.length > 2 then
    let words := split_string ' ' line
    let space1index := wfind line ' ' 0
    let space2index := wfind line ' ' (space1index + 1).toNat
    (index words 0).bind fun word0 =>
    let isconst := substrcomp word0 kwConst
    let typeindex := if isconst then 1 else 0
    (index words typeindex).bind fun typeword =>
    match env.GetType typeword with
    | some vartype =>
      if lines[i + 1]? = some ['{'] then
        let brace1 := i + 1
        let brace2 := FindLine lines (brace1 + 1) ['}'] braces
        (if brace2 < 0 then Outcome.report compilererror.noclosingbrace line
          else Outcome.ret ()).bind fun _ =>
        let index1 := wfind line '(' 0
        let index2 := Find line (index1 + 1).toNat ')' skip
        if index2 ≥ 0 then
          compileFunction env rec lines cur i line space1index index1 index2 brace2
        else
          compileArray env lines cur i line words typeindex vartype brace2
      else
        compileScalars env cur i line vartype (if isconst then space2index else space1index)
    | none =>
      if substrcomp line kwFor then compileFor env rec lines cur i line
      else if substrcomp line kwIf then compileIf env rec lines cur i line
      else compileStatement env cur i line
  else if line.length ≠ 0 then
    (Outcome.report compilererror.linetooshort line).bind fun _ => Outcome.ret (cur, (i : Int))
  else Outcome.ret (cur, (i : Int))

/-- Lines 23-247: the main loop from the cursor `i` on, with the scope built so far.
Every iteration and every level of recursion uses one unit of fuel. -/
def CompileLoop (env : Env Calc) :
    Nat → List wstring → area Calc → Nat → Outcome (area Calc)
  | 0, _, _, _ => Outcome.fail Fault.outOfFuel
  | fuel + 1, lines, cur, i =>
    match lines[i]? with
    | none => Outcome.ret cur
    | some line =>
      (compileLine env (fun ls parent => CompileLoop env fuel ls (area.fresh (some parent)) 0)
        lines cur i line).bind
        fun r => CompileLoop env fuel lines r.1 (r.2 + 1).toNat

/-- The function `compiler::Compile(lines, parent)`. -/
def Compile (env : Env Calc) (fuel : Nat) (lines : List wstring)
    (parent : Option (area Calc)) : Outcome (area Calc) :=
  CompileLoop env fuel lines (area.fresh parent) 0

end Builder


/-! ## The lexical normalizer -/

/-- Index of the first occurrence of the text `pat` in `s`, if any. -/
def findSubIdx (pat : wstring) : wstring → Option Nat
  | [] => if pat = [] then some 0 else none
  | c :: cs =>
    if pat.isPrefixOf (c :: cs) then some 0 else (findSubIdx pat cs).map (· + 1)

/-- The replacement pass of `replaceAll`: `k` is the number of characters of a matched
occurrence still to be passed over. -/
def replaceGo (pat rep : wstring) : wstring → Nat → wstring
  | [], _ => []
  | _ :: cs, k + 1 => replaceGo pat rep cs k
  | c :: cs, 0 =>
    if pat.isPrefixOf (c :: cs) then rep ++ replaceGo pat rep cs (pat.length - 1)
    else c :: replaceGo pat rep cs 0

/-- Modelled from the spec: `replace(s, pat, rep)`, which is not in the sources: every
occurrence of `pat`, found from left to right without overlap, is rewritten to
`rep` ("textually rewrite"). The source's name is taken by the core library. -/
def replaceAll (s pat rep : wstring) : wstring :=
  replaceGo pat rep s 0

/-- Modelled from the spec: `makelowercase`, which is not in the sources: "case-fold
the whole buffer"; the letters `A` to `Z` become `a` to `z`. -/
def makelowercase (s : wstring) : wstring :=
  s.map Char.toLower

/-- Lines 252-266: the loop of `RemoveComments` with the text so far and `lastindex`.
Without a line break behind a `//` the search for it yields `-1` and the cut keeps
the whole text, so the loop need not end: the model stops when its fuel is used
up. -/
def RemoveCommentsLoop : Nat → wstring → Nat → Option wstring
  | 0, _, _ => none
  | fuel + 1, str, lastindex =>
    match findSubIdx ['/', '/'] (str.drop lastindex) with
    | none => some str
    | some k =>
      let newindex := lastindex + k
      let newlineindex := wfind str '\n' (newindex + 1)
      RemoveCommentsLoop fuel
        (substr str 0 (newindex : Int) ++ substr str (newlineindex + 1).toNat (-1)) newindex

/-- The function `RemoveComments`. -/
def RemoveComments (fuel : Nat) (str : wstring) : Option wstring :=
  RemoveCommentsLoop fuel str 0

/-- Lines 279-286: a loop `while (code.find(pat) != npos) code = replace(code, pat, rep)`
for a replacement shorter than the pattern; every round shortens the text, so a
fuel of the length of the text is never used up. -/
def collapseLoop (pat rep : wstring) : Nat → wstring → wstring
  | 0, code => code
  | fuel + 1, code =>
    if (findSubIdx pat code).isSome then collapseLoop pat rep fuel (replaceAll code pat rep)
    else code

/-- Lines 272-286: the rewriting of the text after the comments are removed. -/
def normalizeText (code : wstring) : wstring :=
  let code := replaceAll code ['\n'] []
  let code := replaceAll code ['\r'] []
  let code := replaceAll code ['\t'] [' ']
  let code := replaceAll code ['}'] [';', '}', ';']
  let code := replaceAll code ['{'] [';', '{', ';']
  let code := makelowercase code
  let code := collapseLoop [';', ';'] [';'] code.length code
  collapseLoop [' ', ' '] [' '] code.length code

/-- Lines 288-294: the split into lines, each trimmed. -/
def splitLines (code : wstring) : List wstring :=
  (split_string_skip ';' skip 0 code).map trim

/-- The function `compiler::GetCodeLines`; `fuel` bounds the loop of
`RemoveComments`. -/
def GetCodeLines (fuel : Nat) (code : wstring) : Option (List wstring) :=
  (RemoveComments fuel code).map fun code => splitLines (normalizeText code)

/-- The function `compiler::Compile(code, a)`. -/
def CompileCode {Calc : Type} (env : Env Calc) (fuel : Nat) (code : wstring)
    (a : Option (area Calc)) : Option (Outcome (area Calc)) :=
  (GetCodeLines fuel code).map fun lines => Compile env fuel lines a

/-! ## Notions used to state the properties -/

section Nesting

variable {α : Type} [DecidableEq α]

/-- The change of nesting depth at one element: an opener of the pair adds one, a
closer takes one away. -/
def nestingStep (pair : α × α) (x : α) : Int :=
  if x = pair.1 then 1 else if x = pair.2 then -1 else 0

/-- Openers minus closers in a sequence. -/
def nesting (pair : α × α) (xs : List α) : Int :=
  (xs.map (nestingStep pair)).sum

/-- The pair is properly nested in the sequence: no prefix closes more than it has
opened, and everything opened is closed at the end. -/
def Balanced (pair : α × α) (xs : List α) : Prop :=
  (∀ k ≤ xs.length, 0 ≤ nesting pair (xs.take k)) ∧ nesting pair xs = 0

instance (pair : α × α) (xs : List α) : Decidable (Balanced pair xs) := by
  unfold Balanced
  infer_instance

/-- Every occurrence of `c` in the sequence lies inside an open pair. -/
def Nested (c : α) (pair : α × α) (xs : List α) : Prop :=
  ∀ k ≤ xs.length, xs[k]? = some c → 0 < nesting pair (xs.take k)

instance (c : α) (pair : α × α) (xs : List α) : Decidable (Nested c pair xs) := by
  unfold Nested
  infer_instance

end Nesting

/-- A run of `n` spaces. -/
def spaces (n : Nat) : wstring := List.replicate n ' '

/-- A word: not empty, without white space. -/
def IsWord (w : wstring) : Prop :=
  w ≠ [] ∧ ∀ c ∈ w, iswspace c = false

instance (w : wstring) : Decidable (IsWord w) := by
  unfold IsWord
  infer_instance

/-- The header line `type name(arguments)` of a function definition. -/
def functionHeader (type name arguments : wstring) : wstring :=
  type ++ ' ' :: name ++ '(' :: arguments ++ [')']

/-- The header line `type name[capacity]` of an array declaration. -/
def arrayHeader (type name capacity : wstring) : wstring :=
  type ++ ' ' :: name ++ '[' :: capacity ++ [']']

/-- The header line `for (init;cond;incr)`, with `pad` spaces after the keyword. -/
def forHeader (pad : Nat) (init cond incr : wstring) : wstring :=
  kwFor ++ spaces pad ++ '(' :: init ++ ';' :: cond ++ ';' :: incr ++ [')']

/-- The header line `if (cond)`, with `pad` spaces after the keyword. -/
def ifHeader (pad : Nat) (cond : wstring) : wstring :=
  kwIf ++ spaces pad ++ '(' :: cond ++ [')']

/-- The first word of a line: the text before its first space. -/
def firstWord (line : wstring) : wstring :=
  line.takeWhile (· ≠ ' ')

/-- The recursive call made by the main loop with `fuel` units left: `Compile` of
the lines of a block against a parent scope. -/
def recCompile {Calc : Type} (env : Env Calc) (fuel : Nat) :
    List wstring → area Calc → Outcome (area Calc) :=
  fun ls parent => Compile env fuel ls (some parent)

/-! ## A concrete environment -/

/-- Modelled from the spec: the keyword table `GetType`, which is not in the sources;
the spec names the type keywords "boolean/integer/float". -/
def keywordTable (w : wstring) : Option types :=
  if w = ['b', 'o', 'o', 'l', 'e', 'a', 'n'] then some types.tbool
  else if w = ['i', 'n', 't', 'e', 'g', 'e', 'r'] then some types.tint
  else if w = ['f', 'l', 'o', 'a', 't'] then some types.tfp
  else none

/-- An environment for examples: the keyword table of the spec, and a sub-evaluator
that accepts every text and returns the text itself as the calculation. -/
def demoEnv : Env wstring :=
  { GetType := keywordTable
    GetCalculation := fun _ text _ => some text
    defaultModifyable := true }

/-- A plain word: a word without comma or parenthesis. -/
def IsPlain (w : wstring) : Prop :=
  w ≠ [] ∧ ∀ c ∈ w, iswspace c = false ∧ c ≠ ',' ∧ c ≠ '(' ∧ c ≠ ')'

instance (w : wstring) : Decidable (IsPlain w) := by
  unfold IsPlain
  infer_instance

/-- One parameter `type name` of a function header as it is written: the two words
with one space between them, `lead` spaces before and `trail` spaces after. -/
structure ParamText where
  lead : Nat
  type : wstring
  name : wstring
  trail : Nat

/-- The text of a parameter. -/
def ParamText.text (p : ParamText) : wstring :=
  spaces p.lead ++ p.type ++ ' ' :: p.name ++ spaces p.trail

/-- The text between the parentheses of a function header: the parameters separated
by commas. -/
def argumentText (ps : List ParamText) : wstring :=
  List.intercalate [','] (ps.map ParamText.text)

/-- The variable that a parameter stands for: its type as `GetType` reads it, its
name, modifiable. -/
def ParamText.toVariable {Calc : Type} (env : Env Calc) (p : ParamText) : Variable :=
  { type := env.GetType p.type, modifyable := true, name := p.name, var := storage.scalar }

/-- Lines of an example: a function whose body is an `if` that contains a `for`,
with an `else` branch, followed by a declaration. -/
def demoFunctionBody : List wstring :=
  [ "if (a < b)".toList, ['{'],
    "for (i = 0; i < 3; i++)".toList, ['{'], "a++".toList, ['}'],
    ['}'], "else".toList, ['{'], "b++".toList, ['}'] ]

/-- One declarator of a scalar declaration list as it is written: `lead` spaces, the
name, `gap` spaces and, when there is an initializer, `=` and the text of the
expression. -/
structure Declarator where
  lead : Nat
  name : wstring
  gap : Nat
  init : Option wstring

/-- The text of a declarator. -/
def Declarator.text (d : Declarator) : wstring :=
  spaces d.lead ++ (d.name ++ spaces d.gap ++
    match d.init with
    | none => []
    | some e => '=' :: e)

/-- A valid declarator: its name is a word without `=`, comma or parenthesis, and in
its initializer the parentheses are properly nested with every comma inside them. -/
def Declarator.WellFormed (d : Declarator) : Prop :=
  IsPlain d.name ∧ '=' ∉ d.name ∧ ∀ e ∈ d.init, Balanced skip e ∧ Nested ',' skip e

instance (d : Declarator) : Decidable d.WellFormed := by
  unfold Declarator.WellFormed
  infer_instance

/-- The variable that a declarator of a declaration of type `t` stands for. -/
def Declarator.toVariable (t : types) (d : Declarator) : Variable :=
  { type := some t, modifyable := true, name := d.name, var := storage.scalar }

/-- The text of a scalar declaration: the type word, a space, and the declarators
separated by commas. -/
def declarationText (type : wstring) (ds : List Declarator) : wstring :=
  type ++ ' ' :: List.intercalate [','] (ds.map Declarator.text)

/-- The text `xs` put in front of the first piece of a split. -/
def consHead (xs : wstring) : List wstring → List wstring
  | [] => [xs]
  | p :: ps => (xs ++ p) :: ps


/-- The text `w` contains none of the characters `cs`. -/
def Avoids (w : wstring) (cs : List Char) : Prop :=
  ∀ c ∈ w, c ∉ cs

instance (w : wstring) (cs : List Char) : Decidable (Avoids w cs) := by
  unfold Avoids
  infer_instance

/-- A decimal numeral: one or more decimal digits. -/
def IsNumeral (ds : wstring) : Prop :=
  ds ≠ [] ∧ ∀ c ∈ ds, c.isDigit = true

instance (ds : wstring) : Decidable (IsNumeral ds) := by
  unfold IsNumeral
  infer_instance

/-- An integer literal of an initializer list as it is written: `lead` spaces, an
optional minus sign, the digits, `trail` spaces. -/
structure IntLiteral where
  lead : Nat
  negative : Bool
  digits : wstring
  trail : Nat

/-- The text of an integer literal. -/
def IntLiteral.text (l : IntLiteral) : wstring :=
  spaces l.lead ++ ((if l.negative then ['-'] else []) ++ l.digits) ++ spaces l.trail

/-- The base-10 value of an integer literal. -/
def IntLiteral.value (l : IntLiteral) : Int :=
  if l.negative then -(decimalValue l.digits : Int) else (decimalValue l.digits : Int)

/-! ## Notions for the normalizer -/

/-- The text with every run of the character `c` shortened to one `c`. -/
def squeeze (c : Char) : wstring → wstring
  | [] => []
  | [x] => [x]
  | x :: y :: r => if x = c ∧ y = c then squeeze c (y :: r) else x :: squeeze c (y :: r)

/-- The two brace characters. -/
def isBrace (c : Char) : Prop := c = '{' ∨ c = '}'

instance (c : Char) : Decidable (isBrace c) := by
  unfold isBrace
  infer_instance

/-- What the two brace rewritings of lines 275-276 make of one character. -/
def braceText (c : Char) : wstring :=
  if c = '}' then [';', '}', ';'] else if c = '{' then [';', '{', ';'] else [c]

/-- Neighbours in a normalized text: a brace has a separator on either side, and
neither two separators nor two spaces follow each other. -/
def okPair (a b : Char) : Prop :=
  (isBrace b → a = ';') ∧ (isBrace a → b = ';') ∧ ¬(a = ';' ∧ b = ';') ∧ ¬(a = ' ' ∧ b = ' ')

instance (a b : Char) : Decidable (okPair a b) := by
  unfold okPair
  infer_instance

/-- A character that the rewriting leaves in a normalized text: no line break, no
tab, no upper-case letter. -/
def okChar (c : Char) : Prop :=
  c ≠ '\n' ∧ c ≠ '\r' ∧ c ≠ '\t' ∧ c.toLower = c

/-- A normalized text: made of the characters above, with the neighbours above, and
with no brace at either end (`a` stands for the missing neighbour there). -/
def Normalized (s : wstring) : Prop :=
  (∀ c ∈ s, okChar c) ∧ List.Chain' okPair ('a' :: s ++ ['a'])

/-- The depth at the end of a text scanned from the depth `d`. -/
def scanDepth (pair : Char × Char) : Nat → wstring → Nat
  | d, [] => d
  | d, x :: r => scanDepth pair (skipDepth pair d x) r

/-- No separator `c` is met outside the pair when the text is scanned from the
depth `d`. -/
def topFree (c : Char) (pair : Char × Char) : Nat → wstring → Prop
  | _, [] => True
  | d, x :: r => ¬(d = 0 ∧ x = c) ∧ topFree c pair (skipDepth pair d x) r

/-- The pieces of a split started at the depth `d`: no piece has a separator outside
the pair, and every piece but the last ends at depth `0`. -/
def Pieces (c : Char) (pair : Char × Char) : Nat → List wstring → Prop
  | _, [] => False
  | d, [p] => topFree c pair d p
  | d, p :: q :: r => topFree c pair d p ∧ scanDepth pair d p = 0 ∧ Pieces c pair 0 (q :: r)

/-- The neighbours of a brace. -/
def braceOk (a b : Char) : Prop :=
  (isBrace b → a = ';') ∧ (isBrace a → b = ';')


/-- The text after the line breaks are deleted and the tabs turned into spaces. -/
def flattenText (x : wstring) : wstring :=
  replaceAll (replaceAll (replaceAll x ['\n'] []) ['\r'] []) ['\t'] [' ']


/-- Lines 28-35: the type that the type word of a line names, if it names one; the
type word is the first word, or the second one behind a word that begins with
`const`. -/
def declaredType {Calc : Type} (env : Env Calc) (line : wstring) : Option types :=
  match (split_string ' ' line)[0]? with
  | none => none
  | some word0 =>
    match (split_string ' ' line)[if substrcomp word0 kwConst then 1 else 0]? with
    | none => none
    | some typeword => env.GetType typeword

/-- Lines 48-50: the line has a parenthesised argument list: behind its first `(`
there is a `)` that closes it. -/
def HasArgumentList (line : wstring) : Prop :=
  Find line (wfind line '(' 0 + 1).toNat ')' skip ≥ 0

instance (line : wstring) : Decidable (HasArgumentList line) := by
  unfold HasArgumentList
  infer_instance

/-! ## Notions for the statements of a source text -/

/-- A statement as the normalizer leaves it: not empty, trimmed, without upper-case
letter, and without separator, brace, parenthesis, line break or tab, comment
marker or doubled space. -/
def IsStatement (s : wstring) : Prop :=
  s ≠ [] ∧ trim s = s ∧ (∀ c ∈ s, c.isUpper = false)
    ∧ Avoids s [';', '{', '}', '(', ')', '\n', '\r', '\t']
    ∧ findSubIdx ['/', '/'] s = none ∧ findSubIdx [' ', ' '] s = none

instance (s : wstring) : Decidable (IsStatement s) := by
  unfold IsStatement
  infer_instance

/-- The source text of a list of statements: each followed by the separator. -/
def statementsText (ss : List wstring) : wstring :=
  ss.flatMap fun s => s ++ [';']

/-! ## Comments, as the spec describes them -/

/-- What the spec says of comments, read from left to right: outside a comment a
`//` opens one and every other character is kept; inside a comment every character
is dropped, and the line break that ends it is dropped too. The flag tells whether
the text starts inside a comment. -/
def stripGo : Bool → wstring → wstring
  | _, [] => []
  | true, c :: cs => if c = '\n' then stripGo false cs else stripGo true cs
  | false, c :: cs =>
    if ['/', '/'].isPrefixOf (c :: cs) then stripGo true cs else c :: stripGo false cs

/-- The text with "everything from each `//` to the next line break" removed. -/
def stripComments (s : wstring) : wstring :=
  stripGo false s

/-- Every `//` of the text is followed, somewhere later, by a line break. -/
def CommentsClosed (s : wstring) : Prop :=
  ∀ t ∈ s.tails, ['/', '/'] <+: t → '\n' ∈ t

instance (s : wstring) : Decidable (CommentsClosed s) := by
  unfold CommentsClosed
  infer_instance

/-! ## Braces and parenthesised groups -/

/-- No brace of the text lies inside a parenthesised group, when the text is read
from the depth `d`: at every brace the depth is `0`. -/
def bracesOutside : Nat → wstring → Prop
  | _, [] => True
  | d, x :: r => (isBrace x → d = 0) ∧ bracesOutside (skipDepth skip d x) r

/-- Deciding `bracesOutside`. -/
def bracesOutside.decide : (d : Nat) → (s : wstring) → Decidable (bracesOutside d s)
  | _, [] => isTrue trivial
  | d, x :: r =>
    match bracesOutside.decide (skipDepth skip d x) r with
    | isTrue h =>
      if h0 : isBrace x → d = 0 then isTrue ⟨h0, h⟩ else isFalse fun hh => h0 hh.1
    | isFalse h => isFalse fun hh => h hh.2

instance (d : Nat) (s : wstring) : Decidable (bracesOutside d s) :=
  bracesOutside.decide d s

/-- The characters that carry the structure of a text: parentheses and braces. -/
def isStructural (x : Char) : Bool :=
  x = '(' || x = ')' || x = '{' || x = '}'

/-- A line that consists of one brace. -/
def isBraceLine (l : wstring) : Prop :=
  l = ['{'] ∨ l = ['}']

instance (l : wstring) : Decidable (isBraceLine l) := by
  unfold isBraceLine
  infer_instance

/-- The braces of a text, in order. -/
def bracesOf (s : wstring) : wstring :=
  s.filter fun x => decide (isBrace x)

/-! ## General statements -/

/-- Lines 28-34: the type word of a line: its first word, or its second one behind a
first word that begins with `const`; `none` when the line has no such word. -/
def typeWord (line : wstring) : Option wstring :=
  match (split_string ' ' line)[0]? with
  | none => none
  | some word0 => (split_string ' ' line)[if substrcomp word0 kwConst then 1 else 0]?

/-- An environment for examples whose sub-evaluator produces nothing: the keyword
table of the spec, and `GetCalculation` returning the null pointer. -/
def silentEnv : Env wstring :=
  { GetType := keywordTable
    GetCalculation := fun _ _ _ => none
    defaultModifyable := true }

/-! ## Notions for termination -/

/-- The total number of characters of a line sequence. -/
def totalChars (lines : List wstring) : Nat :=
  (lines.map List.length).sum

/-- Every `{` line of the sequence has a balancing `}` line: the balance search started
behind it finds a closer. -/
def BracesClosed (lines : List wstring) : Prop :=
  ∀ j < lines.length, lines[j]? = some ['{'] → 0 ≤ FindLine lines (j + 1) ['}'] braces

instance (lines : List wstring) : Decidable (BracesClosed lines) := by
  unfold BracesClosed
  infer_instance

/-- Every `{` line of the sequence that is not its last line has a balancing `}`
line. -/
def InnerBracesClosed (lines : List wstring) : Prop :=
  ∀ j, j + 1 < lines.length → lines[j]? = some ['{'] →
    0 ≤ FindLine lines (j + 1) ['}'] braces

/-- The run ends: it returns a value or stops with a fault of the program, not
because the fuel of the model is used up. -/
def Outcome.Ends {α : Type} (x : Outcome α) : Prop :=
  x.value ≠ .error Fault.outOfFuel

/-- The fuel that is enough for a line sequence: every iteration of the main loop and
every level of recursion uses one unit. -/
def enoughFuel (lines : List wstring) : Nat :=
  totalChars lines + lines.length + 1

/-- What the main loop hands to a recursive call while it is at the cursor `i` of
`lines`: a sequence with fewer characters, for which the fuel left is enough, and in
which the braces are closed. -/
def SmallerBlock (lines : List wstring) (i : Nat) (ls : List wstring) : Prop :=
  totalChars ls < totalChars lines
    ∧ enoughFuel ls ≤ totalChars lines + (lines.length - i)
    ∧ InnerBracesClosed ls

/-- Lines of an example: a function with the body `demoFunctionBody`, followed by a
declaration. -/
def demoProgram : List wstring :=
  "integer f(integer a, integer b)".toList :: ['{'] :: demoFunctionBody
    ++ ['}'] :: ["integer x = 3, y".toList]

/-! ## A scalar declaration, declarator by declarator -/

/-- Spec side: what one declarator of a declaration of type `t` adds to the scope
`cur`, written from the words of the contract to be compared with `declareNames`: the
variable of the declarator, and, when the declarator has an initializer, the
calculation that the sub-evaluator gives for the text `name = expression` in the
scope that already holds that variable; a null result adds nothing. -/
def Declarator.declare {Calc : Type} (env : Env Calc) (t : types) (cur : area Calc)
    (d : Declarator) : area Calc :=
  match d.init with
  | none => cur.pushVariable (d.toVariable t)
  | some _ =>
    match env.GetCalculation (cur.pushVariable (d.toVariable t)) (trim d.text) false with
    | some c => (cur.pushVariable (d.toVariable t)).pushAction (action.calculation c)
    | none => cur.pushVariable (d.toVariable t)

/-- Spec side: the declarators of a declaration, one after the other from left to
right. -/
def declareAll {Calc : Type} (env : Env Calc) (t : types) (cur : area Calc)
    (ds : List Declarator) : area Calc :=
  ds.foldl (Declarator.declare env t) cur

/-- An environment for examples whose sub-evaluator looks at the scope: the keyword
table of the spec, and `GetCalculation` giving the text itself in a scope that holds
a variable whose name the text begins with, and the null pointer in any other. -/
def strictEnv : Env wstring :=
  { GetType := keywordTable
    GetCalculation := fun scope text _ =>
      if scope.vars.any (fun v => v.name.isPrefixOf text) then some text else none
    defaultModifyable := true }

/-! ## The top-level constructs of a line sequence -/

/-- A line that stands alone, as it is written: a scalar declaration
`type n1 [= e1], ...`, a general statement, or a line of at most two characters. -/
inductive Simple
  | declaration (ty : wstring) (ds : List Declarator)
  | statement (line : wstring)
  | blank (line : wstring)

/-- The text of a line that stands alone. -/
def Simple.text : Simple → wstring
  | .declaration ty ds => declarationText ty ds
  | .statement line => line
  | .blank line => line

/-- The variables that a line that stands alone declares: those of the declarators of
a declaration, in order; a statement declares none. -/
def Simple.vars {Calc : Type} (env : Env Calc) : Simple → List Variable
  | .declaration ty ds =>
    match env.GetType ty with
    | some t => ds.map (Declarator.toVariable t)
    | none => []
  | .statement _ => []
  | .blank _ => []

/-- A line that stands alone is well formed: a declaration has a type keyword without
space as its first word and valid declarators; a statement has more than two
characters, a type word that is no type keyword, and does not begin with the letters
of `for` or `if`; any other line has at most two characters. -/
def Simple.WellFormed {Calc : Type} (env : Env Calc) : Simple → Prop
  | .declaration ty ds =>
    (env.GetType ty).isSome ∧ ty ≠ [] ∧ substrcomp ty kwConst = false ∧ ' ' ∉ ty
      ∧ ds ≠ [] ∧ ∀ d ∈ ds, d.WellFormed
  | .statement line =>
    line.length > 2 ∧ (typeWord line).isSome ∧ (∀ w ∈ typeWord line, env.GetType w = none)
      ∧ substrcomp line kwFor = false ∧ substrcomp line kwIf = false
  | .blank line => line.length ≤ 2

/-- A top-level construct of a line sequence, as it is written: a line that stands
alone, an array declaration with its list of values, a function definition, a `for`
construct, or an `if` construct without or with `else`. The bodies are the lines
between the braces. -/
inductive Item
  | simple (s : Simple)
  | array (ty name capacity values : wstring)
  | function (ty name args : wstring) (body : List wstring)
  | forLoop (pad : Nat) (init : Simple) (cond incr : wstring) (body : List wstring)
  | ifOnly (pad : Nat) (cond : wstring) (body : List wstring)
  | ifElse (pad : Nat) (cond : wstring) (body1 body2 : List wstring)

/-- The first line of a construct. -/
def Item.header : Item → wstring
  | .simple s => s.text
  | .array ty name capacity _ => arrayHeader ty name capacity
  | .function ty name args _ => functionHeader ty name args
  | .forLoop pad init cond incr _ => forHeader pad init.text cond incr
  | .ifOnly pad cond _ => ifHeader pad cond
  | .ifElse pad cond _ _ => ifHeader pad cond

/-- The lines of a construct behind its first line. -/
def Item.block : Item → List wstring
  | .simple _ => []
  | .array _ _ _ values => [['{'], values, ['}']]
  | .function _ _ _ body => ['{'] :: body ++ [['}']]
  | .forLoop _ _ _ _ body => ['{'] :: body ++ [['}']]
  | .ifOnly _ _ body => ['{'] :: body ++ [['}']]
  | .ifElse _ _ body1 body2 => ['{'] :: body1 ++ ['}'] :: kwElse :: ['{'] :: body2 ++ [['}']]

/-- The lines of a construct. -/
def Item.lines (it : Item) : List wstring :=
  it.header :: it.block

/-- The variable that an array declaration declares; its storage is what the list of
values fills. -/
def arrayVariable {Calc : Type} (env : Env Calc) (t : types) (name capacity values : wstring) :
    Variable :=
  { type := some t
    modifyable := env.defaultModifyable
    name := name
    var :=
      match (arrayStorage t (decimalValue capacity : Int) (split_string ',' values)).value with
      | .ok st => st
      | .error _ => storage.scalar }

/-- The variables that a top-level construct declares in the scope it stands in: those
of a scalar declaration, the array of an array declaration, and those of the init
clause of a `for` header. -/
def Item.vars {Calc : Type} (env : Env Calc) : Item → List Variable
  | .simple s => s.vars env
  | .array ty name capacity values =>
    match env.GetType ty with
    | some t => [arrayVariable env t name capacity values]
    | none => []
  | .function _ _ _ _ => []
  | .forLoop _ init _ _ _ => init.vars env
  | .ifOnly _ _ _ => []
  | .ifElse _ _ _ _ => []

/-- The names of the functions that a top-level construct defines. -/
def Item.functionNames : Item → List wstring
  | .function _ name _ _ => [name]
  | _ => []

/-- The shape of a top-level construct: what the headers and the bodies have to be
for the builder to read the construct as what it is. -/
def Item.Shaped {Calc : Type} (env : Env Calc) : Item → Prop
  | .simple s => s.WellFormed env
  | .array ty name capacity values =>
    (env.GetType ty).isSome ∧ substrcomp ty kwConst = false
      ∧ Avoids ty [' ', ')', '[', ']'] ∧ Avoids name [' ', ')', '[', ']']
      ∧ IsNumeral capacity ∧ values ≠ ['{'] ∧ values ≠ ['}']
  | .function ty name args body =>
    (env.GetType ty).isSome ∧ substrcomp ty kwConst = false ∧ ' ' ∉ ty ∧ '(' ∉ ty
      ∧ '(' ∉ name ∧ Balanced skip args ∧ Balanced braces body
  | .forLoop pad init cond incr body =>
    init.WellFormed env
      ∧ env.GetType (firstWord (forHeader pad init.text cond incr)) = none
      ∧ Balanced skip init.text ∧ Balanced skip cond ∧ Balanced skip incr
      ∧ ';' ∉ init.text ∧ ';' ∉ cond ∧ ';' ∉ incr ∧ Balanced braces body
  | .ifOnly pad cond body =>
    env.GetType (firstWord (ifHeader pad cond)) = none ∧ Balanced skip cond
      ∧ Balanced braces body
  | .ifElse pad cond body1 body2 =>
    env.GetType (firstWord (ifHeader pad cond)) = none ∧ Balanced skip cond
      ∧ Balanced braces body1 ∧ Balanced braces body2

/-- A well-formed top-level construct: it has its shape, and its first line is neither
a `{` line nor a line that begins with the letters of `else`. -/
def Item.WellFormed {Calc : Type} (env : Env Calc) (it : Item) : Prop :=
  it.Shaped env ∧ it.header ≠ ['{'] ∧ substrcomp it.header kwElse = false

/-- The lines of a sequence of top-level constructs. -/
def programLines (items : List Item) : List wstring :=
  items.flatMap Item.lines

/-- Constructs of an example: a function with a parameter whose body declares a
variable and defines a function, a `for` loop whose init clause declares `i` and
whose body declares a variable, an `if` with an `else` whose branches declare
variables, an array declaration, a scalar declaration, and a statement. -/
def demoItems : List Item :=
  [ .function "integer".toList "f".toList "integer a".toList
      ["integer local = 1".toList, "integer g()".toList, ['{'], "integer deep".toList, ['}']],
    .forLoop 1 (.declaration "integer".toList [⟨0, "i".toList, 1, some " 0".toList⟩])
      " i < 3".toList " i++".toList ["integer inner = 2".toList],
    .ifElse 1 "i < 1".toList ["integer t = 1".toList] ["integer e = 2".toList],
    .array "integer".toList "arr".toList "2".toList "1,2".toList,
    .simple (.declaration "integer".toList
      [⟨0, "x".toList, 1, some " 3".toList⟩, ⟨1, "y".toList, 0, none⟩]),
    .simple (.statement "x = i + 1".toList) ]

end Compiler

/-!
# The permutation table of `include/SimplexNoise.cpp`

The constructor `SimplexNoise::SimplexNoise(int seed)` fills the table `perm` and
shuffles it with the values of `rand()`; `hash` reads it.

* The table is a `List Nat` of the values of its `uint8_t` entries.
* `rand()` is a function of the number of calls made before: `rand k` is the value,
  never negative, of the call number `k` after `srand(seed)`.
-/

namespace SimplexNoise

/-- The macro `NOISE_REPEAT`, which is not in the sources: the length of the table.
`hash` takes its branch for the value `0x100`. -/
def NOISE_REPEAT : Nat := 256

/-- The conversion `static_cast<uint8_t>` of an integer. -/
def toUInt8 (i : Int) : Nat :=
  (i % 2 ^ 8).toNat

/-- Lines 102-105: the table filled with `static_cast<uint8_t>(i)` at every index
`i` below `n`. -/
def fillTable (n : Nat) : List Nat :=
  (List.range n).map fun (i : Nat) => toUInt8 (i : Int)

/-- Lines 109-115: the shuffle loop from the index `i` down to `1`, with `k` calls of
`rand()` made before: the entry at `i` and the entry at `rand() % (i + 1)` change
places. -/
def shuffleLoop (rand : Nat → Nat) : Nat → Nat → List Nat → List Nat
  | 0, _, perm => perm
  | i + 1, k, perm =>
    let current := perm.getD (i + 1) 0
    let index := rand k % (i + 1 + 1)
    let perm1 := perm.set (i + 1) (perm.getD index 0)
    shuffleLoop rand i (k + 1) (perm1.set index current)

set_option linter.dupNamespace false in
/-- The constructor `SimplexNoise::SimplexNoise`: the table `perm` that it leaves. -/
def SimplexNoise (rand : Nat → Nat) : List Nat :=
  shuffleLoop rand (NOISE_REPEAT - 1) 0 (fillTable NOISE_REPEAT)

/-- Lines 144-151: `hash`, in its branch for `NOISE_REPEAT == 0x100`: the entry of the
table at `static_cast<uint8_t>(i)`. -/
def hash (perm : List Nat) (i : Int) : Option Nat :=
  perm[toUInt8 i]?

end SimplexNoise

namespace Compiler

/-! # Properties -/

/-! ## Runs -/

section Runs

variable {α β : Type}

@[simp] theorem Outcome.bind_ret (a : α) (f : α → Outcome β) :
    (Outcome.ret a).bind f = f a := by
  simp [Outcome.bind, Outcome.ret]

@[simp] theorem Outcome.bind_fail (e : Fault) (f : α → Outcome β) :
    (Outcome.fail e).bind f = Outcome.fail e := by
  simp [Outcome.bind, Outcome.fail]

theorem Outcome.bind_report (k : compilererror) (t : wstring) (f : Unit → Outcome β) :
    (Outcome.report k t).bind f = ⟨(k, t) :: (f ()).diags, (f ()).value⟩ := by
  simp [Outcome.bind, Outcome.report]

theorem Outcome.bind_value_ok (x : Outcome α) (f : α → Outcome β) (a : α)
    (h : x.value = .ok a) : (x.bind f).value = (f a).value := by
  simp [Outcome.bind, h]

theorem Outcome.bind_diags_ok (x : Outcome α) (f : α → Outcome β) (a : α)
    (h : x.value = .ok a) : (x.bind f).diags = x.diags ++ (f a).diags := by
  simp [Outcome.bind, h]

theorem index_eq_ret (xs : List α) (k : Nat) (x : α) (h : xs[k]? = some x) :
    index xs k = Outcome.ret x := by
  simp [index, h]

end Runs

/-! ## Searching and splitting -/

theorem findIdx_append (c : Char) (a b : wstring) (h : c ∉ a) :
    findIdx c (a ++ c :: b) = some a.length := by
  induction a with
  | nil => simp [findIdx]
  | cons x xs ih =>
    have hx : x ≠ c := fun e => h (by simp [e])
    have hxs : c ∉ xs := fun e => h (by simp [e])
    simp [findIdx, hx, ih hxs]

theorem findIdx_none (c : Char) (a : wstring) (h : c ∉ a) : findIdx c a = none := by
  induction a with
  | nil => simp [findIdx]
  | cons x xs ih =>
    have hx : x ≠ c := fun e => h (by simp [e])
    have hxs : c ∉ xs := fun e => h (by simp [e])
    simp [findIdx, hx, ih hxs]

theorem wfind_append (c : Char) (a b : wstring) (h : c ∉ a) :
    wfind (a ++ c :: b) c 0 = (a.length : Int) := by
  simp [wfind, findIdx_append c a b h]

theorem wfind_none (c : Char) (a : wstring) (h : c ∉ a) : wfind a c 0 = -1 := by
  simp [wfind, findIdx_none c a h]

theorem split_string_ne_nil (d : Char) (s : wstring) : split_string d s ≠ [] := by
  induction s with
  | nil => simp [split_string]
  | cons c cs ih =>
    unfold split_string
    split
    · simp
    · split <;> simp

theorem split_string_append (d : Char) (a b : wstring) (h : d ∉ a) :
    split_string d (a ++ d :: b) = a :: split_string d b := by
  induction a with
  | nil => simp [split_string]
  | cons x xs ih =>
    have hx : x ≠ d := fun e => h (by simp [e])
    have hxs : d ∉ xs := fun e => h (by simp [e])
    simp [split_string, hx, ih hxs]

theorem split_string_single (d : Char) (a : wstring) (h : d ∉ a) :
    split_string d a = [a] := by
  induction a with
  | nil => simp [split_string]
  | cons x xs ih =>
    have hx : x ≠ d := fun e => h (by simp [e])
    have hxs : d ∉ xs := fun e => h (by simp [e])
    simp [split_string, hx, ih hxs]

theorem split_string_intercalate (d : Char) (p : wstring) (ps : List wstring)
    (h : ∀ q ∈ p :: ps, d ∉ q) :
    split_string d (List.intercalate [d] (p :: ps)) = p :: ps := by
  induction ps generalizing p with
  | nil =>
    simp [List.intercalate]
    exact split_string_single d p (h p (by simp))
  | cons q qs ih =>
    have hp : d ∉ p := h p (by simp)
    have : List.intercalate [d] (p :: q :: qs) = p ++ d :: List.intercalate [d] (q :: qs) := by
      simp [List.intercalate]
    rw [this, split_string_append d p _ hp, ih q (fun r hr => h r (by simp at hr ⊢; tauto))]

/-! ## The balance search -/

section Search

variable {α : Type} [DecidableEq α]

theorem nesting_nil (pair : α × α) : nesting pair ([] : List α) = 0 := by
  simp [nesting]

theorem nesting_cons (pair : α × α) (x : α) (xs : List α) :
    nesting pair (x :: xs) = nestingStep pair x + nesting pair xs := by
  simp [nesting]

theorem nesting_append (pair : α × α) (xs ys : List α) :
    nesting pair (xs ++ ys) = nesting pair xs + nesting pair ys := by
  simp [nesting]

/-- The search started at depth `d` runs over a text that never closes more than is
open and ends at depth `0`, and stops at the closer that follows it. -/
theorem seekBalanced_closer (pair : α × α) (hne : pair.1 ≠ pair.2) (xs post : List α) :
    ∀ d : Nat, (∀ k ≤ xs.length, 0 ≤ (d : Int) + nesting pair (xs.take k)) →
      (d : Int) + nesting pair xs = 0 →
      seekBalanced pair.2 pair d (xs ++ pair.2 :: post) = some xs.length := by
  induction xs with
  | nil =>
    intro d _ h0
    have : d = 0 := by simpa [nesting] using h0
    simp [seekBalanced, this]
  | cons x xs ih =>
    intro d hpre h0
    have h1 := hpre 1 (by simp)
    simp only [List.take_succ_cons, List.take_zero, nesting_cons, nesting_nil] at h1
    rw [nesting_cons] at h0
    have hpre' : ∀ k ≤ xs.length,
        0 ≤ (d : Int) + nestingStep pair x + nesting pair (xs.take k) := by
      intro k hk
      have := hpre (k + 1) (by simpa using hk)
      simp only [List.take_succ_cons, nesting_cons] at this
      omega
    by_cases hx1 : x = pair.1
    · have hx2 : x ≠ pair.2 := fun e => hne (hx1.symm.trans e)
      have hs : nestingStep pair x = 1 := by simp [nestingStep, hx1]
      have hd : skipDepth pair d x = d + 1 := by simp [skipDepth, hx1]
      have := ih (d + 1) (by intro k hk; have := hpre' k hk; rw [hs] at this; push_cast; omega)
        (by rw [hs] at h0; push_cast; omega)
      simp [seekBalanced, hx2, hd, this]
    · by_cases hx2 : x = pair.2
      · have hne' : ¬ pair.2 = pair.1 := fun e => hne e.symm
        have hs : nestingStep pair x = -1 := by simp [nestingStep, hx2, hne']
        rw [hs] at h1
        have hdpos : 0 < d := by omega
        have hd : skipDepth pair d x = d - 1 := by simp [skipDepth, hx2, hne']
        have := ih (d - 1)
          (by intro k hk; have := hpre' k hk; rw [hs] at this; omega)
          (by rw [hs] at h0; omega)
        have hd0 : d ≠ 0 := by omega
        simp [seekBalanced, hd0, hd, this]
      · have hs : nestingStep pair x = 0 := by simp [nestingStep, hx1, hx2]
        have hd : skipDepth pair d x = d := by simp [skipDepth, hx1, hx2]
        have := ih d (by intro k hk; have := hpre' k hk; rw [hs] at this; omega)
          (by rw [hs] at h0; omega)
        simp [seekBalanced, hx2, hd, this]

theorem seekBalanced_balanced (pair : α × α) (hne : pair.1 ≠ pair.2) (xs post : List α)
    (h : Balanced pair xs) :
    seekBalanced pair.2 pair 0 (xs ++ pair.2 :: post) = some xs.length :=
  seekBalanced_closer pair hne xs post 0 (by simpa using h.1) (by simpa using h.2)

theorem seekBalanced_none (seek : α) (pair : α × α) (xs : List α) (h : seek ∉ xs) :
    ∀ d : Nat, seekBalanced seek pair d xs = none := by
  induction xs with
  | nil => intro d; simp [seekBalanced]
  | cons x xs ih =>
    intro d
    have hx : x ≠ seek := fun e => h (by simp [e])
    have hxs : seek ∉ xs := fun e => h (by simp [e])
    simp [seekBalanced, hx, ih hxs]

end Search

theorem FindLine_block (pre S post : List wstring) (h : Balanced braces S) :
    FindLine (pre ++ S ++ ['}'] :: post) pre.length ['}'] braces
      = ((pre.length + S.length : Nat) : Int) := by
  have := seekBalanced_balanced braces (by decide) S post h
  simp only [braces] at this
  simp [FindLine, braces, List.append_assoc, List.drop_left, this]

theorem Find_group (pre body post : wstring) (h : Balanced skip body) :
    Find (pre ++ body ++ ')' :: post) pre.length ')' skip
      = ((pre.length + body.length : Nat) : Int) := by
  have := seekBalanced_balanced skip (by decide) body post h
  simp only [skip] at this
  simp [Find, skip, List.append_assoc, List.drop_left, this]

theorem Find_none (s : wstring) (start : Nat) (h : ')' ∉ s) : Find s start ')' skip = -1 := by
  have : ')' ∉ s.drop start := fun e => h (List.mem_of_mem_drop e)
  simp [Find, seekBalanced_none ')' skip _ this]

theorem lineRange_block (pre S post : List wstring) :
    lineRange (pre ++ S ++ post) pre.length ((pre.length + S.length : Nat) : Int)
      = Outcome.ret S := by
  have h : ¬ (((pre.length + S.length : Nat) : Int) < 0) := by omega
  simp only [lineRange, if_neg h, Int.toNat_ofNat, List.append_assoc, List.drop_left]
  simp

theorem lineRange_neg (lines : List wstring) (first : Nat) :
    lineRange lines first (-1) = Outcome.fail Fault.badIndex := by
  simp [lineRange]

theorem substr_mid (a b c : wstring) :
    substr (a ++ b ++ c) a.length (b.length : Int) = b := by
  have h : ¬ ((b.length : Int) < 0) := by omega
  simp [substr, h, List.append_assoc, List.drop_left]

theorem substr_mid' (a b c : wstring) (p : Nat) (n : Int) (hp : p = a.length)
    (hn : n = (b.length : Int)) : substr (a ++ b ++ c) p n = b := by
  subst hp hn
  exact substr_mid a b c

theorem substr_tail (a b : wstring) (p : Nat) (n : Int) (hp : p = a.length) (hn : n < 0) :
    substr (a ++ b) p n = b := by
  subst hp
  simp [substr, hn, List.drop_left]

theorem getElem?_block (pre : List wstring) (x : wstring) (post : List wstring) :
    (pre ++ x :: post)[pre.length]? = some x := by
  rw [List.getElem?_append_right (le_refl _)]
  simp

/-! ## Headers -/

theorem substrcomp_cons_ne (c d : Char) (s w : wstring) (h : c ≠ d) :
    substrcomp (c :: s) (d :: w) = false := by
  simp [substrcomp, List.isPrefixOf, h.symm]

section FunctionHeader

variable (ty name args : wstring)

theorem functionHeader_length :
    (functionHeader ty name args).length = ty.length + name.length + args.length + 3 := by
  simp [functionHeader]
  omega

theorem functionHeader_words (h : ' ' ∉ ty) :
    split_string ' ' (functionHeader ty name args)
      = ty :: split_string ' ' (name ++ '(' :: args ++ [')']) := by
  simp [functionHeader, split_string_append ' ' ty _ h]

theorem functionHeader_space (h : ' ' ∉ ty) :
    wfind (functionHeader ty name args) ' ' 0 = (ty.length : Int) := by
  simp [functionHeader, wfind_append ' ' ty _ h]

theorem functionHeader_paren (h1 : '(' ∉ ty) (h2 : '(' ∉ name) :
    wfind (functionHeader ty name args) '(' 0 = ((ty.length + 1 + name.length : Nat) : Int) := by
  have e : functionHeader ty name args = (ty ++ ' ' :: name) ++ '(' :: (args ++ [')']) := by
    simp [functionHeader]
  have hm : '(' ∉ ty ++ ' ' :: name := by simp [h1, h2]
  rw [e, wfind_append '(' _ _ hm]
  simp
  omega

theorem functionHeader_close (h : Balanced skip args) :
    Find (functionHeader ty name args) (ty.length + 1 + name.length + 1) ')' skip
      = ((ty.length + 1 + name.length + 1 + args.length : Nat) : Int) := by
  have e : functionHeader ty name args = (ty ++ ' ' :: name ++ ['(']) ++ args ++ ')' :: [] := by
    simp [functionHeader]
  have hl : ty.length + 1 + name.length + 1 = (ty ++ ' ' :: name ++ ['(']).length := by
    simp
    omega
  rw [e, hl, Find_group _ args [] h]

theorem functionHeader_name :
    substr (functionHeader ty name args) (ty.length + 1) (name.length : Int) = name := by
  have e : functionHeader ty name args = (ty ++ [' ']) ++ name ++ ('(' :: args ++ [')']) := by
    simp [functionHeader]
  rw [e]
  exact substr_mid' _ _ _ _ _ (by simp) rfl

theorem functionHeader_args :
    substr (functionHeader ty name args) (ty.length + 1 + name.length + 1) (args.length : Int)
      = args := by
  have e : functionHeader ty name args = (ty ++ ' ' :: name ++ ['(']) ++ args ++ [')'] := by
    simp [functionHeader]
  rw [e]
  exact substr_mid' _ _ _ _ _ (by simp; omega) rfl

end FunctionHeader

section
variable {Calc : Type}

/-- The arguments of a function header, as the builder reads them from the text
between the parentheses. -/
theorem compileLine_function (env : Env Calc)
    (rec : List wstring → area Calc → Outcome (area Calc))
    (pre S post : List wstring) (cur : area Calc) (ty name args : wstring) (t : types)
    (hty : env.GetType ty = some t) (hconst : substrcomp ty kwConst = false)
    (hsp : ' ' ∉ ty) (hp1 : '(' ∉ ty) (hp2 : '(' ∉ name)
    (hargs : Balanced skip args) (hS : Balanced braces S) :
    compileLine env rec (pre ++ functionHeader ty name args :: ['{'] :: S ++ ['}'] :: post)
        cur pre.length (functionHeader ty name args)
      = (rec S { Parent := some cur
                 vars := if args.length ≠ 0 then
                     (split_string ',' args).map (parseArgument env) else []
                 functions := [], actions := [] }).bind fun a =>
          Outcome.ret
            (cur.pushFunction
              { name := name
                arguments := if args.length ≠ 0 then
                    (split_string ',' args).map (parseArgument env) else []
                actions := a.actions },
             ((pre.length + 2 + S.length : Nat) : Int)) := by
  have hlen : (functionHeader ty name args).length > 2 := by
    rw [functionHeader_length]; omega
  have hnext : (pre ++ functionHeader ty name args :: ['{'] :: S ++ ['}'] :: post)[pre.length + 1]?
      = some ['{'] := by
    have := getElem?_block (pre ++ [functionHeader ty name args]) ['{'] (S ++ ['}'] :: post)
    simpa using this
  have hfind : FindLine (pre ++ functionHeader ty name args :: ['{'] :: S ++ ['}'] :: post)
      (pre.length + 1 + 1) ['}'] braces = ((pre.length + 2 + S.length : Nat) : Int) := by
    have := FindLine_block (pre ++ [functionHeader ty name args, ['{']]) S post hS
    simpa [List.append_assoc] using this
  have hrange : lineRange (pre ++ functionHeader ty name args :: ['{'] :: S ++ ['}'] :: post)
      (pre.length + 2) ((pre.length + 2 + S.length : Nat) : Int) = Outcome.ret S := by
    have := lineRange_block (pre ++ [functionHeader ty name args, ['{']]) S (['}'] :: post)
    simpa [List.append_assoc] using this
  have hnn : ¬ (((pre.length + 2 + S.length : Nat) : Int) < 0) := by omega
  unfold compileLine
  simp only [hlen, if_true, functionHeader_words ty name args hsp,
    functionHeader_space ty name args hsp, functionHeader_paren ty name args hp1 hp2]
  simp only [index, List.getElem?_cons_zero, Outcome.bind_ret, hconst, hty, hnext, if_true,
    hfind, hnn, if_false, Bool.false_eq_true]
  have hi1 : (((ty.length + 1 + name.length : Nat) : Int) + 1).toNat
      = ty.length + 1 + name.length + 1 := by omega
  rw [hi1, functionHeader_close ty name args hargs]
  have hge : ((ty.length + 1 + name.length + 1 + args.length : Nat) : Int) ≥ 0 := by omega
  simp only [hge, if_true]
  unfold compileFunction
  have hs1 : ((ty.length : Int) + 1).toNat = ty.length + 1 := by omega
  have hc1 : ((ty.length + 1 + name.length : Nat) : Int) - (ty.length : Int) - 1
      = (name.length : Int) := by push_cast; omega
  have hc2 : ((ty.length + 1 + name.length + 1 + args.length : Nat) : Int)
      - ((ty.length + 1 + name.length : Nat) : Int) - 1 = (args.length : Int) := by
    push_cast; omega
  simp only [hs1, hc1, hc2, hi1, functionHeader_name, functionHeader_args, hrange,
    Outcome.bind_ret]

end

theorem Outcome.bind_value {α β : Type} (x : Outcome α) (f : α → Outcome β) :
    (x.bind f).value = match x.value with
      | .error e => .error e
      | .ok a => (f a).value := by
  unfold Outcome.bind
  cases x.value <;> rfl

section
variable {Calc : Type}

theorem CompileLoop_succ (env : Env Calc) (fuel : Nat) (lines : List wstring) (cur : area Calc)
    (i : Nat) :
    CompileLoop env (fuel + 1) lines cur i =
      match lines[i]? with
      | none => Outcome.ret cur
      | some line =>
        (compileLine env (recCompile env fuel) lines cur i line).bind
          fun r => CompileLoop env fuel lines r.1 (r.2 + 1).toNat := by
  rw [CompileLoop]
  rfl

theorem compileLine_short (env : Env Calc) (rec : List wstring → area Calc → Outcome (area Calc))
    (lines : List wstring) (cur : area Calc) (i : Nat) (line : wstring)
    (h : line.length = 1 ∨ line.length = 2) :
    compileLine env rec lines cur i line
      = ⟨[(compilererror.linetooshort, line)], .ok (cur, (i : Int))⟩ := by
  have h1 : ¬ line.length > 2 := by omega
  have h2 : line.length ≠ 0 := by omega
  simp [compileLine, h1, h2, Outcome.bind_report, Outcome.ret]

theorem CompileLoop_short (env : Env Calc) (fuel : Nat) (lines : List wstring) (cur : area Calc)
    (i : Nat) (line : wstring) (hi : lines[i]? = some line)
    (h : line.length = 1 ∨ line.length = 2) :
    CompileLoop env (fuel + 1) lines cur i
      = ⟨(compilererror.linetooshort, line) :: (CompileLoop env fuel lines cur (i + 1)).diags,
          (CompileLoop env fuel lines cur (i + 1)).value⟩ := by
  rw [CompileLoop_succ]
  simp only [hi]
  rw [compileLine_short env _ lines cur i line h]
  simp [Outcome.bind]

theorem CompileLoop_all_short (env : Env Calc) (lines : List wstring) (cur : area Calc)
    (h : ∀ l ∈ lines, l.length = 1 ∨ l.length = 2) :
    ∀ (i fuel : Nat), i ≤ lines.length → lines.length - i < fuel →
      CompileLoop env fuel lines cur i
        = ⟨(lines.drop i).map (fun l => (compilererror.linetooshort, l)), .ok cur⟩ := by
  intro i fuel
  induction fuel generalizing i with
  | zero => intro _ h0; omega
  | succ fuel ih =>
    intro hi hf
    by_cases hlt : i < lines.length
    · have hget : lines[i]? = some (lines[i]) := List.getElem?_eq_getElem hlt
      rw [CompileLoop_short env fuel lines cur i _ hget (h _ (List.getElem_mem hlt))]
      rw [ih (i + 1) (by omega) (by omega)]
      rw [List.drop_eq_getElem_cons hlt, List.map_cons]
    · have : i = lines.length := by omega
      subst this
      rw [CompileLoop]
      simp [Outcome.ret]


/-- The loop body for a declaration line with an argument list that is followed by a
`{` line. -/
theorem compileLine_function_block (env : Env Calc)
    (rec : List wstring → area Calc → Outcome (area Calc))
    (lines : List wstring) (cur : area Calc) (i : Nat) (line : wstring) (t : types)
    (hlen : line.length > 2) (hdecl : declaredType env line = some t)
    (hargs : HasArgumentList line) (hnext : lines[i + 1]? = some ['{']) :
    compileLine env rec lines cur i line
      = (if FindLine lines (i + 1 + 1) ['}'] braces < 0 then
            Outcome.report compilererror.noclosingbrace line
          else Outcome.ret ()).bind fun _ =>
        compileFunction env rec lines cur i line (wfind line ' ' 0) (wfind line '(' 0)
          (Find line (wfind line '(' 0 + 1).toNat ')' skip)
          (FindLine lines (i + 1 + 1) ['}'] braces) := by
  unfold declaredType at hdecl
  unfold HasArgumentList at hargs
  unfold compileLine
  cases h0 : (split_string ' ' line)[0]? with
  | none => rw [h0] at hdecl; cases hdecl
  | some word0 =>
    rw [h0] at hdecl
    simp only at hdecl
    cases h1 : (split_string ' ' line)[if substrcomp word0 kwConst then 1 else 0]? with
    | none => rw [h1] at hdecl; cases hdecl
    | some typeword =>
      rw [h1] at hdecl
      simp only at hdecl
      simp only [hlen, if_true, index, h0, h1, Outcome.bind_ret, hdecl, hnext, hargs]


/-- C1: in a line sequence with a function definition at index `i` (a declaration
line with a parenthesised argument list, a `{` line at `i + 1`, a properly nested
body `S` and the `}` line that closes it), the closing-brace search started behind
the `{` returns the index of that `}` line, whatever blocks `S` contains; every
run of the loop body for the definition that returns leaves the cursor on that
index, and it returns whenever the compilation of the body returns. -/
theorem function_cursor_on_own_brace (env : Env Calc) (fuel : Nat)
    (pre S post : List wstring) (cur : area Calc) (line : wstring) (t : types)
    (hlen : line.length > 2) (hdecl : declaredType env line = some t)
    (hargs : HasArgumentList line) (hS : Balanced braces S) :
    FindLine (pre ++ line :: ['{'] :: S ++ ['}'] :: post) (pre.length + 2) ['}'] braces
        = ((pre.length + 2 + S.length : Nat) : Int)
    ∧ (pre ++ line :: ['{'] :: S ++ ['}'] :: post)[pre.length + 2 + S.length]? = some ['}']
    ∧ (∀ r, (compileLine env (recCompile env fuel)
          (pre ++ line :: ['{'] :: S ++ ['}'] :: post) cur pre.length line).value = .ok r →
        r.2 = ((pre.length + 2 + S.length : Nat) : Int))
    ∧ ∃ W : area Calc, W.Parent = some cur ∧
        ∀ a, (Compile env fuel S (some W)).value = .ok a →
          ∃ cur', (compileLine env (recCompile env fuel)
            (pre ++ line :: ['{'] :: S ++ ['}'] :: post) cur pre.length line).value
              = .ok (cur', ((pre.length + 2 + S.length : Nat) : Int)) := by
  have hfind : FindLine (pre ++ line :: ['{'] :: S ++ ['}'] :: post) (pre.length + 1 + 1)
      ['}'] braces = ((pre.length + 2 + S.length : Nat) : Int) := by
    have := FindLine_block (pre ++ [line, ['{']]) S post hS
    simpa [List.append_assoc] using this
  have hrange : lineRange (pre ++ line :: ['{'] :: S ++ ['}'] :: post) (pre.length + 2)
      ((pre.length + 2 + S.length : Nat) : Int) = Outcome.ret S := by
    have := lineRange_block (pre ++ [line, ['{']]) S (['}'] :: post)
    simpa [List.append_assoc] using this
  have hnext : (pre ++ line :: ['{'] :: S ++ ['}'] :: post)[pre.length + 1]? = some ['{'] := by
    have := getElem?_block (pre ++ [line]) ['{'] (S ++ ['}'] :: post)
    simpa using this
  have hnn : ¬ (((pre.length + 2 + S.length : Nat) : Int) < 0) := by omega
  have hstep : compileLine env (recCompile env fuel)
        (pre ++ line :: ['{'] :: S ++ ['}'] :: post) cur pre.length line
      = (recCompile env fuel S
          ⟨some cur,
            if (substr line (wfind line '(' 0 + 1).toNat
                (Find line (wfind line '(' 0 + 1).toNat ')' skip - wfind line '(' 0 - 1)).length
                ≠ 0 then
              (split_string ',' (substr line (wfind line '(' 0 + 1).toNat
                (Find line (wfind line '(' 0 + 1).toNat ')' skip - wfind line '(' 0 - 1))).map
                (parseArgument env)
            else [], [], []⟩).bind fun a =>
          Outcome.ret
            (cur.pushFunction
              ⟨substr line (wfind line ' ' 0 + 1).toNat (wfind line '(' 0 - wfind line ' ' 0 - 1),
                if (substr line (wfind line '(' 0 + 1).toNat
                    (Find line (wfind line '(' 0 + 1).toNat ')' skip - wfind line '(' 0 - 1)).length
                    ≠ 0 then
                  (split_string ',' (substr line (wfind line '(' 0 + 1).toNat
                    (Find line (wfind line '(' 0 + 1).toNat ')' skip - wfind line '(' 0 - 1))).map
                    (parseArgument env)
                else [], a.actions⟩,
             ((pre.length + 2 + S.length : Nat) : Int)) := by
    rw [compileLine_function_block env _ _ cur _ line t hlen hdecl hargs hnext, hfind,
      if_neg hnn, Outcome.bind_ret]
    unfold compileFunction
    simp only [hrange, Outcome.bind_ret]
  refine ⟨hfind, ?_, ?_, ?_⟩
  · have e : pre ++ line :: ['{'] :: S ++ ['}'] :: post
        = (pre ++ line :: ['{'] :: S) ++ ['}'] :: post := by simp
    have hl : pre.length + 2 + S.length = (pre ++ line :: ['{'] :: S).length := by
      simp only [List.length_append, List.length_cons]; omega
    rw [e, hl]
    exact getElem?_block _ _ _
  · intro r hr
    rw [hstep, Outcome.bind_value] at hr
    split at hr
    · cases hr
    · simp only [Outcome.ret] at hr
      cases hr
      rfl
  · refine ⟨⟨some cur,
        if (substr line (wfind line '(' 0 + 1).toNat
            (Find line (wfind line '(' 0 + 1).toNat ')' skip - wfind line '(' 0 - 1)).length
            ≠ 0 then
          (split_string ',' (substr line (wfind line '(' 0 + 1).toNat
            (Find line (wfind line '(' 0 + 1).toNat ')' skip - wfind line '(' 0 - 1))).map
            (parseArgument env)
        else [], [], []⟩, rfl, ?_⟩
    intro a ha
    rw [hstep]
    exact ⟨_, Outcome.bind_value_ok (recCompile env fuel S _) _ a ha⟩

/-- A function with an `if` that contains a `for`: the search passes the three inner
closing braces and the cursor lands on line 13, the function's own brace. -/
theorem function_cursor_on_own_brace_witness :
    FindLine ("integer f(integer a, integer b)".toList :: ['{'] :: demoFunctionBody
        ++ ['}'] :: ["integer x = 3, y".toList]) 2 ['}'] braces = 13
    ∧ (compileLine demoEnv (recCompile demoEnv 10)
        ("integer f(integer a, integer b)".toList :: ['{'] :: demoFunctionBody
          ++ ['}'] :: ["integer x = 3, y".toList])
        (area.fresh none) 0 "integer f(integer a, integer b)".toList).value.toOption.map Prod.snd
        = some 13 :=
  have h := function_cursor_on_own_brace demoEnv 10 [] demoFunctionBody
    ["integer x = 3, y".toList] (area.fresh none) "integer f(integer a, integer b)".toList
    types.tint (by decide) (by decide) (by decide) (by decide)
  ⟨h.1, by rfl⟩

/-- C9: when the cursor is on a line of length 1 or 2, the loop body reports exactly
one `line-too-short` diagnostic carrying the line and leaves the scope as it is, and
the loop goes on at the next line; a sequence made only of such lines compiles to
a scope without variables, functions or actions, with one diagnostic per line, in
order. -/
theorem short_line_reported_and_skipped (env : Env Calc) :
    (∀ (fuel : Nat) (lines : List wstring) (cur : area Calc) (i : Nat) (line : wstring),
      lines[i]? = some line → (line.length = 1 ∨ line.length = 2) →
        compileLine env (recCompile env fuel) lines cur i line
            = ⟨[(compilererror.linetooshort, line)], .ok (cur, (i : Int))⟩
        ∧ CompileLoop env (fuel + 1) lines cur i
            = ⟨(compilererror.linetooshort, line) :: (CompileLoop env fuel lines cur (i + 1)).diags,
                (CompileLoop env fuel lines cur (i + 1)).value⟩)
    ∧ (∀ (fuel : Nat) (lines : List wstring) (parent : Option (area Calc)),
      (∀ l ∈ lines, l.length = 1 ∨ l.length = 2) → lines.length < fuel →
        Compile env fuel lines parent
          = ⟨lines.map (fun l => (compilererror.linetooshort, l)),
              .ok { Parent := parent, vars := [], functions := [], actions := [] }⟩) := by
  refine ⟨?_, ?_⟩
  · intro fuel lines cur i line hi h
    exact ⟨compileLine_short env _ lines cur i line h,
      CompileLoop_short env fuel lines cur i line hi h⟩
  · intro fuel lines parent h hf
    have := CompileLoop_all_short env lines (area.fresh parent) h 0 fuel (by omega) (by omega)
    simpa [Compile, area.fresh] using this

/-- Two short lines, `}` and `x+`: two diagnostics, in order, and an empty scope. -/
theorem short_line_reported_and_skipped_witness :
    Compile demoEnv 3 [['}'], ['x', '+']] none
      = ⟨[(compilererror.linetooshort, ['}']), (compilererror.linetooshort, ['x', '+'])],
          .ok { Parent := none, vars := [], functions := [], actions := [] }⟩ :=
  (short_line_reported_and_skipped demoEnv).2 3 [['}'], ['x', '+']] none (by decide) (by decide)

end

/-! ## Trimming -/

theorem iswspace_space : iswspace ' ' = true := by decide

theorem dropWhile_spaces (n : Nat) (w : wstring) :
    (spaces n ++ w).dropWhile iswspace = w.dropWhile iswspace := by
  induction n with
  | zero => simp [spaces]
  | succ n ih =>
    have : spaces (n + 1) ++ w = ' ' :: (spaces n ++ w) := by
      simp [spaces, List.replicate_succ]
    rw [this, List.dropWhile_cons, iswspace_space]
    simpa using ih

theorem dropWhile_head (w : wstring) (h : ∀ x ∈ w.head?, iswspace x = false) :
    w.dropWhile iswspace = w := by
  cases w with
  | nil => rfl
  | cons x xs =>
    have : iswspace x = false := h x (by simp)
    simp [List.dropWhile_cons, this]

theorem reverse_spaces (n : Nat) : (spaces n).reverse = spaces n := by
  simp [spaces]

theorem trim_pad (a b : Nat) (w : wstring) (h1 : ∀ x ∈ w.head?, iswspace x = false)
    (h2 : ∀ x ∈ w.getLast?, iswspace x = false) :
    trim (spaces a ++ w ++ spaces b) = w := by
  cases w with
  | nil =>
    have e : spaces a ++ [] ++ spaces b = spaces (a + b) ++ [] := by
      simp [spaces]
    rw [trim, e, dropWhile_spaces]
    rfl
  | cons x xs =>
    have hx : iswspace x = false := h1 x rfl
    have s1 : (spaces a ++ (x :: xs) ++ spaces b).dropWhile iswspace = (x :: xs) ++ spaces b := by
      rw [List.append_assoc, dropWhile_spaces, List.cons_append, List.dropWhile_cons, hx]
      rfl
    have s2 : (spaces b ++ (x :: xs).reverse).dropWhile iswspace = (x :: xs).reverse := by
      rw [dropWhile_spaces]
      apply dropWhile_head
      intro y hy
      apply h2
      rw [List.head?_reverse] at hy
      exact hy
    rw [trim, s1, List.reverse_append, reverse_spaces, s2, List.reverse_reverse]

theorem trim_word (w : wstring) (h1 : ∀ x ∈ w.head?, iswspace x = false)
    (h2 : ∀ x ∈ w.getLast?, iswspace x = false) : trim w = w := by
  have := trim_pad 0 0 w h1 h2
  simpa [spaces] using this

theorem head?_nows (w : wstring) (h : ∀ c ∈ w, iswspace c = false) :
    ∀ x ∈ w.head?, iswspace x = false := by
  intro x hx
  exact h x (List.mem_of_mem_head? hx)

theorem getLast?_nows (w : wstring) (h : ∀ c ∈ w, iswspace c = false) :
    ∀ x ∈ w.getLast?, iswspace x = false := by
  intro x hx
  exact h x (List.mem_of_mem_getLast? hx)

theorem not_mem_of_nows (w : wstring) (c : Char) (hc : iswspace c = true)
    (h : ∀ x ∈ w, iswspace x = false) : c ∉ w := by
  intro hm
  have := h c hm
  rw [hc] at this
  cases this

/-! ## Text without the pair -/

section
variable {α : Type} [DecidableEq α]

theorem nesting_of_no_pair (pair : α × α) (xs : List α)
    (h : ∀ x ∈ xs, x ≠ pair.1 ∧ x ≠ pair.2) : nesting pair xs = 0 := by
  induction xs with
  | nil => rfl
  | cons x xs ih =>
    have hx := h x (by simp)
    rw [nesting_cons, ih (fun y hy => h y (by simp [hy]))]
    simp [nestingStep, hx.1, hx.2]

theorem Balanced_of_no_pair (pair : α × α) (xs : List α)
    (h : ∀ x ∈ xs, x ≠ pair.1 ∧ x ≠ pair.2) : Balanced pair xs := by
  refine ⟨?_, nesting_of_no_pair pair xs h⟩
  intro k _
  rw [nesting_of_no_pair pair _ (fun x hx => h x (List.mem_of_mem_take hx))]

end

/-! ## Parameters -/

theorem IsPlain.nows {w : wstring} (h : IsPlain w) : ∀ c ∈ w, iswspace c = false :=
  fun c hc => (h.2 c hc).1

theorem parseArgument_text {Calc : Type} (env : Env Calc) (p : ParamText)
    (ht : IsPlain p.type) (hn : IsPlain p.name) :
    parseArgument env p.text = p.toVariable env := by
  have hsp : ' ' ∉ p.type := not_mem_of_nows _ ' ' iswspace_space ht.nows
  have harg : trim p.text = p.type ++ ' ' :: p.name := by
    have e : p.text = spaces p.lead ++ (p.type ++ ' ' :: p.name) ++ spaces p.trail := by
      simp [ParamText.text]
    rw [e]
    apply trim_pad
    · intro x hx
      obtain ⟨c, cs, hc⟩ := List.exists_cons_of_ne_nil ht.1
      rw [hc] at hx
      simp at hx
      exact ht.nows x (by rw [hc, ← hx]; simp)
    · intro x hx
      obtain ⟨c, cs, hc⟩ := List.exists_cons_of_ne_nil hn.1
      have : (p.type ++ ' ' :: p.name).getLast? = p.name.getLast? := by
        rw [hc, List.getLast?_append_of_ne_nil _ (by simp), List.getLast?_cons_cons]
      rw [this] at hx
      exact getLast?_nows _ hn.nows x hx
  have hfind : wfind (p.type ++ ' ' :: p.name) ' ' 0 = (p.type.length : Int) :=
    wfind_append ' ' _ _ hsp
  have h1 : substr (p.type ++ ' ' :: p.name) 0 (p.type.length : Int) = p.type := by
    have := substr_mid' [] p.type (' ' :: p.name) 0 _ rfl rfl
    simpa using this
  have h2 : substr (p.type ++ ' ' :: p.name) ((p.type.length : Int) + 1).toNat
      (((p.type ++ ' ' :: p.name).length : Int) - (p.type.length : Int) - 1) = p.name := by
    have := substr_mid' (p.type ++ [' ']) p.name [] ((p.type.length : Int) + 1).toNat
      (((p.type ++ ' ' :: p.name).length : Int) - (p.type.length : Int) - 1)
      (by simp) (by simp)
    simpa using this
  simp only [parseArgument, harg, hfind, h1, h2, ParamText.toVariable,
    trim_word _ (head?_nows _ ht.nows) (getLast?_nows _ ht.nows),
    trim_word _ (head?_nows _ hn.nows) (getLast?_nows _ hn.nows)]

theorem ParamText.text_ne_nil (p : ParamText) : p.text ≠ [] := by
  simp [ParamText.text]

theorem ParamText.text_plain (p : ParamText) (ht : IsPlain p.type) (hn : IsPlain p.name) :
    ∀ c ∈ p.text, c ≠ ',' ∧ c ≠ '(' ∧ c ≠ ')' := by
  intro c hc
  simp only [ParamText.text, spaces, List.mem_append, List.mem_cons, List.mem_replicate] at hc
  rcases hc with (((⟨_, rfl⟩ | h) | (rfl | h)) | ⟨_, rfl⟩)
  · decide
  · exact (ht.2 c h).2
  · decide
  · exact (hn.2 c h).2
  · decide

theorem argumentText_cons (p q : ParamText) (ps : List ParamText) :
    argumentText (p :: q :: ps) = p.text ++ ',' :: argumentText (q :: ps) := by
  simp [argumentText, List.intercalate]

theorem argumentText_chars (ps : List ParamText)
    (h : ∀ p ∈ ps, IsPlain p.type ∧ IsPlain p.name) :
    ∀ c ∈ argumentText ps, c ≠ '(' ∧ c ≠ ')' := by
  induction ps with
  | nil => intro c hc; simp [argumentText, List.intercalate] at hc
  | cons p ps ih =>
    cases ps with
    | nil =>
      intro c hc
      have hp := h p (by simp)
      have : argumentText [p] = p.text := by simp [argumentText, List.intercalate]
      rw [this] at hc
      exact (p.text_plain hp.1 hp.2 c hc).2
    | cons q qs =>
      intro c hc
      have hp := h p (by simp)
      rw [argumentText_cons] at hc
      simp only [List.mem_append, List.mem_cons] at hc
      rcases hc with h1 | rfl | h3
      · exact (p.text_plain hp.1 hp.2 c h1).2
      · decide
      · exact ih (fun r hr => h r (by simp at hr ⊢; tauto)) c h3

theorem argumentText_split {Calc : Type} (env : Env Calc) (ps : List ParamText)
    (h : ∀ p ∈ ps, IsPlain p.type ∧ IsPlain p.name) :
    (if (argumentText ps).length ≠ 0 then
        (split_string ',' (argumentText ps)).map (parseArgument env) else [])
      = ps.map (ParamText.toVariable env) := by
  cases ps with
  | nil => simp [argumentText, List.intercalate]
  | cons p ps =>
    have hne : (argumentText (p :: ps)).length ≠ 0 := by
      cases ps with
      | nil =>
        have := p.text_ne_nil
        simpa [argumentText, List.intercalate] using this
      | cons q qs => rw [argumentText_cons]; simp
    rw [if_pos hne]
    have hs : split_string ',' (argumentText (p :: ps)) = (p :: ps).map ParamText.text := by
      have := split_string_intercalate ',' p.text (ps.map ParamText.text) (by
        intro q hq
        simp only [List.mem_cons, List.mem_map] at hq
        rcases hq with rfl | ⟨r, hr, rfl⟩
        · intro hc
          exact (p.text_plain (h p (by simp)).1 (h p (by simp)).2 _ hc).1 rfl
        · intro hc
          have hr' := h r (by simp [hr])
          exact (r.text_plain hr'.1 hr'.2 _ hc).1 rfl)
      simpa [argumentText] using this
    rw [hs, List.map_map]
    apply List.map_congr_left
    intro q hq
    exact parseArgument_text env q (h q hq).1 (h q hq).2

section
variable {Calc : Type}

/-- C5: for a function definition `type name(t1 a1, ..., tk ak)` followed by a closed
block with body `B`, whenever the compilation of `B` against the child scope whose
variables are exactly the parameters (type `ti`, name `ai`, modifiable, in order) and
whose parent is the current scope returns a scope `a`, the loop body returns the
current scope with exactly one function appended to its function set: the function
`name` with that parameter list and the actions of `a` as its body; the variables
and actions of the current scope are unchanged. -/
theorem function_definition_registered (env : Env Calc) (fuel : Nat)
    (pre B post : List wstring) (cur : area Calc) (ty name : wstring) (ps : List ParamText)
    (t : types) (a : area Calc)
    (hty : env.GetType ty = some t) (hconst : substrcomp ty kwConst = false)
    (hsp : ' ' ∉ ty) (hp1 : '(' ∉ ty) (hp2 : '(' ∉ name)
    (hps : ∀ p ∈ ps, IsPlain p.type ∧ IsPlain p.name) (hB : Balanced braces B)
    (ha : (Compile env fuel B
        (some { Parent := some cur, vars := ps.map (ParamText.toVariable env)
                functions := [], actions := [] })).value = .ok a) :
    (compileLine env (recCompile env fuel)
        (pre ++ functionHeader ty name (argumentText ps) :: ['{'] :: B ++ ['}'] :: post)
        cur pre.length (functionHeader ty name (argumentText ps))).value
      = .ok ({ Parent := cur.Parent, vars := cur.vars
               functions := cur.functions ++
                 [{ name := name, arguments := ps.map (ParamText.toVariable env)
                    actions := a.actions }]
               actions := cur.actions },
             ((pre.length + 2 + B.length : Nat) : Int)) := by
  have hargs : Balanced skip (argumentText ps) :=
    Balanced_of_no_pair skip _ (argumentText_chars ps hps)
  rw [compileLine_function env (recCompile env fuel) pre B post cur ty name (argumentText ps) t
    hty hconst hsp hp1 hp2 hargs hB, argumentText_split env ps hps]
  exact Outcome.bind_value_ok (recCompile env fuel B _) _ a ha

end

/-- The definition `integer f(integer a, integer b)` with the body `a++`: one function
`f` with the parameters `a` and `b` and one action; cursor on line 3. -/
theorem function_definition_registered_witness :
    (compileLine demoEnv (recCompile demoEnv 5)
        ["integer f(integer a, integer b)".toList, ['{'], "a++".toList, ['}']]
        (area.fresh none) 0 "integer f(integer a, integer b)".toList).value
      = .ok ({ Parent := none, vars := []
               functions :=
                 [{ name := "f".toList
                    arguments :=
                      [⟨some types.tint, true, "a".toList, storage.scalar⟩,
                       ⟨some types.tint, true, "b".toList, storage.scalar⟩]
                    actions := [action.calculation "a++".toList] }]
               actions := [] }, 3) :=
  function_definition_registered demoEnv 5 [] ["a++".toList] [] (area.fresh none)
    "integer".toList "f".toList
    [⟨0, "integer".toList, "a".toList, 0⟩, ⟨1, "integer".toList, "b".toList, 0⟩]
    types.tint
    { Parent := some
        { Parent := some (area.fresh none)
          vars := [⟨some types.tint, true, "a".toList, storage.scalar⟩,
                   ⟨some types.tint, true, "b".toList, storage.scalar⟩]
          functions := [], actions := [] }
      vars := [], functions := [], actions := [action.calculation "a++".toList] }
    (by decide) (by decide) (by decide) (by decide) (by decide) (by decide)
    (by decide) (by rfl)

/-! ## Control constructs -/

section
variable {α : Type} [DecidableEq α]

theorem Balanced_append (pair : α × α) (xs ys : List α) (hx : Balanced pair xs)
    (hy : Balanced pair ys) : Balanced pair (xs ++ ys) := by
  refine ⟨?_, by rw [nesting_append, hx.2, hy.2]; rfl⟩
  intro k _
  rw [List.take_append_eq_append_take, nesting_append]
  have h1 : 0 ≤ nesting pair (xs.take k) := by
    by_cases hk : k ≤ xs.length
    · exact hx.1 k hk
    · rw [List.take_of_length_le (by omega), hx.2]
  have h2 : 0 ≤ nesting pair (ys.take (k - xs.length)) := by
    by_cases hk : k - xs.length ≤ ys.length
    · exact hy.1 _ hk
    · rw [List.take_of_length_le (by omega), hy.2]
  omega

end

theorem Balanced_clauses (init cond incr : wstring) (h0 : Balanced skip init)
    (h1 : Balanced skip cond) (h2 : Balanced skip incr) :
    Balanced skip (init ++ ';' :: cond ++ ';' :: incr) := by
  have hs : Balanced skip [';'] := by decide
  have e : init ++ ';' :: cond ++ ';' :: incr = init ++ ([';'] ++ (cond ++ ([';'] ++ incr))) := by
    simp
  rw [e]
  exact Balanced_append _ _ _ h0 (Balanced_append _ _ _ hs
    (Balanced_append _ _ _ h1 (Balanced_append _ _ _ hs h2)))

theorem split_string_head (d : Char) (s : wstring) :
    (split_string d s)[0]? = some (s.takeWhile (· ≠ d)) := by
  induction s with
  | nil => simp [split_string]
  | cons c cs ih =>
    by_cases h : c = d
    · simp [split_string, h]
    · unfold split_string
      rw [if_neg h]
      split
      · rename_i hnil
        exact absurd hnil (split_string_ne_nil d cs)
      · rename_i p ps hp
        rw [hp] at ih
        simp at ih
        simp [List.takeWhile_cons, h, ih]

theorem index_words (line : wstring) :
    index (split_string ' ' line) 0 = Outcome.ret (firstWord line) := by
  rw [index_eq_ret _ _ _ (split_string_head ' ' line)]
  rfl

theorem firstWord_cons (c : Char) (s : wstring) (h : c ≠ ' ') :
    firstWord (c :: s) = c :: firstWord s := by
  simp [firstWord, List.takeWhile_cons, h]

theorem FindLine_at (A S post : List wstring) (start : Nat) (hs : start = A.length)
    (h : Balanced braces S) :
    FindLine (A ++ S ++ ['}'] :: post) start ['}'] braces = ((start + S.length : Nat) : Int) := by
  subst hs
  exact FindLine_block A S post h

theorem lineRange_at (A S post : List wstring) (start : Nat) (hs : start = A.length) :
    lineRange (A ++ S ++ post) start ((start + S.length : Nat) : Int) = Outcome.ret S := by
  subst hs
  exact lineRange_block A S post

section
variable {Calc : Type}

/-- A line whose first word is no type keyword and does not begin with `const` is
not a declaration: the loop body goes on to the keyword tests. -/
theorem compileLine_not_declaration (env : Env Calc)
    (rec : List wstring → area Calc → Outcome (area Calc))
    (lines : List wstring) (cur : area Calc) (i : Nat) (line : wstring)
    (hlen : line.length > 2) (hconst : substrcomp (firstWord line) kwConst = false)
    (hty : env.GetType (firstWord line) = none) :
    compileLine env rec lines cur i line =
      if substrcomp line kwFor then compileFor env rec lines cur i line
      else if substrcomp line kwIf then compileIf env rec lines cur i line
      else compileStatement env cur i line := by
  unfold compileLine
  simp only [hlen, if_true, index_words, Outcome.bind_ret, hconst, Bool.false_eq_true, if_false,
    hty]

theorem forHeader_prefix (pad : Nat) (init cond incr : wstring) :
    substrcomp (forHeader pad init cond incr) kwFor = true := by
  simp [substrcomp, forHeader, kwFor, List.isPrefixOf]

theorem forHeader_open (pad : Nat) (init cond incr : wstring) :
    wfind (forHeader pad init cond incr) '(' 0 = ((3 + pad : Nat) : Int) := by
  have e : forHeader pad init cond incr
      = (kwFor ++ spaces pad) ++ '(' :: (init ++ ';' :: cond ++ ';' :: incr ++ [')']) := by
    simp [forHeader]
  have hm : '(' ∉ kwFor ++ spaces pad := by
    simp [kwFor, spaces, List.mem_replicate]
  rw [e, wfind_append '(' _ _ hm]
  simp [kwFor, spaces]
  omega

theorem compileFor_header (env : Env Calc)
    (rec : List wstring → area Calc → Outcome (area Calc))
    (pre S post : List wstring) (cur : area Calc) (pad : Nat) (init cond incr : wstring)
    (h0 : Balanced skip init) (h1 : Balanced skip cond) (h2 : Balanced skip incr)
    (s0 : ';' ∉ init) (s1 : ';' ∉ cond) (s2 : ';' ∉ incr) (hS : Balanced braces S) :
    compileFor env rec
        (pre ++ forHeader pad init cond incr :: ['{'] :: S ++ ['}'] :: post)
        cur pre.length (forHeader pad init cond incr)
      = (rec [init] cur).bind fun abegin =>
          (rec (S ++ [incr])
            { cur with actions := cur.actions ++ abegin.actions
                       vars := cur.vars ++ abegin.vars }).bind fun a =>
          match env.GetCalculation a cond true with
          | some check =>
            Outcome.ret
              (({ cur with actions := cur.actions ++ abegin.actions
                           vars := cur.vars ++ abegin.vars }.pushAction
                    (action.calculation check)).pushAction
                  (action.loop (a.actions ++ [action.calculation check])),
                ((pre.length + 2 + S.length : Nat) : Int))
          | none =>
            Outcome.ret
              ({ cur with actions := cur.actions ++ abegin.actions
                          vars := cur.vars ++ abegin.vars }.pushAction (action.loop a.actions),
                ((pre.length + 2 + S.length : Nat) : Int)) := by
  have el : pre ++ forHeader pad init cond incr :: ['{'] :: S ++ ['}'] :: post
      = (pre ++ [forHeader pad init cond incr, ['{']]) ++ S ++ ['}'] :: post := by simp
  have hA : pre.length + 1 + 1 = (pre ++ [forHeader pad init cond incr, ['{']]).length := by
    simp
  have hfind := FindLine_at _ S post _ hA hS
  have hrange := lineRange_at _ S (['}'] :: post) _ hA
  have hj : pre.length + 1 + 1 + S.length = pre.length + 2 + S.length := by omega
  rw [hj, ← el] at hfind hrange
  have hopen : (wfind (forHeader pad init cond incr) '(' 0 + 1).toNat = 3 + pad + 1 := by
    rw [forHeader_open]; omega
  have eh : forHeader pad init cond incr
      = (kwFor ++ spaces pad ++ ['(']) ++ (init ++ ';' :: cond ++ ';' :: incr) ++ ')' :: [] := by
    simp [forHeader]
  have hl : 3 + pad + 1 = (kwFor ++ spaces pad ++ ['(']).length := by
    simp [kwFor, spaces]
    omega
  have hclose : Find (forHeader pad init cond incr) (3 + pad + 1) ')' skip
      = ((3 + pad + 1 + (init ++ ';' :: cond ++ ';' :: incr).length : Nat) : Int) := by
    rw [eh, hl]
    exact Find_group _ _ [] (Balanced_clauses init cond incr h0 h1 h2)
  have hbetween : substr (forHeader pad init cond incr) (3 + pad + 1)
      (((3 + pad + 1 + (init ++ ';' :: cond ++ ';' :: incr).length : Nat) : Int)
        - ((3 + pad + 1 : Nat) : Int)) = init ++ ';' :: cond ++ ';' :: incr := by
    rw [eh]
    exact substr_mid' _ _ _ _ _ hl (by push_cast; omega)
  have hsplit : split_string ';' (init ++ ';' :: cond ++ ';' :: incr) = [init, cond, incr] := by
    have e : init ++ ';' :: cond ++ ';' :: incr = init ++ ';' :: (cond ++ ';' :: incr) := by simp
    rw [e, split_string_append ';' init _ s0, split_string_append ';' cond _ s1,
      split_string_single ';' incr s2]
  unfold compileFor
  simp only [hopen, hclose, hbetween, hsplit]
  simp only [hfind, hrange, index, List.getElem?_cons_zero, List.getElem?_cons_succ,
    Outcome.bind_ret]

theorem compileLine_for (env : Env Calc)
    (rec : List wstring → area Calc → Outcome (area Calc))
    (lines : List wstring) (cur : area Calc) (i : Nat) (pad : Nat) (init cond incr : wstring)
    (hty : env.GetType (firstWord (forHeader pad init cond incr)) = none) :
    compileLine env rec lines cur i (forHeader pad init cond incr)
      = compileFor env rec lines cur i (forHeader pad init cond incr) := by
  have hlen : (forHeader pad init cond incr).length > 2 := by
    simp [forHeader, kwFor]
  have hconst : substrcomp (firstWord (forHeader pad init cond incr)) kwConst = false := by
    have : forHeader pad init cond incr
        = 'f' :: ('o' :: 'r' :: spaces pad ++ '(' :: init ++ ';' :: cond ++ ';' :: incr ++ [')']) := by
      simp [forHeader, kwFor]
    rw [this, firstWord_cons _ _ (by decide)]
    exact substrcomp_cons_ne _ _ _ _ (by decide)
  rw [compileLine_not_declaration env rec lines cur i _ hlen hconst hty, forHeader_prefix]
  rfl

end

section
variable {Calc : Type}

/-- C2: for a header `for (init; cond; incr)` followed by a closed block with body `S`,
compiled in a scope `cur`: when compiling `[init]` returns `abegin`, compiling `S`
followed by `incr` in a new child scope returns `a`, and the sub-evaluator gives the
check `c` for `cond`, the scope afterwards has the actions of `cur`, then those of
`abegin`, then `c`, then one loop whose body is the actions of `a` followed by `c`;
its variables are those of `cur` followed by those of `abegin`; the cursor is on
the closing brace of the block. -/
theorem for_construct_compiled (env : Env Calc) (fuel : Nat)
    (pre S post : List wstring) (cur : area Calc) (pad : Nat) (init cond incr : wstring)
    (abegin a : area Calc) (c : Calc)
    (hty : env.GetType (firstWord (forHeader pad init cond incr)) = none)
    (h0 : Balanced skip init) (h1 : Balanced skip cond) (h2 : Balanced skip incr)
    (s0 : ';' ∉ init) (s1 : ';' ∉ cond) (s2 : ';' ∉ incr) (hS : Balanced braces S)
    (hinit : (Compile env fuel [init] (some cur)).value = .ok abegin)
    (hbody : (Compile env fuel (S ++ [incr])
        (some { Parent := cur.Parent, vars := cur.vars ++ abegin.vars
                functions := cur.functions
                actions := cur.actions ++ abegin.actions })).value = .ok a)
    (hc : env.GetCalculation a cond true = some c) :
    (compileLine env (recCompile env fuel)
        (pre ++ forHeader pad init cond incr :: ['{'] :: S ++ ['}'] :: post)
        cur pre.length (forHeader pad init cond incr)).value
      = .ok ({ Parent := cur.Parent, vars := cur.vars ++ abegin.vars
               functions := cur.functions
               actions := cur.actions ++ abegin.actions ++
                 [action.calculation c, action.loop (a.actions ++ [action.calculation c])] },
             ((pre.length + 2 + S.length : Nat) : Int)) := by
  rw [compileLine_for env _ _ cur _ pad init cond incr hty,
    compileFor_header env _ pre S post cur pad init cond incr h0 h1 h2 s0 s1 s2 hS,
    Outcome.bind_value_ok (recCompile env fuel [init] cur) _ abegin hinit,
    Outcome.bind_value_ok (recCompile env fuel (S ++ [incr]) _) _ a hbody]
  simp [hc, Outcome.ret, area.pushAction]

/-- The loop `for (i = 0; i < 3; i++)` with the body `a++`, compiled in an empty scope:
the init, the check, and a loop of the body, the increment and the check. -/
theorem for_construct_compiled_witness :
    (compileLine demoEnv (recCompile demoEnv 5)
        ["for (i = 0; i < 3; i++)".toList, ['{'], "a++".toList, ['}']]
        (area.fresh none) 0 "for (i = 0; i < 3; i++)".toList).value
      = .ok ({ Parent := none, vars := [], functions := []
               actions :=
                 [action.calculation "i = 0".toList, action.calculation " i < 3".toList,
                  action.loop
                    [action.calculation "a++".toList, action.calculation " i++".toList,
                     action.calculation " i < 3".toList]] }, 3) :=
  for_construct_compiled demoEnv 5 [] ["a++".toList] [] (area.fresh none) 1
    "i = 0".toList " i < 3".toList " i++".toList
    { Parent := some (area.fresh none), vars := [], functions := []
      actions := [action.calculation "i = 0".toList] }
    { Parent := some { Parent := none, vars := [], functions := []
                       actions := [action.calculation "i = 0".toList] }
      vars := [], functions := []
      actions := [action.calculation "a++".toList, action.calculation " i++".toList] }
    " i < 3".toList
    (by decide) (by decide) (by decide) (by decide) (by decide) (by decide) (by decide)
    (by decide) (by rfl) (by rfl) (by rfl)

theorem ifHeader_open (pad : Nat) (cond : wstring) :
    wfind (ifHeader pad cond) '(' 0 = ((2 + pad : Nat) : Int) := by
  have e : ifHeader pad cond = (kwIf ++ spaces pad) ++ '(' :: (cond ++ [')']) := by
    simp [ifHeader]
  have hm : '(' ∉ kwIf ++ spaces pad := by
    simp [kwIf, spaces, List.mem_replicate]
  rw [e, wfind_append '(' _ _ hm]
  simp [kwIf, spaces]
  omega

theorem compileIf_else (env : Env Calc)
    (rec : List wstring → area Calc → Outcome (area Calc))
    (pre S1 S2 post : List wstring) (cur : area Calc) (pad : Nat) (cond : wstring)
    (h1 : Balanced skip cond) (hS1 : Balanced braces S1) (hS2 : Balanced braces S2) :
    compileIf env rec
        (pre ++ ifHeader pad cond :: ['{'] :: S1 ++ ['}'] :: kwElse :: ['{'] :: S2
          ++ ['}'] :: post)
        cur pre.length (ifHeader pad cond)
      = (rec S1 (match env.GetCalculation cur cond true with
                  | some check => cur.pushAction (action.calculation check)
                  | none => cur)).bind fun truea =>
          (rec S2 (match env.GetCalculation cur cond true with
                    | some check => cur.pushAction (action.calculation check)
                    | none => cur)).bind fun falsea =>
          Outcome.ret
            ((match env.GetCalculation cur cond true with
                | some check => cur.pushAction (action.calculation check)
                | none => cur).pushAction
                (action.ifstatement truea.actions falsea.actions),
              ((pre.length + 2 + S1.length + 3 + S2.length : Nat) : Int)) := by
  have el1 : pre ++ ifHeader pad cond :: ['{'] :: S1 ++ ['}'] :: kwElse :: ['{'] :: S2
        ++ ['}'] :: post
      = (pre ++ [ifHeader pad cond, ['{']]) ++ S1
          ++ ['}'] :: (kwElse :: ['{'] :: S2 ++ ['}'] :: post) := by simp
  have el2 : pre ++ ifHeader pad cond :: ['{'] :: S1 ++ ['}'] :: kwElse :: ['{'] :: S2
        ++ ['}'] :: post
      = (pre ++ ifHeader pad cond :: ['{'] :: S1 ++ [['}'], kwElse, ['{']]) ++ S2
          ++ ['}'] :: post := by simp
  have el3 : pre ++ ifHeader pad cond :: ['{'] :: S1 ++ ['}'] :: kwElse :: ['{'] :: S2
        ++ ['}'] :: post
      = (pre ++ ifHeader pad cond :: ['{'] :: S1 ++ [['}']]) ++ kwElse
          :: (['{'] :: S2 ++ ['}'] :: post) := by simp
  have hA1 : pre.length + 1 + 1 = (pre ++ [ifHeader pad cond, ['{']]).length := by simp
  have hA2 : pre.length + 2 + S1.length + 3
      = (pre ++ ifHeader pad cond :: ['{'] :: S1 ++ [['}'], kwElse, ['{']]).length := by
    simp; omega
  have hA3 : pre.length + 2 + S1.length + 1
      = (pre ++ ifHeader pad cond :: ['{'] :: S1 ++ [['}']]).length := by
    simp; omega
  have hfind1 := FindLine_at _ S1 (kwElse :: ['{'] :: S2 ++ ['}'] :: post) _ hA1 hS1
  have hrange1 := lineRange_at _ S1 (['}'] :: (kwElse :: ['{'] :: S2 ++ ['}'] :: post)) _ hA1
  have hfind2 := FindLine_at _ S2 post _ hA2 hS2
  have hrange2 := lineRange_at _ S2 (['}'] :: post) _ hA2
  have hnext : (pre ++ ifHeader pad cond :: ['{'] :: S1 ++ ['}'] :: kwElse :: ['{'] :: S2
        ++ ['}'] :: post)[pre.length + 2 + S1.length + 1]? = some kwElse := by
    rw [el3, hA3]
    exact getElem?_block _ _ _
  have hj : pre.length + 1 + 1 + S1.length = pre.length + 2 + S1.length := by omega
  rw [hj, ← el1] at hfind1 hrange1
  rw [← el2] at hfind2 hrange2
  have hopen : (wfind (ifHeader pad cond) '(' 0 + 1).toNat = 2 + pad + 1 := by
    rw [ifHeader_open]; omega
  have eh : ifHeader pad cond = (kwIf ++ spaces pad ++ ['(']) ++ cond ++ ')' :: [] := by
    simp [ifHeader]
  have hl : 2 + pad + 1 = (kwIf ++ spaces pad ++ ['(']).length := by
    simp [kwIf, spaces]
    omega
  have hclose : Find (ifHeader pad cond) (2 + pad + 1) ')' skip
      = ((2 + pad + 1 + cond.length : Nat) : Int) := by
    rw [eh, hl]
    exact Find_group _ _ [] h1
  have hbetween : substr (ifHeader pad cond) (2 + pad + 1)
      (((2 + pad + 1 + cond.length : Nat) : Int) - ((2 + pad + 1 : Nat) : Int)) = cond := by
    rw [eh]
    exact substr_mid' _ _ _ _ _ hl (by push_cast; omega)
  have hn1 : (((pre.length + 2 + S1.length : Nat) : Int) + 1).toNat
      = pre.length + 2 + S1.length + 1 := by omega
  have hn2 : (((pre.length + 2 + S1.length : Nat) : Int) + 2).toNat + 1
      = pre.length + 2 + S1.length + 3 := by omega
  have helse : substrcomp kwElse kwElse = true := by decide
  unfold compileIf
  simp only [hopen, hclose, hbetween, hfind1, hrange1, hn1, hn2, hnext, index, helse, if_true,
    hfind2, hrange2, Outcome.bind_ret]

theorem compileLine_if (env : Env Calc)
    (rec : List wstring → area Calc → Outcome (area Calc))
    (lines : List wstring) (cur : area Calc) (i : Nat) (pad : Nat) (cond : wstring)
    (hty : env.GetType (firstWord (ifHeader pad cond)) = none) :
    compileLine env rec lines cur i (ifHeader pad cond)
      = compileIf env rec lines cur i (ifHeader pad cond) := by
  have hlen : (ifHeader pad cond).length > 2 := by
    simp [ifHeader, kwIf]
  have e : ifHeader pad cond = 'i' :: ('f' :: spaces pad ++ '(' :: cond ++ [')']) := by
    simp [ifHeader, kwIf]
  have hconst : substrcomp (firstWord (ifHeader pad cond)) kwConst = false := by
    rw [e, firstWord_cons _ _ (by decide)]
    exact substrcomp_cons_ne _ _ _ _ (by decide)
  have hfor : substrcomp (ifHeader pad cond) kwFor = false := by
    rw [e]
    exact substrcomp_cons_ne _ _ _ _ (by decide)
  have hif : substrcomp (ifHeader pad cond) kwIf = true := by
    simp [substrcomp, ifHeader, kwIf, List.isPrefixOf]
  rw [compileLine_not_declaration env rec lines cur i _ hlen hconst hty, hfor, hif]
  rfl

/-- C3: for a line `if (cond)` followed by a closed block `S1`, an `else` line and a
closed block `S2`, compiled in a scope `cur` for whose condition the sub-evaluator
gives the check `c`: when compiling `S1` and compiling `S2`, each in a new child
scope, return `truea` and `falsea`, the scope afterwards has the actions of `cur`,
then `c`, then exactly one if-statement with the actions of `truea` as its true
branch and those of `falsea` as its false branch; the cursor is on the closing brace
of the else block. -/
theorem if_else_compiled (env : Env Calc) (fuel : Nat)
    (pre S1 S2 post : List wstring) (cur : area Calc) (pad : Nat) (cond : wstring)
    (truea falsea : area Calc) (c : Calc)
    (hty : env.GetType (firstWord (ifHeader pad cond)) = none)
    (h1 : Balanced skip cond) (hS1 : Balanced braces S1) (hS2 : Balanced braces S2)
    (hc : env.GetCalculation cur cond true = some c)
    (htrue : (Compile env fuel S1
        (some { Parent := cur.Parent, vars := cur.vars, functions := cur.functions
                actions := cur.actions ++ [action.calculation c] })).value = .ok truea)
    (hfalse : (Compile env fuel S2
        (some { Parent := cur.Parent, vars := cur.vars, functions := cur.functions
                actions := cur.actions ++ [action.calculation c] })).value = .ok falsea) :
    (compileLine env (recCompile env fuel)
        (pre ++ ifHeader pad cond :: ['{'] :: S1 ++ ['}'] :: kwElse :: ['{'] :: S2
          ++ ['}'] :: post)
        cur pre.length (ifHeader pad cond)).value
      = .ok ({ Parent := cur.Parent, vars := cur.vars, functions := cur.functions
               actions := cur.actions ++
                 [action.calculation c, action.ifstatement truea.actions falsea.actions] },
             ((pre.length + 2 + S1.length + 3 + S2.length : Nat) : Int)) := by
  rw [compileLine_if env _ _ cur _ pad cond hty,
    compileIf_else env _ pre S1 S2 post cur pad cond h1 hS1 hS2]
  simp only [hc]
  have ht : (recCompile env fuel S1 (cur.pushAction (action.calculation c))).value
      = .ok truea := htrue
  have hf : (recCompile env fuel S2 (cur.pushAction (action.calculation c))).value
      = .ok falsea := hfalse
  rw [Outcome.bind_value_ok _ _ truea ht, Outcome.bind_value_ok _ _ falsea hf]
  simp [Outcome.ret, area.pushAction]

/-- The construct `if (a < b) { a++ } else { b++ }` in an empty scope: the check, then
one if-statement with one action in each branch; the cursor on line 7. -/
theorem if_else_compiled_witness :
    (compileLine demoEnv (recCompile demoEnv 5)
        ["if (a < b)".toList, ['{'], "a++".toList, ['}'], "else".toList, ['{'],
          "b++".toList, ['}']]
        (area.fresh none) 0 "if (a < b)".toList).value
      = .ok ({ Parent := none, vars := [], functions := []
               actions :=
                 [action.calculation "a < b".toList,
                  action.ifstatement [action.calculation "a++".toList]
                    [action.calculation "b++".toList]] }, 7) :=
  if_else_compiled demoEnv 5 [] ["a++".toList] ["b++".toList] [] (area.fresh none) 1
    "a < b".toList
    { Parent := some { Parent := none, vars := [], functions := []
                       actions := [action.calculation "a < b".toList] }
      vars := [], functions := [], actions := [action.calculation "a++".toList] }
    { Parent := some { Parent := none, vars := [], functions := []
                       actions := [action.calculation "a < b".toList] }
      vars := [], functions := [], actions := [action.calculation "b++".toList] }
    "a < b".toList
    (by decide) (by decide) (by decide) (by decide) (by rfl) (by rfl) (by rfl)

end

/-! ## Splitting outside parentheses -/

theorem split_string_skip_ne_nil (d : Char) (pair : Char × Char) (s : wstring) :
    ∀ depth, split_string_skip d pair depth s ≠ [] := by
  induction s with
  | nil => intro depth; simp [split_string_skip]
  | cons c cs ih =>
    intro depth
    unfold split_string_skip
    split
    · simp
    · split <;> simp

theorem split_string_skip_append (d : Char) (pair : Char × Char) (xs rest : wstring) :
    ∀ dp : Nat, (∀ k ≤ xs.length, 0 ≤ (dp : Int) + nesting pair (xs.take k)) →
      (∀ k ≤ xs.length, xs[k]? = some d → 0 < (dp : Int) + nesting pair (xs.take k)) →
      split_string_skip d pair dp (xs ++ rest)
        = consHead xs (split_string_skip d pair ((dp : Int) + nesting pair xs).toNat rest) := by
  induction xs with
  | nil =>
    intro dp _ _
    have : ((dp : Int) + nesting pair ([] : wstring)).toNat = dp := by simp [nesting]
    rw [this]
    cases h : split_string_skip d pair dp rest with
    | nil => exact absurd h (split_string_skip_ne_nil d pair rest dp)
    | cons p ps => simp [consHead, h]
  | cons x xs ih =>
    intro dp hpre hd
    have hnot : ¬ (dp = 0 ∧ x = d) := by
      rintro ⟨h0, hx⟩
      have := hd 0 (by simp) (by simp [hx])
      simp [nesting, h0] at this
    have h1 := hpre 1 (by simp)
    simp only [List.take_succ_cons, List.take_zero, nesting_cons, nesting_nil] at h1
    have hstep : ((skipDepth pair dp x : Nat) : Int) = (dp : Int) + nestingStep pair x := by
      unfold skipDepth nestingStep
      by_cases a : x = pair.1
      · simp [a]
      · by_cases b : x = pair.2
        · have a' : ¬ pair.2 = pair.1 := fun e => a (b.trans e)
          subst b
          simp only [nestingStep, a', if_true, if_false] at h1
          simp only [a', if_true, if_false]
          omega
        · simp [a, b]
    have hpre' : ∀ k ≤ xs.length,
        0 ≤ ((skipDepth pair dp x : Nat) : Int) + nesting pair (xs.take k) := by
      intro k hk
      have := hpre (k + 1) (by simpa using hk)
      simp only [List.take_succ_cons, nesting_cons] at this
      rw [hstep]; omega
    have hd' : ∀ k ≤ xs.length, xs[k]? = some d →
        0 < ((skipDepth pair dp x : Nat) : Int) + nesting pair (xs.take k) := by
      intro k hk hk'
      have := hd (k + 1) (by simpa using hk) (by simpa using hk')
      simp only [List.take_succ_cons, nesting_cons] at this
      rw [hstep]; omega
    have := ih (skipDepth pair dp x) hpre' hd'
    rw [List.cons_append, split_string_skip, if_neg hnot, this]
    have e : ((skipDepth pair dp x : Nat) : Int) + nesting pair xs
        = (dp : Int) + nesting pair (x :: xs) := by
      rw [hstep, nesting_cons]; omega
    rw [e]
    cases h : split_string_skip d pair ((dp : Int) + nesting pair (x :: xs)).toNat rest with
    | nil => exact absurd h (split_string_skip_ne_nil d pair rest _)
    | cons p ps => simp [consHead]

theorem split_string_skip_single (d : Char) (pair : Char × Char) (p : wstring)
    (hb : Balanced pair p) (hn : Nested d pair p) :
    split_string_skip d pair 0 p = [p] := by
  have := split_string_skip_append d pair p [] 0 (by simpa using hb.1) (by simpa using hn)
  rw [List.append_nil] at this
  rw [this]
  simp [split_string_skip, consHead]

theorem split_string_skip_cons (d : Char) (pair : Char × Char) (p rest : wstring)
    (hb : Balanced pair p) (hn : Nested d pair p) :
    split_string_skip d pair 0 (p ++ d :: rest) = p :: split_string_skip d pair 0 rest := by
  have := split_string_skip_append d pair p (d :: rest) 0 (by simpa using hb.1)
    (by simpa using hn)
  rw [this]
  simp [hb.2, split_string_skip, consHead]

theorem split_string_skip_intercalate (d : Char) (pair : Char × Char) (p : wstring)
    (ps : List wstring) (h : ∀ q ∈ p :: ps, Balanced pair q ∧ Nested d pair q) :
    split_string_skip d pair 0 (List.intercalate [d] (p :: ps)) = p :: ps := by
  induction ps generalizing p with
  | nil =>
    have hp := h p (by simp)
    simpa [List.intercalate] using split_string_skip_single d pair p hp.1 hp.2
  | cons q qs ih =>
    have hp := h p (by simp)
    have : List.intercalate [d] (p :: q :: qs) = p ++ d :: List.intercalate [d] (q :: qs) := by
      simp [List.intercalate]
    rw [this, split_string_skip_cons d pair p _ hp.1 hp.2,
      ih q (fun r hr => h r (by simp at hr ⊢; tauto))]

/-! ## Declarators -/

section
variable {α : Type} [DecidableEq α]

theorem Nested_nil (c : α) (pair : α × α) : Nested c pair ([] : List α) := by
  intro k _ h
  simp at h

theorem Nested_cons_plain (c : α) (pair : α × α) (x : α) (ys : List α)
    (hx : x ≠ c ∧ x ≠ pair.1 ∧ x ≠ pair.2) (hy : Nested c pair ys) :
    Nested c pair (x :: ys) := by
  intro k hk h
  cases k with
  | zero =>
    simp at h
    exact absurd h hx.1
  | succ k =>
    have := hy k (by simpa using hk) (by simpa using h)
    rw [List.take_succ_cons, nesting_cons]
    simp [nestingStep, hx.2.1, hx.2.2, this]

theorem Nested_append_plain (c : α) (pair : α × α) (xs ys : List α)
    (hx : ∀ x ∈ xs, x ≠ c ∧ x ≠ pair.1 ∧ x ≠ pair.2) (hy : Nested c pair ys) :
    Nested c pair (xs ++ ys) := by
  induction xs with
  | nil => simpa using hy
  | cons x xs ih =>
    exact Nested_cons_plain c pair x _ (hx x (by simp))
      (ih (fun y hy' => hx y (by simp [hy'])))

end

theorem dropWhile_append_stop (p : Char → Bool) (l r : wstring) (x : Char) (hx : p x = false) :
    (l ++ x :: r).dropWhile p = l.dropWhile p ++ x :: r := by
  induction l with
  | nil => simp [List.dropWhile_cons, hx]
  | cons y ys ih =>
    by_cases hy : p y = true
    · simp [List.dropWhile_cons, hy, ih]
    · simp [List.dropWhile_cons, hy]

/-- The text `e` without its trailing white space. -/
theorem trim_lead (n : Nat) (x : Char) (xs : wstring) (hx : iswspace x = false) :
    trim (spaces n ++ x :: xs) = (((x :: xs).reverse).dropWhile iswspace).reverse := by
  rw [trim, dropWhile_spaces, List.dropWhile_cons, hx]
  rfl

theorem Declarator.prefix_plain (d : Declarator) (h : d.WellFormed) :
    ∀ c ∈ spaces d.lead ++ (d.name ++ spaces d.gap), c ≠ ',' ∧ c ≠ '(' ∧ c ≠ ')' := by
  intro c hc
  simp only [spaces, List.mem_append, List.mem_replicate] at hc
  rcases hc with ⟨_, rfl⟩ | h1 | ⟨_, rfl⟩
  · decide
  · exact (h.1.2 c h1).2
  · decide

theorem Declarator.text_balanced (d : Declarator) (h : d.WellFormed) :
    Balanced skip d.text ∧ Nested ',' skip d.text := by
  have hp := d.prefix_plain h
  cases hi : d.init with
  | none =>
    have e : d.text = spaces d.lead ++ (d.name ++ spaces d.gap) := by
      simp [Declarator.text, hi]
    rw [e]
    refine ⟨Balanced_of_no_pair skip _ (fun c hc => (hp c hc).2), ?_⟩
    have := Nested_append_plain ',' skip _ [] (fun c hc => hp c hc) (Nested_nil ',' skip)
    simpa using this
  | some ex =>
    have hex := h.2.2 ex (by simp [hi])
    have e : d.text = (spaces d.lead ++ (d.name ++ spaces d.gap) ++ ['=']) ++ ex := by
      simp [Declarator.text, hi]
    have hp' : ∀ c ∈ spaces d.lead ++ (d.name ++ spaces d.gap) ++ ['='],
        c ≠ ',' ∧ c ≠ '(' ∧ c ≠ ')' := by
      intro c hc
      rw [List.mem_append] at hc
      rcases hc with h1 | h2
      · exact hp c h1
      · simp at h2
        subst h2
        decide
    rw [e]
    exact ⟨Balanced_append skip _ _ (Balanced_of_no_pair skip _ (fun c hc => (hp' c hc).2)) hex.1,
      Nested_append_plain ',' skip _ _ (fun c hc => hp' c hc) hex.2⟩

theorem IsPlain.head {w : wstring} (h : IsPlain w) :
    ∃ x xs, w = x :: xs ∧ iswspace x = false := by
  obtain ⟨x, xs, e⟩ := List.exists_cons_of_ne_nil h.1
  exact ⟨x, xs, e, h.nows x (by simp [e])⟩

theorem trim_name_gap (name : wstring) (gap : Nat) (h : IsPlain name) :
    trim (name ++ spaces gap) = name := by
  have := trim_pad 0 gap name (head?_nows _ h.nows) (getLast?_nows _ h.nows)
  simpa [spaces] using this

theorem Declarator.trim_text_none (d : Declarator) (h : d.WellFormed) (hi : d.init = none) :
    trim d.text = d.name := by
  have e : d.text = spaces d.lead ++ d.name ++ spaces d.gap := by
    simp [Declarator.text, hi]
  rw [e]
  exact trim_pad _ _ _ (head?_nows _ h.1.nows) (getLast?_nows _ h.1.nows)

theorem Declarator.trim_text_some (d : Declarator) (h : d.WellFormed) (ex : wstring)
    (hi : d.init = some ex) :
    trim d.text
      = (d.name ++ spaces d.gap) ++ '=' :: ((ex.reverse).dropWhile iswspace).reverse := by
  obtain ⟨x, xs, hx, hws⟩ := h.1.head
  have e : d.text = spaces d.lead ++ x :: (xs ++ spaces d.gap ++ '=' :: ex) := by
    simp [Declarator.text, hi, hx]
  rw [e, trim_lead _ _ _ hws]
  have r : (x :: (xs ++ spaces d.gap ++ '=' :: ex)).reverse
      = ex.reverse ++ '=' :: (d.name ++ spaces d.gap).reverse := by
    simp [hx]
  rw [r, dropWhile_append_stop _ _ _ _ (by decide)]
  simp

section
variable {Calc : Type}

theorem declareNames_cons (env : Env Calc) (t : types) (cur : area Calc) (d : Declarator)
    (names : List wstring) (h : d.WellFormed) :
    declareNames env t cur (d.text :: names)
      = declareNames env t
          (match d.init with
            | none => cur.pushVariable (d.toVariable t)
            | some _ =>
              match env.GetCalculation (cur.pushVariable (d.toVariable t)) (trim d.text) false with
              | some c =>
                (cur.pushVariable (d.toVariable t)).pushAction (action.calculation c)
              | none => cur.pushVariable (d.toVariable t))
          names := by
  have hne : d.name.length > 0 := List.length_pos.mpr h.1.1
  cases hi : d.init with
  | none =>
    have ht := d.trim_text_none h hi
    have hfind : wfind d.name '=' 0 = -1 := wfind_none '=' _ h.2.1
    have htn : trim d.name = d.name :=
      trim_word _ (head?_nows _ h.1.nows) (getLast?_nows _ h.1.nows)
    rw [declareNames]
    simp only [ht, hne, if_true, hfind, htn]
    rfl
  | some ex =>
    have ht := d.trim_text_some h ex hi
    have hm : '=' ∉ d.name ++ spaces d.gap := by
      simp only [spaces, List.mem_append, List.mem_replicate, not_or]
      refine ⟨h.2.1, ?_⟩
      rintro ⟨_, h'⟩
      exact absurd h' (by decide)
    have hfind : wfind ((d.name ++ spaces d.gap) ++ '='
        :: ((ex.reverse).dropWhile iswspace).reverse) '=' 0
        = ((d.name ++ spaces d.gap).length : Int) := wfind_append '=' _ _ hm
    have hlen : ((d.name ++ spaces d.gap) ++ '='
        :: ((ex.reverse).dropWhile iswspace).reverse).length > 0 := by simp
    have hpos : ((d.name ++ spaces d.gap).length : Int) > 0 := by
      simp only [List.length_append]; omega
    have hsub : substr ((d.name ++ spaces d.gap) ++ '='
        :: ((ex.reverse).dropWhile iswspace).reverse) 0 ((d.name ++ spaces d.gap).length : Int)
        = d.name ++ spaces d.gap := by
      have := substr_mid' [] (d.name ++ spaces d.gap)
        ('=' :: ((ex.reverse).dropWhile iswspace).reverse) 0 _ rfl rfl
      simpa using this
    rw [declareNames]
    simp only [ht, hlen, if_true, hfind, hpos, hsub, trim_name_gap _ _ h.1]
    show (match env.GetCalculation (cur.pushVariable (d.toVariable t)) _ false with
      | some c => _
      | none => _) = _
    cases env.GetCalculation (cur.pushVariable (d.toVariable t))
      (d.name ++ spaces d.gap ++ '=' :: (List.dropWhile iswspace (List.reverse ex)).reverse)
      false <;> rfl

end

theorem trim_cons_space (s : wstring) : trim (' ' :: s) = trim s := by
  rw [trim, trim, List.dropWhile_cons, iswspace_space]
  rfl

theorem intercalate_head (p : wstring) (ps : List wstring) :
    ∃ tail, List.intercalate [','] (p :: ps) = p ++ tail := by
  cases ps with
  | nil => exact ⟨[], by simp [List.intercalate]⟩
  | cons q qs => exact ⟨',' :: List.intercalate [','] (q :: qs), by simp [List.intercalate]⟩

theorem intercalate_cons_head (c : Char) (p : wstring) (ps : List wstring) :
    c :: List.intercalate [','] (p :: ps) = List.intercalate [','] ((c :: p) :: ps) := by
  cases ps with
  | nil => simp [List.intercalate]
  | cons q qs => simp [List.intercalate]

section
variable {Calc : Type}

theorem declareAll_cons (env : Env Calc) (t : types) (cur : area Calc) (d : Declarator)
    (ds : List Declarator) :
    declareAll env t cur (d :: ds) = declareAll env t (d.declare env t cur) ds := rfl

theorem declareNames_declareAll (env : Env Calc) (t : types) (ds : List Declarator) :
    ∀ cur : area Calc, (∀ x ∈ ds, x.WellFormed) →
      declareNames env t cur (ds.map Declarator.text) = declareAll env t cur ds := by
  induction ds with
  | nil => intro cur _; rfl
  | cons d ds ih =>
    intro cur hwf
    rw [List.map_cons, declareNames_cons env t cur d _ (hwf d (by simp)), declareAll_cons]
    exact ih _ fun x hx => hwf x (by simp [hx])

/-- The scope after the declarators `ds`, field by field: the variables of the
declarators and a list `cs` of calculations are appended. When every initializer is
accepted in the scope in which it is evaluated, `cs` has one entry per initializer,
and the entry of each is the result of the sub-evaluator in the scope that holds the
variables up to its own and the calculations of the initializers before it. -/
theorem declareAll_spec (env : Env Calc) (t : types) (ds : List Declarator) :
    ∀ cur : area Calc, ∃ cs : List Calc,
      declareAll env t cur ds
        = { Parent := cur.Parent
            vars := cur.vars ++ ds.map (Declarator.toVariable t)
            functions := cur.functions
            actions := cur.actions ++ cs.map action.calculation }
      ∧ cs.length ≤ (ds.filter (fun x => x.init.isSome)).length
      ∧ ((∀ pre x post, ds = pre ++ x :: post → x.init.isSome →
            (env.GetCalculation ((declareAll env t cur pre).pushVariable (x.toVariable t))
              (trim x.text) false).isSome) →
          cs.length = (ds.filter (fun x => x.init.isSome)).length
          ∧ ∀ pre x post, ds = pre ++ x :: post → x.init.isSome →
              env.GetCalculation
                  { Parent := cur.Parent
                    vars := cur.vars ++ (pre ++ [x]).map (Declarator.toVariable t)
                    functions := cur.functions
                    actions := cur.actions
                      ++ (cs.take (pre.filter (fun y => y.init.isSome)).length).map
                          action.calculation }
                  (trim x.text) false
                = cs[(pre.filter (fun y => y.init.isSome)).length]?) := by
  induction ds with
  | nil =>
    intro cur
    refine ⟨[], ?_, by simp, fun _ => ⟨by simp, ?_⟩⟩
    · cases cur
      simp [declareAll]
    · intro pre x post h
      simp at h
  | cons d ds ih =>
    intro cur
    obtain ⟨cs, h1, h2, h3⟩ := ih (d.declare env t cur)
    have hacc' : (∀ pre x post, d :: ds = pre ++ x :: post → x.init.isSome →
          (env.GetCalculation ((declareAll env t cur pre).pushVariable (x.toVariable t))
            (trim x.text) false).isSome) →
        ∀ pre x post, ds = pre ++ x :: post → x.init.isSome →
          (env.GetCalculation
            ((declareAll env t (d.declare env t cur) pre).pushVariable (x.toVariable t))
            (trim x.text) false).isSome := by
      intro hacc pre x post h hx
      have := hacc (d :: pre) x post (by rw [h]; rfl) hx
      rw [declareAll_cons] at this
      exact this
    rw [declareAll_cons, h1]
    cases hi : d.init with
    | none =>
      have hd : d.declare env t cur = cur.pushVariable (d.toVariable t) := by
        simp only [Declarator.declare, hi]
      rw [hd] at h1 h3 ⊢
      refine ⟨cs, ?_, ?_, ?_⟩
      · simp [area.pushVariable]
      · simpa [List.filter_cons, hi] using h2
      · intro hacc
        rw [hd] at hacc'
        obtain ⟨e1, e2⟩ := h3 (hacc' hacc)
        refine ⟨by simpa [List.filter_cons, hi] using e1, ?_⟩
        intro pre x post h hx
        cases pre with
        | nil =>
          simp only [List.nil_append, List.cons.injEq] at h
          rw [← h.1, hi] at hx
          cases hx
        | cons p pre =>
          simp only [List.cons_append, List.cons.injEq] at h
          obtain ⟨rfl, h⟩ := h
          have := e2 pre x post h hx
          simpa [area.pushVariable, List.filter_cons, hi] using this
    | some ex =>
      cases hc : env.GetCalculation (cur.pushVariable (d.toVariable t)) (trim d.text) false with
      | none =>
        have hd : d.declare env t cur = cur.pushVariable (d.toVariable t) := by
          simp only [Declarator.declare, hi, hc]
        rw [hd] at h1 h3 ⊢
        refine ⟨cs, ?_, ?_, ?_⟩
        · simp [area.pushVariable]
        · simp only [List.filter_cons, hi, Option.isSome_some, if_true, List.length_cons]
          omega
        · intro hacc
          have := hacc [] d ds rfl (by simp [hi])
          have e : (declareAll env t cur []).pushVariable (d.toVariable t)
              = cur.pushVariable (d.toVariable t) := rfl
          rw [e, hc] at this
          cases this
      | some c =>
        have hd : d.declare env t cur
            = (cur.pushVariable (d.toVariable t)).pushAction (action.calculation c) := by
          simp only [Declarator.declare, hi, hc]
        rw [hd] at h1 h3 ⊢
        refine ⟨c :: cs, ?_, ?_, ?_⟩
        · simp [area.pushVariable, area.pushAction]
        · simp only [List.filter_cons, hi, Option.isSome_some, if_true, List.length_cons]
          omega
        · intro hacc
          rw [hd] at hacc'
          obtain ⟨e1, e2⟩ := h3 (hacc' hacc)
          refine ⟨by simp only [List.filter_cons, hi, Option.isSome_some, if_true,
            List.length_cons, e1], ?_⟩
          intro pre x post h hx
          cases pre with
          | nil =>
            simp only [List.nil_append, List.cons.injEq] at h
            obtain ⟨rfl, _⟩ := h
            have e : ({ Parent := cur.Parent
                        vars := cur.vars ++ ([] ++ [d]).map (Declarator.toVariable t)
                        functions := cur.functions
                        actions := cur.actions
                          ++ ((c :: cs).take
                              (([] : List Declarator).filter
                                (fun y => y.init.isSome)).length).map action.calculation }
                  : area Calc)
                = cur.pushVariable (d.toVariable t) := by
              simp [area.pushVariable]
            rw [e, hc]
            simp
          | cons p pre =>
            simp only [List.cons_append, List.cons.injEq] at h
            obtain ⟨rfl, h⟩ := h
            have := e2 pre x post h hx
            simpa [area.pushVariable, area.pushAction, List.filter_cons, hi] using this

theorem Declarator.declare_lead (env : Env Calc) (t : types) (cur : area Calc)
    (d : Declarator) (k : Nat) :
    ({ d with lead := d.lead + k } : Declarator).declare env t cur = d.declare env t cur := by
  have e : trim ({ d with lead := d.lead + k } : Declarator).text = trim d.text := by
    induction k with
    | zero => rfl
    | succ k ih =>
      rw [← ih]
      have : ({ d with lead := d.lead + (k + 1) } : Declarator).text
          = ' ' :: ({ d with lead := d.lead + k } : Declarator).text := by
        simp [Declarator.text, spaces, ← Nat.add_assoc, List.replicate_succ]
      rw [this, trim_cons_space]
  unfold Declarator.declare
  rw [e]
  rfl

/-- A scalar declaration line that no `{` line follows: the loop body returns the scope
of `declareNames` on the pieces of the name part, which are the texts of the
declarators, the first one behind the space that follows the type word. -/
theorem compileLine_declareAll (env : Env Calc)
    (rec : List wstring → area Calc → Outcome (area Calc))
    (lines : List wstring) (cur : area Calc) (i : Nat) (ty : wstring) (t : types)
    (d : Declarator) (ds : List Declarator)
    (hty : env.GetType ty = some t) (hne : ty ≠ []) (hconst : substrcomp ty kwConst = false)
    (hsp : ' ' ∉ ty) (hnext : lines[i + 1]? ≠ some ['{'])
    (hwf : ∀ x ∈ d :: ds, x.WellFormed) :
    compileLine env rec lines cur i (declarationText ty (d :: ds))
      = Outcome.ret (declareAll env t cur (d :: ds), (i : Int)) := by
  have hd := hwf d (by simp)
  obtain ⟨d1, htext, hdecl, hd1⟩ : ∃ d1 : Declarator,
      ' ' :: d.text = d1.text ∧ d1.declare env t cur = d.declare env t cur
      ∧ d1.WellFormed := by
    have e : ' ' :: d.text = ({ d with lead := d.lead + 1 } : Declarator).text := by
      simp [Declarator.text, spaces, List.replicate_succ]
    exact ⟨{ d with lead := d.lead + 1 }, e, d.declare_lead env t cur 1, hd⟩
  have hwf1 : ∀ x ∈ d1 :: ds, x.WellFormed := by
    intro x hx
    rcases List.mem_cons.mp hx with rfl | hx
    · exact hd1
    · exact hwf x (by simp [hx])
  have hline : declarationText ty (d :: ds)
      = ty ++ ' ' :: List.intercalate [','] ((d :: ds).map Declarator.text) := rfl
  obtain ⟨tail, htail⟩ := intercalate_head d.text (ds.map Declarator.text)
  obtain ⟨x, xs, hx, _⟩ := hd.1.head
  have hlen : (declarationText ty (d :: ds)).length > 2 := by
    have h1 : ty.length > 0 := List.length_pos.mpr hne
    rw [hline, List.map_cons, htail]
    simp only [Declarator.text, hx, List.length_append, List.length_cons]
    omega
  have hwords : index (split_string ' ' (declarationText ty (d :: ds))) 0 = Outcome.ret ty := by
    rw [hline, split_string_append ' ' ty _ hsp]
    simp [index]
  have hspace : wfind (declarationText ty (d :: ds)) ' ' 0 = (ty.length : Int) := by
    rw [hline]
    exact wfind_append ' ' ty _ hsp
  have hnames : split_string_skip ',' skip 0
      (substr (declarationText ty (d :: ds)) ((ty.length : Int)).toNat (-1))
      = (d1 :: ds).map Declarator.text := by
    have hs : substr (declarationText ty (d :: ds)) ((ty.length : Int)).toNat (-1)
        = ' ' :: List.intercalate [','] ((d :: ds).map Declarator.text) := by
      rw [hline]
      exact substr_tail ty _ _ _ (by simp) (by decide)
    rw [hs, List.map_cons, intercalate_cons_head, htext]
    exact split_string_skip_intercalate ',' skip _ _ (by
      intro q hq
      have : q ∈ (d1 :: ds).map Declarator.text := by simpa using hq
      obtain ⟨y, hy, rfl⟩ := List.mem_map.mp this
      exact y.text_balanced (hwf1 y hy))
  have hall : declareNames env t cur ((d1 :: ds).map Declarator.text)
      = declareAll env t cur (d :: ds) := by
    rw [declareNames_declareAll env t (d1 :: ds) cur hwf1, declareAll_cons, declareAll_cons,
      hdecl]
  have hnn : ¬ ((ty.length : Int) < 0) := by omega
  unfold compileLine
  simp only [hlen, if_true, hwords, Outcome.bind_ret, hconst, Bool.false_eq_true, if_false,
    hty, hnext, hspace, compileScalars, hnn, hnames, hall]

/-- C4: for a scalar declaration `type n1 [= e1], n2 [= e2], ...` with valid
declarators that is not followed by a `{` line, the loop body leaves the cursor where
it is, reports nothing, and returns the current scope with one variable per declared
name appended, in order, each of the declared type and with the declared name, and
with a list of calculations appended to its actions and nothing else. Declarator by
declarator, from left to right, the variable is appended first and then the
calculation that the sub-evaluator gives for the trimmed text `name = expression` in
the scope built so far, when it gives one. When the sub-evaluator accepts every
initializer in the scope in which it is evaluated, there is exactly one calculation
per initializer, in order, and the calculation of each is the result of the
sub-evaluator in the scope that holds the variables up to its own and the
calculations of the initializers before it. -/
theorem scalar_declaration_compiled (env : Env Calc)
    (rec : List wstring → area Calc → Outcome (area Calc))
    (lines : List wstring) (cur : area Calc) (i : Nat) (ty : wstring) (t : types)
    (d : Declarator) (ds : List Declarator)
    (hty : env.GetType ty = some t) (hne : ty ≠ []) (hconst : substrcomp ty kwConst = false)
    (hsp : ' ' ∉ ty) (hnext : lines[i + 1]? ≠ some ['{'])
    (hwf : ∀ x ∈ d :: ds, x.WellFormed) :
    compileLine env rec lines cur i (declarationText ty (d :: ds))
      = Outcome.ret (declareAll env t cur (d :: ds), (i : Int))
    ∧ ∃ cs : List Calc,
        declareAll env t cur (d :: ds)
          = { Parent := cur.Parent
              vars := cur.vars ++ (d :: ds).map (Declarator.toVariable t)
              functions := cur.functions
              actions := cur.actions ++ cs.map action.calculation }
        ∧ cs.length ≤ ((d :: ds).filter (fun x => x.init.isSome)).length
        ∧ ((∀ pre x post, d :: ds = pre ++ x :: post → x.init.isSome →
              (env.GetCalculation ((declareAll env t cur pre).pushVariable (x.toVariable t))
                (trim x.text) false).isSome) →
            cs.length = ((d :: ds).filter (fun x => x.init.isSome)).length
            ∧ ∀ pre x post, d :: ds = pre ++ x :: post → x.init.isSome →
                env.GetCalculation
                    { Parent := cur.Parent
                      vars := cur.vars ++ (pre ++ [x]).map (Declarator.toVariable t)
                      functions := cur.functions
                      actions := cur.actions
                        ++ (cs.take (pre.filter (fun y => y.init.isSome)).length).map
                            action.calculation }
                    (trim x.text) false
                  = cs[(pre.filter (fun y => y.init.isSome)).length]?) :=
  ⟨compileLine_declareAll env rec lines cur i ty t d ds hty hne hconst hsp hnext hwf,
    declareAll_spec env t (d :: ds) cur⟩

end

/-- The declaration `integer x = 3, y = x` with a sub-evaluator that accepts a text
only in a scope that holds the variable it begins with: two variables, `x` and `y`, and
the two calculations, in order. In the scope before the declaration the text `x = 3`
is not accepted; every initializer is accepted in the scope in which it is evaluated,
and the second calculation is the result for `y = x` in the scope that holds `x`, `y`
and the first calculation. -/
theorem scalar_declaration_compiled_witness :
    compileLine strictEnv (recCompile strictEnv 1) ["integer x = 3, y = x".toList]
        (area.fresh none) 0 "integer x = 3, y = x".toList
      = Outcome.ret
          ({ Parent := none
             vars := [⟨some types.tint, true, "x".toList, storage.scalar⟩,
                      ⟨some types.tint, true, "y".toList, storage.scalar⟩]
             functions := []
             actions := [action.calculation "x = 3".toList,
                         action.calculation "y = x".toList] }, 0)
    ∧ strictEnv.GetCalculation (area.fresh none) "x = 3".toList false = none
    ∧ ∃ cs : List wstring, cs.length = 2
        ∧ strictEnv.GetCalculation
            { Parent := none
              vars := [⟨some types.tint, true, "x".toList, storage.scalar⟩,
                       ⟨some types.tint, true, "y".toList, storage.scalar⟩]
              functions := []
              actions := (cs.take 1).map action.calculation } "y = x".toList false
          = cs[1]? := by
  have key := scalar_declaration_compiled strictEnv (recCompile strictEnv 1)
    ["integer x = 3, y = x".toList] (area.fresh none) 0 "integer".toList types.tint
    ⟨0, "x".toList, 1, some " 3".toList⟩ [⟨1, "y".toList, 1, some " x".toList⟩]
    (by decide) (by decide) (by decide) (by decide) (by decide) (by decide)
  obtain ⟨cs, _, _, h3⟩ := key.2
  obtain ⟨e1, e2⟩ := h3 (by
    intro pre x post h _
    rcases pre with _ | ⟨p, _ | ⟨q, pre⟩⟩
    · simp only [List.nil_append, List.cons.injEq] at h
      obtain ⟨rfl, _⟩ := h
      rfl
    · simp only [List.cons_append, List.nil_append, List.cons.injEq] at h
      obtain ⟨rfl, rfl, _⟩ := h
      rfl
    · simp at h)
  exact ⟨key.1.trans rfl, rfl, cs, e1,
    e2 [⟨0, "x".toList, 1, some " 3".toList⟩] ⟨1, "y".toList, 1, some " x".toList⟩ [] rfl rfl⟩

/-! ## Array declarations -/

theorem isDigit_ne (c d : Char) (hc : c.isDigit = true) (hd : d.isDigit = false) : c ≠ d := by
  intro e
  rw [e, hd] at hc
  cases hc

theorem IsNumeral.not_mem {ds : wstring} (h : IsNumeral ds) (d : Char)
    (hd : d.isDigit = false) : d ∉ ds :=
  fun hm => isDigit_ne d d (h.2 d hm) hd rfl

theorem strtol_numeral (ds : wstring) (h : IsNumeral ds) :
    strtol ds = some (decimalValue ds : Int) := by
  have hall : ds.all Char.isDigit = true := by
    rw [List.all_eq_true]
    exact h.2
  obtain ⟨x, xs, e⟩ := List.exists_cons_of_ne_nil h.1
  have hx : x ≠ '-' := isDigit_ne x '-' (h.2 x (by simp [e])) (by decide)
  subst e
  unfold strtol
  split
  · rename_i heq
    simp at heq
    exact absurd heq.1 hx
  · simp [hall]

theorem strtol_minus (ds : wstring) (h : IsNumeral ds) :
    strtol ('-' :: ds) = some (-(decimalValue ds : Int)) := by
  have hall : ds.all Char.isDigit = true := by
    rw [List.all_eq_true]
    exact h.2
  simp [strtol, h.1, hall]

section ArrayHeader

variable (ty name ds : wstring)

theorem arrayHeader_length :
    (arrayHeader ty name ds).length = ty.length + name.length + ds.length + 3 := by
  simp [arrayHeader]
  omega

theorem arrayHeader_words (h1 : ' ' ∉ ty) (h2 : ' ' ∉ name) (h3 : ' ' ∉ ds) :
    split_string ' ' (arrayHeader ty name ds) = [ty, name ++ '[' :: ds ++ [']']] := by
  have hm : ' ' ∉ name ++ '[' :: ds ++ [']'] := by
    simp only [List.mem_append, List.mem_cons, List.mem_singleton, not_or]
    exact ⟨⟨h2, by decide, h3⟩, by decide, by simp⟩
  have e : arrayHeader ty name ds = ty ++ ' ' :: (name ++ '[' :: ds ++ [']']) := by
    simp [arrayHeader]
  rw [e, split_string_append ' ' ty _ h1, split_string_single ' ' _ hm]

theorem arrayHeader_space (h : ' ' ∉ ty) :
    wfind (arrayHeader ty name ds) ' ' 0 = (ty.length : Int) := by
  have e : arrayHeader ty name ds = ty ++ ' ' :: (name ++ '[' :: ds ++ [']']) := by
    simp [arrayHeader]
  rw [e, wfind_append ' ' ty _ h]

theorem arrayHeader_open (h1 : '[' ∉ ty) (h2 : '[' ∉ name) :
    wfind (arrayHeader ty name ds) '[' 0 = ((ty.length + 1 + name.length : Nat) : Int) := by
  have e : arrayHeader ty name ds = (ty ++ ' ' :: name) ++ '[' :: (ds ++ [']']) := by
    simp [arrayHeader]
  have hm : '[' ∉ ty ++ ' ' :: name := by simp [h1, h2]
  rw [e, wfind_append '[' _ _ hm]
  simp
  omega

theorem arrayHeader_close (h1 : ']' ∉ ty) (h2 : ']' ∉ name) (h3 : ']' ∉ ds) :
    wfind (arrayHeader ty name ds) ']' 0
      = ((ty.length + 1 + name.length + 1 + ds.length : Nat) : Int) := by
  have e : arrayHeader ty name ds = (ty ++ ' ' :: name ++ '[' :: ds) ++ ']' :: [] := by
    simp [arrayHeader]
  have hm : ']' ∉ ty ++ ' ' :: name ++ '[' :: ds := by simp [h1, h2, h3]
  rw [e, wfind_append ']' _ _ hm]
  simp
  omega

theorem arrayHeader_no_paren (h1 : ')' ∉ ty) (h2 : ')' ∉ name) (h3 : ')' ∉ ds) :
    ')' ∉ arrayHeader ty name ds := by
  simp [arrayHeader, h1, h2, h3]

theorem arrayHeader_capacity :
    substr (arrayHeader ty name ds) (ty.length + 1 + name.length + 1) (ds.length : Int) = ds := by
  have e : arrayHeader ty name ds = (ty ++ ' ' :: name ++ ['[']) ++ ds ++ [']'] := by
    simp [arrayHeader]
  rw [e]
  exact substr_mid' _ _ _ _ _ (by simp; omega) rfl

theorem arrayHeader_name (h : '[' ∉ name) :
    substr (name ++ '[' :: ds ++ [']']) 0 (wfind (name ++ '[' :: ds ++ [']']) '[' 0) = name := by
  have e : name ++ '[' :: ds ++ [']'] = name ++ '[' :: (ds ++ [']']) := by simp
  rw [e, wfind_append '[' name _ h]
  have := substr_mid' [] name ('[' :: (ds ++ [']'])) 0 _ rfl rfl
  simpa using this

end ArrayHeader

theorem Balanced_line (vals : wstring) (h1 : vals ≠ ['{']) (h2 : vals ≠ ['}']) :
    Balanced braces [vals] :=
  Balanced_of_no_pair braces [vals] (by
    intro x hx
    simp only [List.mem_singleton] at hx
    subst hx
    exact ⟨h1, h2⟩)

section
variable {Calc : Type}

theorem fillArray_diags {β : Type} (conv : wstring → Outcome β)
    (hconv : ∀ v, (conv v).diags = []) :
    ∀ (n : Nat) (vs : List wstring), (fillArray conv n vs).diags = [] := by
  intro n
  induction n with
  | zero => intro vs; rfl
  | succ n ih =>
    intro vs
    cases vs with
    | nil => rfl
    | cons v vs =>
      rw [fillArray]
      unfold Outcome.bind
      cases h1 : (conv (trim v)).value with
      | error e => simp [hconv]
      | ok x =>
        simp only [hconv, List.nil_append]
        cases h2 : (fillArray conv n vs).value with
        | error e => simp [ih]
        | ok xs => simp [ih, Outcome.ret]

theorem arrayStorage_diags (t : types) (count : Int) (vs : List wstring) :
    (arrayStorage t count vs).diags = [] := by
  unfold arrayStorage
  split
  · rfl
  · cases t <;>
    · simp only
      unfold Outcome.bind
      split
      · rw [fillArray_diags _ (by intro v; first | rfl | (split <;> rfl))]
      · rw [fillArray_diags _ (by intro v; first | rfl | (split <;> rfl))]
        rfl

/-- The loop body for the header of an array declaration whose block is the line of
literals and the closing brace. -/
theorem compileLine_array (env : Env Calc)
    (rec : List wstring → area Calc → Outcome (area Calc))
    (pre post : List wstring) (cur : area Calc) (ty name ds vals : wstring) (t : types)
    (hty : env.GetType ty = some t) (hconst : substrcomp ty kwConst = false)
    (hT : Avoids ty [' ', ')', '[', ']']) (hN : Avoids name [' ', ')', '[', ']'])
    (hds : IsNumeral ds) (hv1 : vals ≠ ['{']) (hv2 : vals ≠ ['}']) :
    compileLine env rec (pre ++ arrayHeader ty name ds :: ['{'] :: vals :: ['}'] :: post)
        cur pre.length (arrayHeader ty name ds)
      = (if ((split_string ',' vals).length : Int) ≠ (decimalValue ds : Int) then
            Outcome.report compilererror.notallindexesinitialized (name ++ '[' :: ds ++ [']'])
          else Outcome.ret ()).bind fun _ =>
        (arrayStorage t (decimalValue ds : Int) (split_string ',' vals)).bind fun var =>
        Outcome.ret
          (cur.pushVariable
            { type := some t, modifyable := env.defaultModifyable, name := name, var := var },
           ((pre.length + 3 : Nat) : Int)) := by
  have a1 : ' ' ∉ ty := fun h => hT _ h (by simp)
  have a2 : ')' ∉ ty := fun h => hT _ h (by simp)
  have a3 : '[' ∉ ty := fun h => hT _ h (by simp)
  have a4 : ']' ∉ ty := fun h => hT _ h (by simp)
  have b1 : ' ' ∉ name := fun h => hN _ h (by simp)
  have b2 : ')' ∉ name := fun h => hN _ h (by simp)
  have b3 : '[' ∉ name := fun h => hN _ h (by simp)
  have b4 : ']' ∉ name := fun h => hN _ h (by simp)
  have c1 : ' ' ∉ ds := hds.not_mem ' ' (by decide)
  have c2 : ')' ∉ ds := hds.not_mem ')' (by decide)
  have c4 : ']' ∉ ds := hds.not_mem ']' (by decide)
  have hlen : (arrayHeader ty name ds).length > 2 := by
    rw [arrayHeader_length]; omega
  have el : pre ++ arrayHeader ty name ds :: ['{'] :: vals :: ['}'] :: post
      = (pre ++ [arrayHeader ty name ds, ['{']]) ++ [vals] ++ ['}'] :: post := by simp
  have hA : pre.length + 1 + 1 = (pre ++ [arrayHeader ty name ds, ['{']]).length := by simp
  have hfind := FindLine_at _ [vals] post _ hA (Balanced_line vals hv1 hv2)
  rw [← el] at hfind
  have hnext : (pre ++ arrayHeader ty name ds :: ['{'] :: vals :: ['}'] :: post)[pre.length + 1]?
      = some ['{'] := by
    have := getElem?_block (pre ++ [arrayHeader ty name ds]) ['{'] (vals :: ['}'] :: post)
    simpa using this
  have hvals : (pre ++ arrayHeader ty name ds :: ['{'] :: vals :: ['}'] :: post)[pre.length + 2]?
      = some vals := by
    have := getElem?_block (pre ++ [arrayHeader ty name ds, ['{']]) vals (['}'] :: post)
    simpa using this
  have hnn : ¬ (((pre.length + 1 + 1 + [vals].length : Nat) : Int) < 0) := by omega
  have hnone : ∀ start, ¬ (Find (arrayHeader ty name ds) start ')' skip ≥ 0) := by
    intro start
    rw [Find_none _ _ (arrayHeader_no_paren ty name ds a2 b2 c2)]
    decide
  have hb0 : (((ty.length + 1 + name.length : Nat) : Int) + 1).toNat
      = ty.length + 1 + name.length + 1 := by omega
  have hcnt : ((ty.length + 1 + name.length + 1 + ds.length : Nat) : Int)
      - ((ty.length + 1 + name.length + 1 : Nat) : Int) = (ds.length : Int) := by
    push_cast; omega
  have hj : ((pre.length + 1 + 1 + [vals].length : Nat) : Int)
      = ((pre.length + 3 : Nat) : Int) := by
    simp only [List.length_singleton]
  unfold compileLine
  simp only [hlen, if_true, arrayHeader_words ty name ds a1 b1 c1, index,
    List.getElem?_cons_zero, Outcome.bind_ret, hconst, Bool.false_eq_true, if_false, hty, hnext,
    hfind, hnn, hnone]
  unfold compileArray
  simp only [arrayHeader_open ty name ds a3 b3, arrayHeader_close ty name ds a4 b4 c4, hb0, hcnt,
    arrayHeader_capacity, strtol_numeral ds hds, index, zero_add, List.getElem?_cons_succ,
    List.getElem?_cons_zero, Outcome.bind_ret, arrayHeader_name name ds b3, hvals, hj]

end

section
variable {Calc : Type}

theorem Outcome.bind_diags_nil {α β : Type} (x : Outcome α) (f : α → Outcome β)
    (hx : x.diags = []) (hf : ∀ a, (f a).diags = []) : (x.bind f).diags = [] := by
  unfold Outcome.bind
  cases x.value with
  | error e => exact hx
  | ok a => simp [hx, hf]

/-- C7: for an array declaration with the capacity `n` written in its header and an
initializer line of `m` comma-separated literals, closed by a `}` line, the loop
body reports nothing when `m = n`, and otherwise exactly one
`not-all-indexes-initialized` diagnostic, which carries the name with its brackets
as written in the header. -/
theorem array_count_mismatch_reported (env : Env Calc)
    (rec : List wstring → area Calc → Outcome (area Calc))
    (pre post : List wstring) (cur : area Calc) (ty name ds vals : wstring) (t : types)
    (hty : env.GetType ty = some t) (hconst : substrcomp ty kwConst = false)
    (hT : Avoids ty [' ', ')', '[', ']']) (hN : Avoids name [' ', ')', '[', ']'])
    (hds : IsNumeral ds) (hv1 : vals ≠ ['{']) (hv2 : vals ≠ ['}']) :
    (compileLine env rec (pre ++ arrayHeader ty name ds :: ['{'] :: vals :: ['}'] :: post)
        cur pre.length (arrayHeader ty name ds)).diags
      = if (split_string ',' vals).length = decimalValue ds then []
        else [(compilererror.notallindexesinitialized, name ++ '[' :: ds ++ [']'])] := by
  rw [compileLine_array env rec pre post cur ty name ds vals t hty hconst hT hN hds hv1 hv2]
  have hrest : ∀ u : Unit,
      ((arrayStorage t (decimalValue ds : Int) (split_string ',' vals)).bind fun var =>
        Outcome.ret
          (cur.pushVariable
            { type := some t, modifyable := env.defaultModifyable, name := name, var := var },
           ((pre.length + 3 : Nat) : Int))).diags = [] := by
    intro _
    exact Outcome.bind_diags_nil _ _ (arrayStorage_diags _ _ _) (fun _ => rfl)
  by_cases h : (split_string ',' vals).length = decimalValue ds
  · have hi : ¬ (((split_string ',' vals).length : Int) ≠ (decimalValue ds : Int)) := by
      simp [h]
    rw [if_neg hi, if_pos h, Outcome.bind_ret]
    exact hrest ()
  · have hi : ((split_string ',' vals).length : Int) ≠ (decimalValue ds : Int) := by
      intro e
      exact h (by exact_mod_cast e)
    rw [if_pos hi, if_neg h, Outcome.bind_report, hrest ()]

/-- The declaration `integer a[3]` with the initializer line `1,2`: one diagnostic,
carrying `a[3]`. -/
theorem array_count_mismatch_reported_witness :
    (compileLine demoEnv (recCompile demoEnv 1)
        ["integer a[3]".toList, ['{'], "1,2".toList, ['}']] (area.fresh none) 0
        "integer a[3]".toList).diags
      = [(compilererror.notallindexesinitialized, "a[3]".toList)] :=
  array_count_mismatch_reported demoEnv (recCompile demoEnv 1) [] [] (area.fresh none)
    "integer".toList "a".toList "3".toList "1,2".toList types.tint
    (by decide) (by decide) (by decide) (by decide) (by decide) (by decide) (by decide)

/-! ### The elements -/

theorem fillArray_map {β : Type} (conv : wstring → Outcome β) (g : wstring → β) :
    ∀ vs : List wstring, (∀ v ∈ vs, conv (trim v) = Outcome.ret (g v)) →
      fillArray conv vs.length vs = Outcome.ret (vs.map g) := by
  intro vs
  induction vs with
  | nil => intro _; rfl
  | cons v vs ih =>
    intro h
    rw [List.length_cons, fillArray, h v (by simp), Outcome.bind_ret,
      ih (fun w hw => h w (by simp [hw])), Outcome.bind_ret, List.map_cons]

theorem fillArray_zero {β : Type} (conv : wstring → Outcome β) (vs : List wstring) :
    fillArray conv 0 vs = Outcome.ret [] := by
  cases vs <;> rfl

theorem toInt32_of_range (v : Int) (h1 : -2 ^ 31 ≤ v) (h2 : v < 2 ^ 31) : toInt32 v = v := by
  unfold toInt32
  rw [Int.emod_eq_of_lt (by omega) (by omega)]
  omega

theorem IntLiteral.core_word (l : IntLiteral) (h : IsNumeral l.digits) :
    (∀ x ∈ ((if l.negative then ['-'] else []) ++ l.digits).head?, iswspace x = false)
    ∧ (∀ x ∈ ((if l.negative then ['-'] else []) ++ l.digits).getLast?, iswspace x = false) := by
  have hd : ∀ c ∈ (if l.negative then ['-'] else []) ++ l.digits, iswspace c = false := by
    intro c hc
    rw [List.mem_append] at hc
    rcases hc with h1 | h2
    · cases hn : l.negative
      · simp [hn] at h1
      · simp [hn] at h1
        subst h1
        decide
    · cases hw : iswspace c
      · rfl
      · have hdig := h.2 c h2
        have : ((((c = ' ' ∨ c = '\t') ∨ c = '\n') ∨ c = '\x0b') ∨ c = '\x0c') ∨ c = '\r' := by
          simpa [iswspace] using hw
        rcases this with ((((rfl | rfl) | rfl) | rfl) | rfl) | rfl <;>
          exact absurd hdig (by decide)
  exact ⟨head?_nows _ hd, getLast?_nows _ hd⟩

theorem IntLiteral.trim_text (l : IntLiteral) (h : IsNumeral l.digits) :
    trim l.text = (if l.negative then ['-'] else []) ++ l.digits :=
  trim_pad _ _ _ (l.core_word h).1 (l.core_word h).2

theorem IntLiteral.strtol_text (l : IntLiteral) (h : IsNumeral l.digits) :
    strtol (trim l.text) = some l.value := by
  rw [l.trim_text h]
  cases hn : l.negative
  · simpa [IntLiteral.value, hn] using strtol_numeral _ h
  · simpa [IntLiteral.value, hn] using strtol_minus _ h

theorem IntLiteral.text_alphabet (l : IntLiteral) (h : IsNumeral l.digits) :
    ∀ c ∈ l.text, c = ' ' ∨ c = '-' ∨ c.isDigit = true := by
  intro c hc
  simp only [IntLiteral.text, spaces, List.mem_append, List.mem_replicate] at hc
  rcases hc with (⟨_, rfl⟩ | h1 | h2) | ⟨_, rfl⟩
  · exact Or.inl rfl
  · cases hn : l.negative
    · simp [hn] at h1
    · simp [hn] at h1
      exact Or.inr (Or.inl h1)
  · exact Or.inr (Or.inr (h.2 c h2))
  · exact Or.inl rfl

theorem intercalate_chars (P : Char → Prop) (hsep : P ',') (ps : List wstring)
    (h : ∀ p ∈ ps, ∀ c ∈ p, P c) : ∀ c ∈ List.intercalate [','] ps, P c := by
  induction ps with
  | nil => intro c hc; simp [List.intercalate] at hc
  | cons p ps ih =>
    cases ps with
    | nil =>
      intro c hc
      have : List.intercalate [','] [p] = p := by simp [List.intercalate]
      rw [this] at hc
      exact h p (by simp) c hc
    | cons q qs =>
      intro c hc
      have : List.intercalate [','] (p :: q :: qs)
          = p ++ ',' :: List.intercalate [','] (q :: qs) := by simp [List.intercalate]
      rw [this] at hc
      simp only [List.mem_append, List.mem_cons] at hc
      rcases hc with h1 | rfl | h3
      · exact h p (by simp) c h1
      · exact hsep
      · exact ih (fun r hr => h r (by simp at hr ⊢; tauto)) c h3

theorem split_string_tokens (toks : List wstring) (hne : toks ≠ [])
    (h : ∀ tk ∈ toks, ',' ∉ tk) :
    split_string ',' (List.intercalate [','] toks) = toks := by
  obtain ⟨p, ps, e⟩ := List.exists_cons_of_ne_nil hne
  subst e
  exact split_string_intercalate ',' p ps h

/-- The value of the loop body for an array declaration whose literals all convert. -/
theorem compileLine_array_value (env : Env Calc)
    (rec : List wstring → area Calc → Outcome (area Calc))
    (pre post : List wstring) (cur : area Calc) (ty name ds : wstring) (t : types)
    (toks : List wstring) (st : storage)
    (hty : env.GetType ty = some t) (hconst : substrcomp ty kwConst = false)
    (hT : Avoids ty [' ', ')', '[', ']']) (hN : Avoids name [' ', ')', '[', ']'])
    (hds : IsNumeral ds)
    (hv1 : List.intercalate [','] toks ≠ ['{']) (hv2 : List.intercalate [','] toks ≠ ['}'])
    (hst : arrayStorage t (decimalValue ds : Int) (split_string ',' (List.intercalate [','] toks))
      = Outcome.ret st) :
    (compileLine env rec
        (pre ++ arrayHeader ty name ds :: ['{'] :: List.intercalate [','] toks :: ['}'] :: post)
        cur pre.length (arrayHeader ty name ds)).value
      = .ok ({ Parent := cur.Parent
               vars := cur.vars ++
                 [{ type := some t, modifyable := env.defaultModifyable, name := name, var := st }]
               functions := cur.functions, actions := cur.actions },
             ((pre.length + 3 : Nat) : Int)) := by
  rw [compileLine_array env rec pre post cur ty name ds _ t hty hconst hT hN hds hv1 hv2, hst]
  split
  · rw [Outcome.bind_report]
    rfl
  · rfl

theorem arrayStorage_bools (n : Nat) (toks vs : List wstring) (hn : toks.length = n)
    (hvs : toks ≠ [] → vs = toks) :
    arrayStorage types.tbool (n : Int) vs
      = Outcome.ret (storage.bools (toks.map fun tk => decide (trim tk = kwTrue))) := by
  have hnn : ¬ ((n : Int) < 0) := by omega
  unfold arrayStorage
  simp only [hnn, if_false, Int.toNat_ofNat]
  cases toks with
  | nil =>
    simp only [List.length_nil] at hn
    subst hn
    rw [fillArray_zero]
    rfl
  | cons p ps =>
    rw [hvs (by simp), ← hn, fillArray_map _ (fun tk => decide (trim tk = kwTrue)) _
      (fun _ _ => rfl)]
    rfl

theorem arrayStorage_ints (n : Nat) (lits : List IntLiteral) (vs : List wstring)
    (hn : lits.length = n) (hvs : lits ≠ [] → vs = lits.map IntLiteral.text)
    (hl : ∀ l ∈ lits, IsNumeral l.digits ∧ -2 ^ 31 ≤ l.value ∧ l.value < 2 ^ 31) :
    arrayStorage types.tint (n : Int) vs
      = Outcome.ret (storage.ints (lits.map IntLiteral.value)) := by
  have hnn : ¬ ((n : Int) < 0) := by omega
  unfold arrayStorage
  simp only [hnn, if_false, Int.toNat_ofNat]
  cases lits with
  | nil =>
    simp only [List.length_nil] at hn
    subst hn
    rw [fillArray_zero]
    rfl
  | cons p ps =>
    have hlen : ((p :: ps).map IntLiteral.text).length = n := by simpa using hn
    rw [hvs (by simp), ← hlen]
    have hg : ∀ v ∈ (p :: ps).map IntLiteral.text,
        (fun v => match strtol v with
          | some l => Outcome.ret (toInt32 l)
          | none => Outcome.fail Fault.noNumber) (trim v)
        = Outcome.ret ((fun v => match strtol (trim v) with
            | some l => toInt32 l
            | none => 0) v) := by
      intro v hv
      obtain ⟨l, hl', rfl⟩ := List.mem_map.mp hv
      simp only [l.strtol_text (hl l hl').1]
    rw [fillArray_map _ _ _ hg, Outcome.bind_ret, List.map_map]
    congr 2
    apply List.map_congr_left
    intro l hl'
    have := hl l hl'
    simp only [Function.comp, l.strtol_text this.1]
    exact toInt32_of_range _ this.2.1 this.2.2

end

section
variable {Calc : Type}

/-- C6 (amended): for an array declaration line `T name[n]` followed by a `{` line, a
line of exactly `n` comma-separated literals and a `}` line, the loop body returns
the current scope with exactly one variable appended and nothing else changed, and
the cursor on the `}` line. The variable has the name `name`, the type `T` and a
storage of the `n` literals in order: for a boolean array each element is true
exactly when its trimmed token is `true`; for an integer array whose literals lie
in the 32-bit range each element is the base-10 value of its literal. -/
theorem array_declaration_compiled (env : Env Calc)
    (rec : List wstring → area Calc → Outcome (area Calc))
    (pre post : List wstring) (cur : area Calc) (ty name ds : wstring)
    (hconst : substrcomp ty kwConst = false)
    (hT : Avoids ty [' ', ')', '[', ']']) (hN : Avoids name [' ', ')', '[', ']'])
    (hds : IsNumeral ds) :
    (∀ toks : List wstring, env.GetType ty = some types.tbool →
      toks.length = decimalValue ds → (∀ tk ∈ toks, ',' ∉ tk) →
      List.intercalate [','] toks ≠ ['{'] → List.intercalate [','] toks ≠ ['}'] →
      (compileLine env rec
          (pre ++ arrayHeader ty name ds :: ['{'] :: List.intercalate [','] toks :: ['}'] :: post)
          cur pre.length (arrayHeader ty name ds)).value
        = .ok ({ Parent := cur.Parent
                 vars := cur.vars ++
                   [{ type := some types.tbool, modifyable := env.defaultModifyable, name := name
                      var := storage.bools (toks.map fun tk => decide (trim tk = kwTrue)) }]
                 functions := cur.functions, actions := cur.actions },
               ((pre.length + 3 : Nat) : Int)))
    ∧ (∀ lits : List IntLiteral, env.GetType ty = some types.tint →
      lits.length = decimalValue ds →
      (∀ l ∈ lits, IsNumeral l.digits ∧ -2 ^ 31 ≤ l.value ∧ l.value < 2 ^ 31) →
      (compileLine env rec
          (pre ++ arrayHeader ty name ds :: ['{']
            :: List.intercalate [','] (lits.map IntLiteral.text) :: ['}'] :: post)
          cur pre.length (arrayHeader ty name ds)).value
        = .ok ({ Parent := cur.Parent
                 vars := cur.vars ++
                   [{ type := some types.tint, modifyable := env.defaultModifyable, name := name
                      var := storage.ints (lits.map IntLiteral.value) }]
                 functions := cur.functions, actions := cur.actions },
               ((pre.length + 3 : Nat) : Int))) := by
  refine ⟨?_, ?_⟩
  · intro toks hty hn hc hv1 hv2
    exact compileLine_array_value env rec pre post cur ty name ds types.tbool toks _ hty hconst
      hT hN hds hv1 hv2
      (arrayStorage_bools _ toks _ hn (fun hne => split_string_tokens toks hne hc))
  · intro lits hty hn hl
    have hchars : ∀ c ∈ List.intercalate [','] (lits.map IntLiteral.text),
        c = ' ' ∨ c = '-' ∨ c.isDigit = true ∨ c = ',' := by
      refine intercalate_chars (fun c => c = ' ' ∨ c = '-' ∨ c.isDigit = true ∨ c = ',')
        (Or.inr (Or.inr (Or.inr rfl))) _ ?_
      intro p hp c hc
      obtain ⟨l, hl', rfl⟩ := List.mem_map.mp hp
      rcases l.text_alphabet (hl l hl').1 c hc with h | h | h
      · exact Or.inl h
      · exact Or.inr (Or.inl h)
      · exact Or.inr (Or.inr (Or.inl h))
    have hv : ∀ b : Char, b ≠ ' ' → b ≠ '-' → b.isDigit = false → b ≠ ',' →
        List.intercalate [','] (lits.map IntLiteral.text) ≠ [b] := by
      intro b b1 b2 b3 b4 e
      rcases hchars b (by rw [e]; simp) with h | h | h | h
      · exact b1 h
      · exact b2 h
      · rw [b3] at h; cases h
      · exact b4 h
    have hcomma : ∀ tk ∈ lits.map IntLiteral.text, ',' ∉ tk := by
      intro tk htk hm
      obtain ⟨l, hl', rfl⟩ := List.mem_map.mp htk
      rcases l.text_alphabet (hl l hl').1 ',' hm with h | h | h
      · exact absurd h (by decide)
      · exact absurd h (by decide)
      · exact absurd h (by decide)
    exact compileLine_array_value env rec pre post cur ty name ds types.tint _ _ hty hconst
      hT hN hds (hv '{' (by decide) (by decide) (by decide) (by decide))
      (hv '}' (by decide) (by decide) (by decide) (by decide))
      (arrayStorage_ints _ lits _ hn
        (fun hne => split_string_tokens _ (by simpa using hne) hcomma) hl)

/-- The declaration `integer a[3]` with the literals `1,2,3`: one integer variable `a`
with the storage `[1, 2, 3]`, and the cursor on line 3. -/
theorem array_declaration_compiled_witness :
    (compileLine demoEnv (recCompile demoEnv 1)
        ["integer a[3]".toList, ['{'], "1,2,3".toList, ['}']] (area.fresh none) 0
        "integer a[3]".toList).value
      = .ok ({ Parent := none
               vars := [⟨some types.tint, true, "a".toList, storage.ints [1, 2, 3]⟩]
               functions := [], actions := [] }, 3) :=
  (array_declaration_compiled demoEnv (recCompile demoEnv 1) [] [] (area.fresh none)
    "integer".toList "a".toList "3".toList (by decide) (by decide) (by decide) (by decide)).2
    [⟨0, false, "1".toList, 0⟩, ⟨0, false, "2".toList, 0⟩, ⟨0, false, "3".toList, 0⟩]
    (by decide) (by decide) (by decide)

/-- C6 as stated fails for an integer literal outside the range of `int`: the array
`integer a[1]` with the literal `4294967296` gets the element `0`, not the base-10
value of the literal. -/
theorem array_literal_out_of_range :
    (compileLine demoEnv (recCompile demoEnv 1)
        ["integer a[1]".toList, ['{'], "4294967296".toList, ['}']] (area.fresh none) 0
        "integer a[1]".toList).value
      = .ok ({ Parent := none
               vars := [⟨some types.tint, true, "a".toList, storage.ints [0]⟩]
               functions := [], actions := [] }, 3)
    ∧ decimalValue "4294967296".toList = 4294967296 := by
  constructor <;> rfl

end

/-- C8 fails for `for` and `if`: where a declaration header with an unclosed block is
reported (first run: one `no-closing-brace` diagnostic carrying the header, before
the run ends on the invalid range), the unclosed block of a `for` or an `if` is not
reported at all: the run ends on the invalid range without any diagnostic. -/
theorem unclosed_for_and_if_not_reported :
    Compile demoEnv 5 ["integer f(integer a)".toList, ['{'], "a++".toList] none
      = ⟨[(compilererror.noclosingbrace, "integer f(integer a)".toList)],
          .error Fault.badIndex⟩
    ∧ Compile demoEnv 5 ["for (i = 0; i < 3; i++)".toList, ['{'], "i++".toList] none
      = ⟨[], .error Fault.badIndex⟩
    ∧ Compile demoEnv 5 ["if (a < b)".toList, ['{'], "a++".toList] none
      = ⟨[], .error Fault.badIndex⟩ := by
  refine ⟨?_, ?_, ?_⟩ <;> rfl

/-! ## The rewriting passes -/

theorem replaceGo_single (c : Char) (rep : wstring) (s : wstring) :
    replaceGo [c] rep s 0 = s.flatMap (fun x => if x = c then rep else [x]) := by
  induction s with
  | nil => rfl
  | cons x r ih =>
    by_cases h : x = c
    · subst h
      simp [replaceGo, List.isPrefixOf, ih, List.flatMap_cons]
    · have h' : ¬ c = x := fun e => h e.symm
      simp [replaceGo, List.isPrefixOf, h, h', ih, List.flatMap_cons]

theorem replaceAll_single (c : Char) (rep : wstring) (s : wstring) :
    replaceAll s [c] rep = s.flatMap (fun x => if x = c then rep else [x]) :=
  replaceGo_single c rep s

theorem replaceAll_absent (c : Char) (rep : wstring) (s : wstring) (h : c ∉ s) :
    replaceAll s [c] rep = s := by
  rw [replaceAll_single]
  induction s with
  | nil => rfl
  | cons x r ih =>
    have hx : x ≠ c := fun e => h (by simp [e])
    have hr : c ∉ r := fun e => h (by simp [e])
    simp [List.flatMap_cons, hx, ih hr]

theorem squeeze_cons (c x : Char) (s : wstring) :
    squeeze c (x :: s) = if x = c ∧ s.head? = some c then squeeze c s else x :: squeeze c s := by
  cases s with
  | nil => simp [squeeze]
  | cons y r => simp [squeeze]

theorem replaceGo_pair_hit (c : Char) (r : wstring) :
    replaceGo [c, c] [c] (c :: c :: r) 0 = c :: replaceGo [c, c] [c] r 0 := by
  simp [replaceGo, List.isPrefixOf]

theorem replaceGo_pair_miss (c x : Char) (r : wstring) (h : ¬(x = c ∧ r.head? = some c)) :
    replaceGo [c, c] [c] (x :: r) 0 = x :: replaceGo [c, c] [c] r 0 := by
  have : List.isPrefixOf [c, c] (x :: r) = false := by
    cases r with
    | nil => simp [List.isPrefixOf]
    | cons y r' =>
      simp only [List.head?_cons, Option.some.injEq] at h
      simp only [List.isPrefixOf, Bool.and_true, Bool.and_eq_false_imp, beq_iff_eq,
        beq_eq_false_iff_ne, ne_eq]
      intro e
      exact fun e' => h ⟨e.symm, e'.symm⟩
  simp [replaceGo, this]

theorem pair_cases (c : Char) (s : wstring) :
    s = [] ∨ (∃ r, s = c :: c :: r) ∨ ∃ x r, s = x :: r ∧ ¬(x = c ∧ r.head? = some c) := by
  cases s with
  | nil => exact Or.inl rfl
  | cons x r =>
    by_cases h : x = c ∧ r.head? = some c
    · obtain ⟨rfl, h2⟩ := h
      cases r with
      | nil => simp at h2
      | cons y r' =>
        simp only [List.head?_cons, Option.some.injEq] at h2
        subst h2
        exact Or.inr (Or.inl ⟨r', rfl⟩)
    · exact Or.inr (Or.inr ⟨x, r, rfl, h⟩)

theorem replaceGo_pair_head (c : Char) (s : wstring) :
    (replaceGo [c, c] [c] s 0).head? = s.head? := by
  rcases pair_cases c s with rfl | ⟨r, rfl⟩ | ⟨x, r, rfl, h⟩
  · rfl
  · rw [replaceGo_pair_hit]; rfl
  · rw [replaceGo_pair_miss c x r h]; rfl

theorem squeeze_replaceGo_pair (c : Char) :
    ∀ (n : Nat) (s : wstring), s.length ≤ n →
      squeeze c (replaceGo [c, c] [c] s 0) = squeeze c s := by
  intro n
  induction n with
  | zero =>
    intro s hs
    have : s = [] := List.length_eq_zero.mp (by omega)
    subst this
    rfl
  | succ n ih =>
    intro s hs
    rcases pair_cases c s with rfl | ⟨r, rfl⟩ | ⟨x, r, rfl, h⟩
    · rfl
    · have hr : r.length ≤ n := by simp at hs; omega
      rw [replaceGo_pair_hit, squeeze_cons, replaceGo_pair_head, ih r hr, squeeze_cons c c (c :: r),
        squeeze_cons c c r]
      simp
    · have hr : r.length ≤ n := by simp at hs; omega
      rw [replaceGo_pair_miss c x r h, squeeze_cons, replaceGo_pair_head, ih r hr, squeeze_cons]

theorem replaceGo_pair_length (c : Char) :
    ∀ (n : Nat) (s : wstring), s.length ≤ n →
      (replaceGo [c, c] [c] s 0).length ≤ s.length := by
  intro n
  induction n with
  | zero =>
    intro s hs
    have : s = [] := List.length_eq_zero.mp (by omega)
    subst this
    simp [replaceGo]
  | succ n ih =>
    intro s hs
    rcases pair_cases c s with rfl | ⟨r, rfl⟩ | ⟨x, r, rfl, h⟩
    · simp [replaceGo]
    · have hr : r.length ≤ n := by simp at hs; omega
      rw [replaceGo_pair_hit]
      have := ih r hr
      simp only [List.length_cons]
      omega
    · have hr : r.length ≤ n := by simp at hs; omega
      rw [replaceGo_pair_miss c x r h]
      have := ih r hr
      simp only [List.length_cons]
      omega

theorem findSubIdx_pair_cons (c x : Char) (r : wstring) :
    (findSubIdx [c, c] (x :: r)).isSome
      = (decide (x = c ∧ r.head? = some c) || (findSubIdx [c, c] r).isSome) := by
  by_cases h : x = c ∧ r.head? = some c
  · obtain ⟨rfl, h2⟩ := h
    cases r with
    | nil => simp at h2
    | cons y r' =>
      simp only [List.head?_cons, Option.some.injEq] at h2
      subst h2
      simp [findSubIdx, List.isPrefixOf]
  · have : List.isPrefixOf [c, c] (x :: r) = false := by
      cases r with
      | nil => simp [List.isPrefixOf]
      | cons y r' =>
        simp only [List.head?_cons, Option.some.injEq] at h
        simp only [List.isPrefixOf, Bool.and_true, Bool.and_eq_false_imp, beq_iff_eq,
          beq_eq_false_iff_ne, ne_eq]
        intro e
        exact fun e' => h ⟨e.symm, e'.symm⟩
    simp [findSubIdx, this, h]

theorem replaceGo_pair_shorter (c : Char) :
    ∀ (n : Nat) (s : wstring), s.length ≤ n → (findSubIdx [c, c] s).isSome = true →
      (replaceGo [c, c] [c] s 0).length < s.length := by
  intro n
  induction n with
  | zero =>
    intro s hs h
    have : s = [] := List.length_eq_zero.mp (by omega)
    subst this
    simp [findSubIdx] at h
  | succ n ih =>
    intro s hs h
    rcases pair_cases c s with rfl | ⟨r, rfl⟩ | ⟨x, r, rfl, hx⟩
    · simp [findSubIdx] at h
    · rw [replaceGo_pair_hit]
      have := replaceGo_pair_length c r.length r (le_refl _)
      simp only [List.length_cons]
      omega
    · have hr : r.length ≤ n := by simp at hs; omega
      rw [findSubIdx_pair_cons] at h
      simp only [hx, decide_False, Bool.false_or] at h
      rw [replaceGo_pair_miss c x r hx]
      have := ih r hr h
      simp only [List.length_cons]
      omega

theorem squeeze_of_no_pair (c : Char) (s : wstring) (h : (findSubIdx [c, c] s).isSome = false) :
    squeeze c s = s := by
  induction s with
  | nil => rfl
  | cons x r ih =>
    rw [findSubIdx_pair_cons] at h
    simp only [Bool.or_eq_false_iff, decide_eq_false_iff_not] at h
    rw [squeeze_cons, if_neg h.1, ih h.2]

theorem collapseLoop_eq_squeeze (c : Char) :
    ∀ (fuel : Nat) (s : wstring), s.length ≤ fuel →
      collapseLoop [c, c] [c] fuel s = squeeze c s := by
  intro fuel
  induction fuel with
  | zero =>
    intro s hs
    have : s = [] := List.length_eq_zero.mp (by omega)
    subst this
    rfl
  | succ fuel ih =>
    intro s hs
    rw [collapseLoop]
    split
    · rename_i h
      have hlt := replaceGo_pair_shorter c s.length s (le_refl _) h
      rw [replaceAll, ih _ (by omega), squeeze_replaceGo_pair c s.length s (le_refl _)]
    · rename_i h
      rw [squeeze_of_no_pair c s (by simpa using h)]

/-! ## Case folding -/

theorem toLower_cases (c : Char) :
    c.toLower = c ∨ (97 ≤ c.toLower.toNat ∧ c.toLower.toNat ≤ 122) := by
  unfold Char.toLower
  simp only
  split
  · rename_i h
    right
    obtain ⟨n, hn⟩ : ∃ n, c.toNat = n := ⟨_, rfl⟩
    rw [hn] at h ⊢
    obtain ⟨h1, h2⟩ := h
    interval_cases n <;> decide
  · left; rfl

theorem toLower_fix_of_not_upper (x : Char) (hx : ¬ (x.toNat ≥ 65 ∧ x.toNat ≤ 90)) :
    x.toLower = x := by
  unfold Char.toLower
  simp only [hx, if_false]

theorem toLower_idem (c : Char) : c.toLower.toLower = c.toLower := by
  rcases toLower_cases c with h | ⟨h1, h2⟩
  · rw [h, h]
  · exact toLower_fix_of_not_upper _ (by omega)

theorem toLower_eq_of_not_letter (c x : Char) (hx : ¬ (97 ≤ x.toNat ∧ x.toNat ≤ 122))
    (h : c.toLower = x) : c = x := by
  rcases toLower_cases c with h' | h'
  · rw [← h', h]
  · rw [h] at h'
    exact absurd h' hx

theorem okChar_toLower (c : Char) (h1 : c ≠ '\n') (h2 : c ≠ '\r') (h3 : c ≠ '\t') :
    okChar c.toLower :=
  ⟨fun e => h1 (toLower_eq_of_not_letter c _ (by decide) e),
   fun e => h2 (toLower_eq_of_not_letter c _ (by decide) e),
   fun e => h3 (toLower_eq_of_not_letter c _ (by decide) e), toLower_idem c⟩

theorem isBrace_of_toLower (c : Char) (h : isBrace c.toLower) : isBrace c := by
  rcases h with h | h
  · exact Or.inl (toLower_eq_of_not_letter c _ (by decide) h)
  · exact Or.inr (toLower_eq_of_not_letter c _ (by decide) h)

/-! ## Neighbours -/

section Neighbours

variable {R : Char → Char → Prop}

theorem squeeze_chain (c : Char) (s : wstring) :
    ∀ a, List.Chain R a s → List.Chain R a (squeeze c s) := by
  induction s with
  | nil => intro a h; exact h
  | cons x r ih =>
    intro a h
    rw [List.chain_cons] at h
    rw [squeeze_cons]
    split
    · rename_i hx
      cases r with
      | nil => simp at hx
      | cons y r' =>
        simp only [List.head?_cons, Option.some.injEq] at hx
        apply ih
        have h2 := h.2
        rw [List.chain_cons] at h2
        have h1 := h.1
        rw [hx.1, ← hx.2] at h1
        exact List.Chain.cons h1 h2.2
    · exact List.Chain.cons h.1 (ih x h.2)

theorem squeeze_chain' (c : Char) (s : wstring) (h : List.Chain' R s) :
    List.Chain' R (squeeze c s) := by
  cases s with
  | nil => exact h
  | cons x r =>
    rw [squeeze_cons]
    split
    · rename_i hx
      cases r with
      | nil => simp at hx
      | cons y r' =>
        have : List.Chain R x (squeeze c (y :: r')) := squeeze_chain c _ x h
        exact List.Chain'.tail (l := x :: squeeze c (y :: r')) this
    · exact squeeze_chain c r x h

theorem squeeze_head (c : Char) (s : wstring) : (squeeze c s).head? = s.head? := by
  induction s with
  | nil => rfl
  | cons x r ih =>
    rw [squeeze_cons]
    split
    · rename_i hx
      rw [ih, hx.2, hx.1]
      rfl
    · rfl

theorem squeeze_no_pair (c : Char) (s : wstring) :
    List.Chain' (fun a b => ¬(a = c ∧ b = c)) (squeeze c s) := by
  induction s with
  | nil => exact List.chain'_nil
  | cons x r ih =>
    rw [squeeze_cons]
    split
    · exact ih
    · rename_i hx
      apply List.Chain'.cons' ih
      intro y hy
      rw [squeeze_head] at hy
      intro hxy
      exact hx ⟨hxy.1, by rw [hxy.2] at hy; exact hy⟩

theorem mem_squeeze (c x : Char) (s : wstring) (h : x ∈ squeeze c s) : x ∈ s := by
  induction s with
  | nil => exact h
  | cons y r ih =>
    rw [squeeze_cons] at h
    split at h
    · exact List.mem_cons_of_mem _ (ih h)
    · rcases List.mem_cons.mp h with rfl | h'
      · exact List.mem_cons_self _ _
      · exact List.mem_cons_of_mem _ (ih h')

theorem squeeze_append_end (c z : Char) (hz : z ≠ c) (s : wstring) :
    squeeze c (s ++ [z]) = squeeze c s ++ [z] := by
  induction s with
  | nil => rfl
  | cons x r ih =>
    rw [List.cons_append, squeeze_cons, squeeze_cons, ih]
    have : (r ++ [z]).head? = some c ↔ r.head? = some c := by
      cases r with
      | nil => simp [hz]
      | cons y r' => simp
    by_cases hx : x = c ∧ r.head? = some c
    · rw [if_pos hx, if_pos ⟨hx.1, this.mpr hx.2⟩]
    · rw [if_neg hx, if_neg (fun h => hx ⟨h.1, this.mp h.2⟩)]
      rfl

theorem squeeze_framed (c : Char) (hc : c ≠ 'a') (s : wstring) :
    squeeze c ('a' :: s ++ ['a']) = 'a' :: squeeze c s ++ ['a'] := by
  have h1 : ¬ ('a' = c ∧ (s ++ ['a']).head? = some c) := fun h => hc h.1.symm
  rw [List.cons_append, squeeze_cons, if_neg h1, squeeze_append_end c 'a' (fun e => hc e.symm)]
  rfl

theorem chain'_and {S : Char → Char → Prop} (l : wstring) (h1 : List.Chain' R l)
    (h2 : List.Chain' S l) : List.Chain' (fun a b => R a b ∧ S a b) l := by
  induction l with
  | nil => exact List.chain'_nil
  | cons x r ih =>
    rw [List.chain'_cons'] at h1 h2 ⊢
    exact ⟨fun y hy => ⟨h1.1 y hy, h2.1 y hy⟩, ih h1.2 h2.2⟩

end Neighbours

/-! ## The rewritten text is normalized -/

theorem braceText_chain (d : wstring) :
    ∀ p, ¬ isBrace p → List.Chain' braceOk (p :: d.flatMap braceText ++ ['a']) := by
  induction d with
  | nil =>
    intro p hp
    show List.Chain' braceOk [p, 'a']
    rw [List.chain'_cons]
    exact ⟨⟨fun h => absurd h (by decide), fun h => absurd h hp⟩, List.chain'_singleton _⟩
  | cons x r ih =>
    intro p hp
    rw [List.flatMap_cons]
    by_cases h1 : x = '}'
    · subst h1
      have e : braceText '}' = [';', '}', ';'] := by decide
      rw [e]
      simp only [List.cons_append, List.nil_append, List.chain'_cons]
      refine ⟨⟨fun h => absurd h (by decide), fun h => absurd h hp⟩,
        ⟨fun _ => rfl, fun h => absurd h (by decide)⟩,
        ⟨fun h => absurd h (by decide), fun _ => rfl⟩, ?_⟩
      have := ih ';' (by decide)
      simpa using this
    · by_cases h2 : x = '{'
      · subst h2
        have e : braceText '{' = [';', '{', ';'] := by decide
        rw [e]
        simp only [List.cons_append, List.nil_append, List.chain'_cons]
        refine ⟨⟨fun h => absurd h (by decide), fun h => absurd h hp⟩,
          ⟨fun _ => rfl, fun h => absurd h (by decide)⟩,
          ⟨fun h => absurd h (by decide), fun _ => rfl⟩, ?_⟩
        have := ih ';' (by decide)
        simpa using this
      · have hx : ¬ isBrace x := fun h => h.elim h2 h1
        have e : braceText x = [x] := by simp [braceText, h1, h2]
        rw [e]
        simp only [List.cons_append, List.nil_append, List.chain'_cons]
        refine ⟨⟨fun h => absurd h hx, fun h => absurd h hp⟩, ?_⟩
        have := ih x hx
        simpa using this

theorem mem_braceText (c x : Char) (h : c ∈ braceText x) : c = ';' ∨ isBrace c ∨ c = x := by
  unfold braceText at h
  split at h
  · simp at h
    rcases h with h | h | h
    · exact Or.inl h
    · exact Or.inr (Or.inl (Or.inr h))
    · exact Or.inl h
  · split at h
    · simp at h
      rcases h with h | h | h
      · exact Or.inl h
      · exact Or.inr (Or.inl (Or.inl h))
      · exact Or.inl h
    · simp at h
      exact Or.inr (Or.inr h)

theorem replaceAll_braces (y : wstring) :
    replaceAll (replaceAll y ['}'] [';', '}', ';']) ['{'] [';', '{', ';']
      = y.flatMap braceText := by
  rw [replaceAll_single, replaceAll_single, List.flatMap_assoc]
  congr 1
  funext x
  by_cases h1 : x = '}'
  · subst h1; decide
  · by_cases h2 : x = '{'
    · subst h2; decide
    · simp [braceText, h1, h2]

theorem mem_flattenText (c : Char) (x : wstring) (h : c ∈ flattenText x) :
    c ≠ '\n' ∧ c ≠ '\r' ∧ c ≠ '\t' := by
  unfold flattenText at h
  rw [replaceAll_single, replaceAll_single, replaceAll_single] at h
  simp only [List.mem_flatMap] at h
  obtain ⟨a, ⟨b, ⟨e, _, hb⟩, ha⟩, hc⟩ := h
  by_cases h1 : e = '\n'
  · simp [h1] at hb
  · simp only [h1, if_false, List.mem_singleton] at hb
    subst hb
    by_cases h2 : b = '\r'
    · simp [h2] at ha
    · simp only [h2, if_false, List.mem_singleton] at ha
      subst ha
      by_cases h3 : a = '\t'
      · simp only [h3, if_true, List.mem_singleton] at hc
        subst hc
        decide
      · simp only [h3, if_false, List.mem_singleton] at hc
        subst hc
        exact ⟨h1, h2, h3⟩

theorem normalizeText_eq (x : wstring) :
    normalizeText x
      = squeeze ' ' (squeeze ';' (makelowercase ((flattenText x).flatMap braceText))) := by
  unfold normalizeText
  simp only
  rw [collapseLoop_eq_squeeze _ _ _ (le_refl _), collapseLoop_eq_squeeze _ _ _ (le_refl _),
    replaceAll_braces]
  rfl

theorem normalizeText_normalized (x : wstring) : Normalized (normalizeText x) := by
  rw [normalizeText_eq]
  constructor
  · intro c hc
    have h1 := mem_squeeze _ _ _ (mem_squeeze _ _ _ hc)
    simp only [makelowercase, List.mem_map, List.mem_flatMap] at h1
    obtain ⟨b, ⟨a, ha, hb⟩, rfl⟩ := h1
    have hfl := mem_flattenText a x ha
    rcases mem_braceText b a hb with h | h | h
    · subst h; exact okChar_toLower _ (by decide) (by decide) (by decide)
    · rcases h with h | h <;> subst h <;>
        exact okChar_toLower _ (by decide) (by decide) (by decide)
    · subst h; exact okChar_toLower _ hfl.1 hfl.2.1 hfl.2.2
  · -- the braces
    have hb0 : List.Chain' braceOk ('a' :: (flattenText x).flatMap braceText ++ ['a']) :=
      braceText_chain _ 'a' (by decide)
    have hb1 : List.Chain' braceOk
        ('a' :: makelowercase ((flattenText x).flatMap braceText) ++ ['a']) := by
      have e : 'a' :: makelowercase ((flattenText x).flatMap braceText) ++ ['a']
          = List.map Char.toLower ('a' :: (flattenText x).flatMap braceText ++ ['a']) := by
        simp [makelowercase]
      rw [e]
      apply List.chain'_map_of_chain' Char.toLower _ hb0
      intro a b hab
      exact ⟨fun h => by rw [hab.1 (isBrace_of_toLower b h)]; decide,
        fun h => by rw [hab.2 (isBrace_of_toLower a h)]; decide⟩
    have hb2 : List.Chain' braceOk
        ('a' :: squeeze ' ' (squeeze ';' (makelowercase ((flattenText x).flatMap braceText)))
          ++ ['a']) := by
      rw [← squeeze_framed ' ' (by decide), ← squeeze_framed ';' (by decide)]
      exact squeeze_chain' _ _ (squeeze_chain' _ _ hb1)
    have hs : List.Chain' (fun a b => ¬(a = ';' ∧ b = ';'))
        ('a' :: squeeze ' ' (squeeze ';' (makelowercase ((flattenText x).flatMap braceText)))
          ++ ['a']) := by
      rw [← squeeze_framed ' ' (by decide), ← squeeze_framed ';' (by decide)]
      exact squeeze_chain' _ _ (squeeze_no_pair _ _)
    have hp : List.Chain' (fun a b => ¬(a = ' ' ∧ b = ' '))
        ('a' :: squeeze ' ' (squeeze ';' (makelowercase ((flattenText x).flatMap braceText)))
          ++ ['a']) := by
      rw [← squeeze_framed ' ' (by decide)]
      exact squeeze_no_pair _ _
    refine (chain'_and _ hb2 (chain'_and _ hs hp)).imp ?_
    intro a b h
    exact ⟨h.1.1, h.1.2, h.2.1, h.2.2⟩

/-! ## The pieces of a split -/

section PiecesOfSplit

variable (c : Char) (pair : Char × Char)

theorem scanDepth_append (a b : wstring) :
    ∀ d, scanDepth pair d (a ++ b) = scanDepth pair (scanDepth pair d a) b := by
  induction a with
  | nil => intro d; rfl
  | cons x r ih => intro d; exact ih _

theorem topFree_append (a b : wstring) :
    ∀ d, topFree c pair d (a ++ b) ↔ topFree c pair d a ∧ topFree c pair (scanDepth pair d a) b := by
  induction a with
  | nil => intro d; simp [topFree, scanDepth]
  | cons x r ih =>
    intro d
    have := ih (skipDepth pair d x)
    show (¬(d = 0 ∧ x = c) ∧ topFree c pair (skipDepth pair d x) (r ++ b)) ↔
      (¬(d = 0 ∧ x = c) ∧ topFree c pair (skipDepth pair d x) r)
        ∧ topFree c pair (scanDepth pair (skipDepth pair d x) r) b
    rw [this, and_assoc]

theorem intercalate_consHead (p : wstring) (l : List wstring) (h : l ≠ []) :
    List.intercalate [c] (consHead p l) = p ++ List.intercalate [c] l := by
  cases l with
  | nil => exact absurd rfl h
  | cons q qs =>
    cases qs with
    | nil => simp [consHead, List.intercalate]
    | cons q' qs' => simp [consHead, List.intercalate]

theorem intercalate_cons_cons (p q : wstring) (r : List wstring) :
    List.intercalate [c] (p :: q :: r) = p ++ c :: List.intercalate [c] (q :: r) := by
  simp [List.intercalate]

theorem intercalate_singleton (p : wstring) : List.intercalate [c] [p] = p := by
  simp [List.intercalate]

theorem split_string_skip_cons_eq (d : Nat) (x : Char) (r : wstring) (h : ¬(d = 0 ∧ x = c)) :
    split_string_skip c pair d (x :: r)
      = consHead [x] (split_string_skip c pair (skipDepth pair d x) r) := by
  rw [split_string_skip, if_neg h]
  cases h' : split_string_skip c pair (skipDepth pair d x) r with
  | nil => rfl
  | cons p ps => rfl

theorem join_split (s : wstring) :
    ∀ d, List.intercalate [c] (split_string_skip c pair d s) = s := by
  induction s with
  | nil => intro d; simp [split_string_skip, List.intercalate]
  | cons x r ih =>
    intro d
    by_cases h : d = 0 ∧ x = c
    · rw [split_string_skip, if_pos h]
      obtain ⟨q, qs, e⟩ := List.exists_cons_of_ne_nil (split_string_skip_ne_nil c pair r 0)
      have := ih 0
      rw [e] at this ⊢
      rw [intercalate_cons_cons, this, h.2]
      rfl
    · rw [split_string_skip_cons_eq c pair d x r h,
        intercalate_consHead c _ _ (split_string_skip_ne_nil c pair r _), ih]
      rfl

theorem Pieces_consHead (x : Char) (d : Nat) (h : ¬(d = 0 ∧ x = c)) (l : List wstring)
    (hl : Pieces c pair (skipDepth pair d x) l) : Pieces c pair d (consHead [x] l) := by
  cases l with
  | nil => exact absurd hl (by simp [Pieces])
  | cons q qs =>
    cases qs with
    | nil =>
      simp only [consHead, Pieces, List.singleton_append, topFree] at hl ⊢
      exact ⟨h, hl⟩
    | cons q' qs' =>
      simp only [consHead, Pieces, List.singleton_append, topFree, scanDepth] at hl ⊢
      exact ⟨⟨h, hl.1⟩, hl.2.1, hl.2.2⟩

theorem Pieces_split (s : wstring) : ∀ d, Pieces c pair d (split_string_skip c pair d s) := by
  induction s with
  | nil => intro d; simp [split_string_skip, Pieces, topFree]
  | cons x r ih =>
    intro d
    by_cases h : d = 0 ∧ x = c
    · rw [split_string_skip, if_pos h]
      obtain ⟨q, qs, e⟩ := List.exists_cons_of_ne_nil (split_string_skip_ne_nil c pair r 0)
      have := ih 0
      rw [e] at this ⊢
      simp only [Pieces, topFree, scanDepth, true_and]
      exact ⟨h.1, this⟩
    · rw [split_string_skip_cons_eq c pair d x r h]
      exact Pieces_consHead c pair x d h _ (ih _)

theorem split_topFree (p rest : wstring) :
    ∀ d, topFree c pair d p →
      split_string_skip c pair d (p ++ rest)
        = consHead p (split_string_skip c pair (scanDepth pair d p) rest) := by
  induction p with
  | nil =>
    intro d _
    obtain ⟨q, qs, e⟩ := List.exists_cons_of_ne_nil (split_string_skip_ne_nil c pair rest d)
    simp [scanDepth, e, consHead]
  | cons x r ih =>
    intro d h
    simp only [topFree] at h
    rw [List.cons_append, split_string_skip_cons_eq c pair d x _ h.1, ih _ h.2]
    obtain ⟨q, qs, e⟩ := List.exists_cons_of_ne_nil
      (split_string_skip_ne_nil c pair rest (scanDepth pair (skipDepth pair d x) r))
    simp [scanDepth, e, consHead]

theorem split_join (P : List wstring) :
    ∀ d, Pieces c pair d P → split_string_skip c pair d (List.intercalate [c] P) = P := by
  induction P with
  | nil => intro d h; exact absurd h (by simp [Pieces])
  | cons p qs ih =>
    intro d h
    cases qs with
    | nil =>
      simp only [Pieces] at h
      have := split_topFree c pair p [] d h
      rw [List.append_nil] at this
      rw [intercalate_singleton, this]
      simp [split_string_skip, consHead]
    | cons q r =>
      simp only [Pieces] at h
      rw [intercalate_cons_cons, split_topFree c pair p _ d h.1, h.2.1, split_string_skip]
      simp only [true_and, if_true]
      rw [ih 0 h.2.2]
      simp [consHead]

end PiecesOfSplit

/-! ## Trimming a piece -/

theorem trim_decompose (p : wstring) :
    ∃ ws1 ws2 : wstring, (∀ x ∈ ws1, iswspace x = true) ∧ (∀ x ∈ ws2, iswspace x = true)
      ∧ p = ws1 ++ trim p ++ ws2 := by
  refine ⟨p.takeWhile iswspace, ((p.dropWhile iswspace).reverse.takeWhile iswspace).reverse,
    ?_, ?_, ?_⟩
  · intro x hx
    exact List.mem_takeWhile_imp hx
  · intro x hx
    rw [List.mem_reverse] at hx
    exact List.mem_takeWhile_imp hx
  · have h1 : p = p.takeWhile iswspace ++ p.dropWhile iswspace :=
      (List.takeWhile_append_dropWhile _ _).symm
    have h2 : (p.dropWhile iswspace).reverse
        = (p.dropWhile iswspace).reverse.takeWhile iswspace
          ++ (p.dropWhile iswspace).reverse.dropWhile iswspace :=
      (List.takeWhile_append_dropWhile _ _).symm
    have h3 : p.dropWhile iswspace
        = ((p.dropWhile iswspace).reverse.dropWhile iswspace).reverse
          ++ ((p.dropWhile iswspace).reverse.takeWhile iswspace).reverse := by
      rw [← List.reverse_append, ← h2, List.reverse_reverse]
    rw [List.append_assoc, trim, ← h3, ← h1]

theorem dropWhile_head_not (P : Char → Bool) (l : wstring) :
    ∀ x ∈ (l.dropWhile P).head?, P x = false := by
  induction l with
  | nil => intro x hx; simp at hx
  | cons y r ih =>
    intro x hx
    rw [List.dropWhile_cons] at hx
    split at hx
    · exact ih x hx
    · rename_i h
      simp only [List.head?_cons, Option.mem_def, Option.some.injEq] at hx
      subst hx
      simpa using h

theorem trim_last (p : wstring) : ∀ x ∈ (trim p).getLast?, iswspace x = false := by
  intro x hx
  rw [trim, List.getLast?_reverse] at hx
  exact dropWhile_head_not _ _ x hx

theorem trim_first (p : wstring) : ∀ x ∈ (trim p).head?, iswspace x = false := by
  intro x hx
  obtain ⟨ws1, ws2, _, _, e⟩ := trim_decompose p
  have hq : p.dropWhile iswspace
      = trim p ++ ((p.dropWhile iswspace).reverse.takeWhile iswspace).reverse := by
    have h2 : (p.dropWhile iswspace).reverse
        = (p.dropWhile iswspace).reverse.takeWhile iswspace
          ++ (p.dropWhile iswspace).reverse.dropWhile iswspace :=
      (List.takeWhile_append_dropWhile _ _).symm
    rw [trim, ← List.reverse_append, ← h2, List.reverse_reverse]
  have hne : trim p ≠ [] := by
    intro e'
    rw [e'] at hx
    simp at hx
  obtain ⟨y, ys, hy⟩ := List.exists_cons_of_ne_nil hne
  rw [hy] at hx hq
  simp only [List.head?_cons, Option.mem_def, Option.some.injEq] at hx
  subst hx
  exact dropWhile_head_not iswspace p y (by rw [hq]; rfl)

theorem trim_trim (p : wstring) : trim (trim p) = trim p :=
  trim_word _ (trim_first p) (trim_last p)

theorem skipDepth_wspace (d : Nat) (x : Char) (h : iswspace x = true) :
    skipDepth skip d x = d := by
  have h1 : x ≠ '(' := fun e => by rw [e] at h; exact absurd h (by decide)
  have h2 : x ≠ ')' := fun e => by rw [e] at h; exact absurd h (by decide)
  simp [skipDepth, skip, h1, h2]

theorem scanDepth_wspace (ws : wstring) (h : ∀ x ∈ ws, iswspace x = true) :
    ∀ d, scanDepth skip d ws = d := by
  induction ws with
  | nil => intro d; rfl
  | cons x r ih =>
    intro d
    rw [scanDepth, skipDepth_wspace d x (h x (by simp))]
    exact ih (fun y hy => h y (by simp [hy])) d

theorem topFree_wspace (ws : wstring) (h : ∀ x ∈ ws, iswspace x = true) :
    ∀ d, topFree ';' skip d ws := by
  induction ws with
  | nil => intro d; trivial
  | cons x r ih =>
    intro d
    have hx : x ≠ ';' := fun e => by
      have := h x (by simp)
      rw [e] at this
      exact absurd this (by decide)
    exact ⟨fun h' => hx h'.2, ih (fun y hy => h y (by simp [hy])) _⟩

theorem scanDepth_trim (p : wstring) (d : Nat) :
    scanDepth skip d (trim p) = scanDepth skip d p := by
  obtain ⟨ws1, ws2, h1, h2, e⟩ := trim_decompose p
  conv_rhs => rw [e]
  rw [scanDepth_append, scanDepth_append, scanDepth_wspace ws1 h1, scanDepth_wspace ws2 h2]

theorem topFree_trim (p : wstring) (d : Nat) (h : topFree ';' skip d p) :
    topFree ';' skip d (trim p) := by
  obtain ⟨ws1, ws2, h1, h2, e⟩ := trim_decompose p
  rw [e, topFree_append, topFree_append, scanDepth_wspace ws1 h1] at h
  exact h.1.2

theorem Pieces_trim (P : List wstring) :
    ∀ d, Pieces ';' skip d P → Pieces ';' skip d (P.map trim) := by
  induction P with
  | nil => intro d h; exact h
  | cons p qs ih =>
    intro d h
    cases qs with
    | nil => exact topFree_trim p d h
    | cons q r =>
      simp only [Pieces] at h
      simp only [List.map_cons, Pieces]
      refine ⟨topFree_trim p d h.1, by rw [scanDepth_trim]; exact h.2.1, ?_⟩
      have := ih 0 h.2.2
      simpa using this

theorem splitLines_join (P : List wstring) (h : Pieces ';' skip 0 P) :
    splitLines (List.intercalate [';'] (P.map trim)) = P.map trim := by
  rw [splitLines, split_join ';' skip _ 0 (Pieces_trim P 0 h), List.map_map]
  apply List.map_congr_left
  intro p _
  exact trim_trim p

/-! ## Rewriting a normalized text -/

theorem braceText_plain (x : Char) (h : ¬ isBrace x) : braceText x = [x] := by
  have h1 : x ≠ '}' := fun e => h (Or.inr e)
  have h2 : x ≠ '{' := fun e => h (Or.inl e)
  simp [braceText, h1, h2]

theorem braceText_brace (x : Char) (h : isBrace x) : braceText x = [';', x, ';'] := by
  rcases h with rfl | rfl <;> decide

theorem squeeze_braceText (t : wstring) :
    ∀ prev, List.Chain' okPair (prev :: t ++ ['a']) →
      squeeze ';' (prev :: t.flatMap braceText) = prev :: t := by
  induction t with
  | nil => intro prev _; rfl
  | cons x r ih =>
    intro prev h
    rw [List.cons_append, List.cons_append, List.chain'_cons] at h
    obtain ⟨hpx, hrest⟩ := h
    have hrest' : List.Chain' okPair (x :: r ++ ['a']) := hrest
    have ihx := ih x hrest'
    by_cases hb : isBrace x
    · have hp : prev = ';' := hpx.1 hb
      have hx : x ≠ ';' := fun e => by rw [e] at hb; exact absurd hb (by decide)
      -- the brace is followed by a separator
      cases r with
      | nil =>
        rw [List.nil_append, List.chain'_cons] at hrest
        exact absurd (hrest.1.2.1 hb) (by decide)
      | cons y r' =>
        rw [List.cons_append, List.chain'_cons] at hrest
        have hy : y = ';' := hrest.1.2.1 hb
        subst hy
        subst hp
        have hsemi : braceText ';' = [';'] := by decide
        have e1 : (x :: ';' :: r').flatMap braceText
            = ';' :: x :: ';' :: (';' :: r').flatMap braceText := by
          rw [List.flatMap_cons, braceText_brace x hb]
          rfl
        have e2 : (';' :: r').flatMap braceText = ';' :: r'.flatMap braceText := by
          rw [List.flatMap_cons, hsemi]
          rfl
        rw [squeeze_cons, if_neg (fun h => hx h.1)] at ihx
        have ihr : squeeze ';' ((';' :: r').flatMap braceText) = ';' :: r' :=
          List.cons_injective ihx
        rw [e1, squeeze_cons, if_pos ⟨rfl, rfl⟩, squeeze_cons, if_neg (fun h => by
          simp only [List.head?_cons, Option.some.injEq] at h
          exact hx h.2), squeeze_cons, if_neg (fun h => hx h.1), squeeze_cons,
          if_pos ⟨rfl, by rw [e2]; rfl⟩, ihr]
    · have e1 : (x :: r).flatMap braceText = x :: r.flatMap braceText := by
        rw [List.flatMap_cons, braceText_plain x hb]
        rfl
      rw [e1, squeeze_cons, if_neg (fun h => hpx.2.2.1 ⟨h.1, by
        simp only [List.head?_cons, Option.some.injEq] at h
        exact h.2⟩), ihx]

theorem squeeze_flatMap_braceText (t : wstring) (h : List.Chain' okPair ('a' :: t ++ ['a'])) :
    squeeze ';' (t.flatMap braceText) = t := by
  have := squeeze_braceText t 'a' h
  rw [squeeze_cons, if_neg (fun h => absurd h.1 (by decide))] at this
  exact List.cons_injective this

theorem chain_no_pair_iff (c : Char) (s : wstring) :
    (findSubIdx [c, c] s).isSome = false ↔ List.Chain' (fun a b => ¬(a = c ∧ b = c)) s := by
  induction s with
  | nil => simp [findSubIdx]
  | cons x r ih =>
    rw [findSubIdx_pair_cons, List.chain'_cons', Bool.or_eq_false_iff, ih,
      decide_eq_false_iff_not]
    constructor
    · rintro ⟨h1, h2⟩
      exact ⟨fun y hy hxy => h1 ⟨hxy.1, by rw [← hxy.2]; exact hy⟩, h2⟩
    · rintro ⟨h1, h2⟩
      exact ⟨fun h => h1 c h.2 ⟨h.1, rfl⟩, h2⟩

theorem squeeze_of_chain (c : Char) (s : wstring)
    (h : List.Chain' (fun a b => ¬(a = c ∧ b = c)) s) : squeeze c s = s :=
  squeeze_of_no_pair c s ((chain_no_pair_iff c s).mpr h)

theorem makelowercase_fixed (s : wstring) (h : ∀ c ∈ s, c.toLower = c) :
    makelowercase s = s := by
  unfold makelowercase
  conv_rhs => rw [← List.map_id s]
  exact List.map_congr_left h

theorem RemoveComments_none (fuel : Nat) (s : wstring)
    (h : (findSubIdx ['/', '/'] s).isSome = false) : RemoveComments (fuel + 1) s = some s := by
  have : findSubIdx ['/', '/'] s = none := by
    cases h' : findSubIdx ['/', '/'] s with
    | none => rfl
    | some k => rw [h'] at h; cases h
  simp [RemoveComments, RemoveCommentsLoop, this]

theorem normalizeText_fixed (s : wstring) (h : Normalized s) : normalizeText s = s := by
  obtain ⟨hc, hp⟩ := h
  have hn : '\n' ∉ s := fun hm => (hc _ hm).1 rfl
  have hr : '\r' ∉ s := fun hm => (hc _ hm).2.1 rfl
  have ht : '\t' ∉ s := fun hm => (hc _ hm).2.2.1 rfl
  have hflat : flattenText s = s := by
    rw [flattenText, replaceAll_absent _ _ _ hn, replaceAll_absent _ _ _ hr,
      replaceAll_absent _ _ _ ht]
  have hlow : makelowercase (s.flatMap braceText) = s.flatMap braceText := by
    apply makelowercase_fixed
    intro c hm
    obtain ⟨a, ha, hca⟩ := List.mem_flatMap.mp hm
    rcases mem_braceText c a hca with h | h | h
    · subst h; decide
    · rcases h with h | h <;> subst h <;> decide
    · subst h; exact (hc _ ha).2.2.2
  have hinner : List.Chain' okPair s := by
    have := hp.tail
    exact (List.chain'_append.mp this).1
  rw [normalizeText_eq, hflat, hlow, squeeze_flatMap_braceText s hp]
  exact squeeze_of_chain ' ' s (hinner.imp (fun a b h => h.2.2.2))

/-! ## The joined lines are normalized -/

theorem mem_intercalate (c : Char) (P : List wstring)
    (h : c ∈ List.intercalate [';'] P) : c = ';' ∨ ∃ p ∈ P, c ∈ p := by
  induction P with
  | nil => simp [List.intercalate] at h
  | cons p qs ih =>
    cases qs with
    | nil =>
      rw [intercalate_singleton] at h
      exact Or.inr ⟨p, by simp, h⟩
    | cons q r =>
      rw [intercalate_cons_cons] at h
      simp only [List.mem_append, List.mem_cons] at h
      rcases h with h | h | h
      · exact Or.inr ⟨p, by simp, h⟩
      · exact Or.inl h
      · rcases ih h with h' | ⟨p', hp', hc⟩
        · exact Or.inl h'
        · exact Or.inr ⟨p', List.mem_cons_of_mem _ hp', hc⟩

theorem mem_intercalate_of_mem (c : Char) (P : List wstring) (p : wstring) (hp : p ∈ P)
    (hc : c ∈ p) : c ∈ List.intercalate [';'] P := by
  induction P with
  | nil => simp at hp
  | cons p' qs ih =>
    cases qs with
    | nil =>
      simp only [List.mem_singleton] at hp
      subst hp
      rw [intercalate_singleton]
      exact hc
    | cons q r =>
      rw [intercalate_cons_cons]
      rcases List.mem_cons.mp hp with rfl | hp'
      · exact List.mem_append_left _ hc
      · exact List.mem_append_right _ (List.mem_cons_of_mem _ (ih hp'))

theorem mem_of_mem_trim (c : Char) (p : wstring) (h : c ∈ trim p) : c ∈ p := by
  obtain ⟨ws1, ws2, _, _, e⟩ := trim_decompose p
  rw [e]
  exact List.mem_append_left _ (List.mem_append_right _ h)

theorem trim_head_not_sep (p : wstring) (h : topFree ';' skip 0 p) :
    ∀ c ∈ (trim p).head?, c ≠ ';' := by
  intro c hc e
  subst e
  obtain ⟨ws1, ws2, h1, h2, ep⟩ := trim_decompose p
  obtain ⟨y, ys, hy⟩ : ∃ y ys, trim p = y :: ys := by
    cases ht : trim p with
    | nil => rw [ht] at hc; simp at hc
    | cons y ys => exact ⟨y, ys, rfl⟩
  rw [hy] at hc ep
  simp only [List.head?_cons, Option.mem_def, Option.some.injEq] at hc
  subst hc
  rw [ep, List.append_assoc, topFree_append, scanDepth_wspace ws1 h1] at h
  have := h.2
  rw [List.cons_append, topFree] at this
  exact this.1 ⟨rfl, rfl⟩

theorem trim_last_not_sep (p : wstring) (h : topFree ';' skip 0 p)
    (h0 : scanDepth skip 0 p = 0) : ∀ c ∈ (trim p).getLast?, c ≠ ';' := by
  intro c hc e
  subst e
  obtain ⟨ws1, ws2, h1, h2, ep⟩ := trim_decompose p
  obtain ⟨l', hl⟩ : ∃ l', trim p = l' ++ [';'] := List.getLast?_eq_some_iff.mp hc
  have e2 : p = (ws1 ++ l') ++ (';' :: ws2) := by
    rw [ep, hl]
    simp
  have hskip : skipDepth skip (scanDepth skip 0 (ws1 ++ l')) ';'
      = scanDepth skip 0 (ws1 ++ l') := by
    simp [skipDepth, skip]
  rw [e2, topFree_append] at h
  rw [e2, scanDepth_append, scanDepth, hskip, scanDepth_wspace ws2 h2] at h0
  have := h.2
  rw [topFree] at this
  exact this.1 ⟨h0, rfl⟩

theorem okPair_frame (x y : Char) (hx : x = 'a' ∨ x = ';') (hy : y = 'a' ∨ y = ';')
    (h : ¬(x = ';' ∧ y = ';')) : okPair x y := by
  rcases hx with rfl | rfl <;> rcases hy with rfl | rfl
  · decide
  · decide
  · decide
  · exact absurd ⟨rfl, rfl⟩ h

theorem not_wspace_of_sep (w : Char) (h : iswspace w = true) : w ≠ ';' := by
  intro e
  rw [e] at h
  exact absurd h (by decide)

/-- A piece between two frame characters keeps its neighbours when it is trimmed. -/
theorem trim_chain (x y : Char) (hx : x = 'a' ∨ x = ';') (hy : y = 'a' ∨ y = ';') (p : wstring)
    (hc : List.Chain' okPair (x :: p ++ [y]))
    (h1 : ∀ c ∈ (trim p).head?, c ≠ ';')
    (h2 : y = ';' → ∀ c ∈ (trim p).getLast?, c ≠ ';')
    (h3 : trim p = [] → ¬(x = ';' ∧ y = ';')) :
    List.Chain' okPair (x :: trim p ++ [y]) := by
  obtain ⟨ws1, ws2, hw1, hw2, ep⟩ := trim_decompose p
  have hxb : ¬ isBrace x := by rcases hx with rfl | rfl <;> decide
  have hyb : ¬ isBrace y := by rcases hy with rfl | rfl <;> decide
  have hxs : x ≠ ' ' := by rcases hx with rfl | rfl <;> decide
  have hys : y ≠ ' ' := by rcases hy with rfl | rfl <;> decide
  cases hl : trim p with
  | nil =>
    show List.Chain' okPair [x, y]
    rw [List.chain'_cons]
    exact ⟨okPair_frame x y hx hy (h3 hl), List.chain'_singleton _⟩
  | cons u l' =>
    rw [hl] at ep h1 h2
    have e1 : x :: p ++ [y] = (x :: ws1) ++ ((u :: l') ++ (ws2 ++ [y])) := by
      rw [ep]; simp
    rw [e1] at hc
    obtain ⟨_, hmid, hjoin1⟩ := List.chain'_append.mp hc
    obtain ⟨hl', _, hjoin2⟩ := List.chain'_append.mp hmid
    -- the neighbour on the left
    have hleft : okPair x u := by
      cases ws1 with
      | nil => exact hjoin1 x (by simp) u (by simp)
      | cons w ws =>
        have hlast : ∃ w', (x :: w :: ws).getLast? = some w' ∧ iswspace w' = true := by
          refine ⟨(w :: ws).getLast (by simp), ?_, hw1 _ (List.getLast_mem _)⟩
          rw [List.getLast?_cons_cons, List.getLast?_eq_getLast _ (by simp)]
        obtain ⟨w', hw', hws⟩ := hlast
        have hp := hjoin1 w' hw' u (by simp)
        have hub : ¬ isBrace u := fun hb => not_wspace_of_sep w' hws (hp.1 hb)
        exact ⟨fun hb => absurd hb hub, fun hb => absurd hb hxb,
          fun h => h1 u (by simp) h.2, fun h => hxs h.1⟩
    -- the neighbour on the right
    have hright : ∀ v ∈ (u :: l').getLast?, okPair v y := by
      intro v hv
      cases ws2 with
      | nil => exact hjoin2 v hv y (by simp)
      | cons w ws =>
        have hp := hjoin2 v hv w (by simp)
        have hww : iswspace w = true := hw2 w (by simp)
        have hvb : ¬ isBrace v := fun hb => not_wspace_of_sep w hww (hp.2.1 hb)
        exact ⟨fun hb => absurd hb hyb, fun hb => absurd hb hvb,
          fun h => h2 h.2 v hv h.1, fun h => hys h.2⟩
    have : List.Chain' okPair ((u :: l') ++ [y]) :=
      List.chain'_append.mpr ⟨hl', List.chain'_singleton _, fun a ha b hb => by
        simp only [List.head?_cons, Option.mem_def, Option.some.injEq] at hb
        subst hb
        exact hright a ha⟩
    exact List.Chain'.cons hleft this

theorem join_trim_chain (P : List wstring) :
    ∀ x, (x = 'a' ∨ x = ';') → Pieces ';' skip 0 P →
      List.Chain' okPair (x :: List.intercalate [';'] P ++ ['a']) →
      (∀ i, (x = 'a' → 0 < i) → i + 1 < P.length → ∀ p, P[i]? = some p → trim p ≠ []) →
      List.Chain' okPair (x :: List.intercalate [';'] (P.map trim) ++ ['a']) := by
  induction P with
  | nil => intro x _ h; exact absurd h (by simp [Pieces])
  | cons p qs ih =>
    intro x hx hP hc hE
    cases qs with
    | nil =>
      simp only [Pieces] at hP
      rw [List.map_cons, List.map_nil, intercalate_singleton]
      rw [intercalate_singleton] at hc
      exact trim_chain x 'a' hx (Or.inl rfl) p hc (trim_head_not_sep p hP)
        (fun h => absurd h (by decide)) (fun _ h => absurd h.2 (by decide))
    | cons q r =>
      simp only [Pieces] at hP
      rw [intercalate_cons_cons] at hc
      have e1 : x :: (p ++ ';' :: List.intercalate [';'] (q :: r)) ++ ['a']
          = (x :: p) ++ [';'] ++ (List.intercalate [';'] (q :: r) ++ ['a']) := by simp
      rw [e1] at hc
      have hcp : List.Chain' okPair (x :: p ++ [';']) :=
        (List.chain'_append.mp hc).1
      have hcr : List.Chain' okPair (';' :: List.intercalate [';'] (q :: r) ++ ['a']) := by
        have : List.Chain' okPair ([';'] ++ (List.intercalate [';'] (q :: r) ++ ['a'])) :=
          hc.suffix ⟨x :: p, by simp⟩
        simpa using this
      have hp' := trim_chain x ';' hx (Or.inr rfl) p hcp (trim_head_not_sep p hP.1)
        (fun _ => trim_last_not_sep p hP.1 hP.2.1)
        (fun he h => by
          rcases hx with rfl | rfl
          · exact absurd h.1 (by decide)
          · exact hE 0 (fun h' => absurd h' (by decide)) (by simp) p rfl he)
      have hr' := ih ';' (Or.inr rfl) hP.2.2 hcr (by
        intro i _ hi p' hp''
        exact hE (i + 1) (fun _ => by omega) (by simpa using hi) p' (by simpa using hp''))
      have e2 : x :: List.intercalate [';'] ((p :: q :: r).map trim) ++ ['a']
          = (x :: trim p) ++ [';'] ++ (List.intercalate [';'] ((q :: r).map trim) ++ ['a']) := by
        simp only [List.map_cons, intercalate_cons_cons]
        simp
      rw [e2]
      apply List.Chain'.append_overlap hp' _ (by simp)
      simpa using hr'

theorem join_trim_normalized (s : wstring) (hs : Normalized s)
    (hE : ∀ i, 0 < i → i + 1 < (splitLines s).length → (splitLines s)[i]? ≠ some []) :
    Normalized (List.intercalate [';'] (splitLines s)) := by
  constructor
  · intro c hc
    rcases mem_intercalate c _ hc with rfl | ⟨l, hl, hcl⟩
    · exact ⟨by decide, by decide, by decide, by decide⟩
    · obtain ⟨p, hp, rfl⟩ := List.mem_map.mp hl
      apply hs.1
      have := mem_intercalate_of_mem c _ p hp (mem_of_mem_trim c p hcl)
      rwa [join_split] at this
  · have hc : List.Chain' okPair
        ('a' :: List.intercalate [';'] (split_string_skip ';' skip 0 s) ++ ['a']) := by
      rw [join_split]
      exact hs.2
    refine join_trim_chain _ 'a' (Or.inl rfl) (Pieces_split ';' skip s 0) hc ?_
    intro i hi hlen p hp he
    apply hE i (hi rfl) (by simpa [splitLines] using hlen)
    simp [splitLines, hp, he]

/-! ## Comments without a line break -/

theorem findSubIdx_cons_isSome (pat : wstring) (x : Char) (r : wstring)
    (h : (findSubIdx pat r).isSome = true) : (findSubIdx pat (x :: r)).isSome = true := by
  rw [findSubIdx]
  split
  · rfl
  · simpa using h

theorem findSubIdx_of_drop (pat : wstring) (s : wstring) :
    ∀ n, (findSubIdx pat (s.drop n)).isSome = true → (findSubIdx pat s).isSome = true := by
  induction s with
  | nil => intro n h; simpa using h
  | cons x r ih =>
    intro n h
    cases n with
    | zero => exact h
    | succ n => exact findSubIdx_cons_isSome pat x r (ih n h)

theorem findSubIdx_le (pat : wstring) (s : wstring) :
    ∀ k, findSubIdx pat s = some k → k ≤ s.length := by
  induction s with
  | nil =>
    intro k h
    rw [findSubIdx] at h
    split at h
    · simp at h; omega
    · cases h
  | cons x r ih =>
    intro k h
    rw [findSubIdx] at h
    split at h
    · simp at h; omega
    · cases h' : findSubIdx pat r with
      | none => rw [h'] at h; cases h
      | some j =>
        rw [h'] at h
        simp at h
        have := ih j h'
        simp only [List.length_cons]
        omega

theorem wfind_absent (s : wstring) (c : Char) (pos : Nat) (h : c ∉ s) : wfind s c pos = -1 := by
  have : c ∉ s.drop pos := fun e => h (List.mem_of_mem_drop e)
  simp [wfind, findIdx_none c _ this]

/-- Once a `//` lies at or behind `lastindex` in a text without a line break, the loop
of `RemoveComments` never returns: every round puts the whole text behind the cut. -/
theorem RemoveCommentsLoop_diverges :
    ∀ (fuel : Nat) (str : wstring) (lastindex : Nat), '\n' ∉ str → lastindex ≤ str.length →
      (findSubIdx ['/', '/'] (str.drop lastindex)).isSome = true →
      RemoveCommentsLoop fuel str lastindex = none := by
  intro fuel
  induction fuel with
  | zero => intro str li _ _ _; rfl
  | succ fuel ih =>
    intro str li hn hli hs
    obtain ⟨k, hk⟩ := Option.isSome_iff_exists.mp hs
    have hkl := findSubIdx_le _ _ k hk
    have hlen : li + k ≤ str.length := by
      rw [List.length_drop] at hkl
      omega
    rw [RemoveCommentsLoop]
    simp only [hk, wfind_absent str '\n' _ hn]
    have e1 : substr str 0 ((li + k : Nat) : Int) = str.take (li + k) := by
      have : ¬ (((li + k : Nat) : Int) < 0) := by omega
      simp only [substr, if_neg this, Int.toNat_ofNat, List.drop_zero]
    have e2 : substr str ((-1 : Int) + 1).toNat (-1) = str := by
      simp [substr]
    rw [e1, e2]
    apply ih
    · intro hm
      rcases List.mem_append.mp hm with h | h
      · exact hn (List.mem_of_mem_take h)
      · exact hn h
    · simp only [List.length_append, List.length_take]
      omega
    · have : (str.take (li + k) ++ str).drop (li + k) = str := by
        rw [List.drop_append_of_le_length (by simp only [List.length_take]; omega)]
        simp [List.drop_take]
      rw [this]
      exact findSubIdx_of_drop _ _ li hs

/-! ## Idempotence -/

theorem join_chain_sep {R : Char → Char → Prop} (hl : ∀ a, R a ';') (hr : ∀ b, R ';' b)
    (P : List wstring) (h : ∀ p ∈ P, List.Chain' R p) :
    List.Chain' R (List.intercalate [';'] P) := by
  induction P with
  | nil => simp [List.intercalate]
  | cons p qs ih =>
    cases qs with
    | nil =>
      rw [intercalate_singleton]
      exact h p (by simp)
    | cons q r =>
      rw [intercalate_cons_cons]
      refine List.chain'_append.mpr ⟨h p (by simp), ?_, fun a _ b hb => ?_⟩
      · exact List.Chain'.cons' (ih (fun p' hp' => h p' (by simp [hp']))) (fun y _ => hr y)
      · simp only [List.head?_cons, Option.mem_def, Option.some.injEq] at hb
        subst hb
        exact hl a

/-- C10 (amended): when `GetCodeLines` returns the lines `L` for a source text, none of
the lines other than the first and the last is empty and no line contains `//`,
then `GetCodeLines` applied to the lines re-joined with `;` returns exactly `L`
again. -/
theorem normalizer_idempotent (fuel : Nat) (c : wstring) (L : List wstring)
    (h : GetCodeLines fuel c = some L)
    (hne : ∀ i, 0 < i → i + 1 < L.length → L[i]? ≠ some [])
    (hcm : ∀ l ∈ L, findSubIdx ['/', '/'] l = none) :
    ∀ fuel', 0 < fuel' → GetCodeLines fuel' (List.intercalate [';'] L) = some L := by
  intro fuel' hf
  obtain ⟨k, rfl⟩ : ∃ k, fuel' = k + 1 := ⟨fuel' - 1, by omega⟩
  obtain ⟨x, _, hL⟩ : ∃ x, RemoveComments fuel c = some x ∧ splitLines (normalizeText x) = L := by
    unfold GetCodeLines at h
    cases hx : RemoveComments fuel c with
    | none => rw [hx] at h; cases h
    | some x =>
      rw [hx] at h
      exact ⟨x, rfl, by simpa using h⟩
  subst hL
  have hnorm := join_trim_normalized _ (normalizeText_normalized x) hne
  have hslash : (findSubIdx ['/', '/']
      (List.intercalate [';'] (splitLines (normalizeText x)))).isSome = false := by
    rw [chain_no_pair_iff]
    apply join_chain_sep (fun a h => absurd h.2 (by decide)) (fun b h => absurd h.1 (by decide))
    intro p hp
    rw [← chain_no_pair_iff, hcm p hp]
    exact Option.isSome_none
  have hsplit : splitLines (List.intercalate [';'] (splitLines (normalizeText x)))
      = splitLines (normalizeText x) :=
    splitLines_join (split_string_skip ';' skip 0 (normalizeText x)) (Pieces_split ';' skip _ 0)
  unfold GetCodeLines
  rw [RemoveComments_none k _ hslash, Option.map_some', normalizeText_fixed _ hnorm, hsplit]

/-- The text `x; y` followed by a closed block with one statement: its lines have no
empty line inside and no `//`, and they come back from a second pass. -/
theorem normalizer_idempotent_witness :
    GetCodeLines 1 (List.intercalate [';'] ["x".toList, "y".toList, ['{'], "z".toList, ['}'],
        []])
      = some ["x".toList, "y".toList, ['{'], "z".toList, ['}'], []] :=
  normalizer_idempotent 1 "X;  y{z}".toList _ (by rfl)
    (by
      intro i h1 h2
      have h3 : i + 1 < 6 := by simpa using h2
      have h4 : i < 5 := by omega
      interval_cases i <;> decide)
    (by decide) 1 (by decide)

/-- C10 as stated fails. The text `a; ;b` gives the lines `a`, an empty line and `b`,
and the lines re-joined give only `a` and `b`, whatever the fuel. The text with a
line break between two slashes gives a line with `//`, and on that line the second
pass never returns. -/
theorem normalizer_not_idempotent :
    (GetCodeLines 1 "a; ;b".toList = some ["a".toList, [], "b".toList]
      ∧ ∀ fuel, GetCodeLines fuel (List.intercalate [';'] ["a".toList, [], "b".toList])
          ≠ some ["a".toList, [], "b".toList])
    ∧ (GetCodeLines 1 ['a', '/', '\n', '/', 'b'] = some [['a', '/', '/', 'b']]
      ∧ ∀ fuel, GetCodeLines fuel (List.intercalate [';'] [['a', '/', '/', 'b']]) = none) := by
  refine ⟨⟨by rfl, ?_⟩, by rfl, ?_⟩
  · intro fuel
    cases fuel with
    | zero => intro h; cases h
    | succ n =>
      have : GetCodeLines (n + 1) (List.intercalate [';'] ["a".toList, [], "b".toList])
          = some ["a".toList, "b".toList] := by rfl
      rw [this]
      decide
  · intro fuel
    have := RemoveCommentsLoop_diverges fuel ['a', '/', '/', 'b'] 0 (by decide) (by decide)
      (by decide)
    simp only [GetCodeLines, RemoveComments, intercalate_singleton, this, Option.map_none']

/-! ## Statements are neither merged nor reordered -/

theorem statementsText_join (ss : List wstring) :
    statementsText ss = List.intercalate [';'] (ss ++ [[]]) := by
  induction ss with
  | nil => rfl
  | cons s r ih =>
    have e : statementsText (s :: r) = s ++ ';' :: statementsText r := by
      simp [statementsText]
    rw [e, ih]
    cases r with
    | nil => simp [List.intercalate]
    | cons q r' =>
      show _ = List.intercalate [';'] (s :: q :: (r' ++ [[]]))
      rw [intercalate_cons_cons]
      rfl

theorem isUpper_false_toLower (c : Char) (h : c.isUpper = false) : c.toLower = c := by
  apply toLower_fix_of_not_upper
  intro hx
  have : c.isUpper = true := by
    simp only [Char.isUpper, Bool.and_eq_true, decide_eq_true_eq]
    exact ⟨by
      have := hx.1
      show (65 : UInt32) ≤ c.val
      exact this, by
      have := hx.2
      show c.val ≤ (90 : UInt32)
      exact this⟩
  rw [h] at this
  exact absurd this (by decide)

theorem IsStatement.head_ok {s : wstring} (h : IsStatement s) :
    ∃ u r, s = u :: r ∧ u ≠ ' ' ∧ u ≠ ';' ∧ ¬ isBrace u := by
  obtain ⟨hne, htrim, _, hav, _, _⟩ := h
  cases s with
  | nil => exact absurd rfl hne
  | cons u r =>
    refine ⟨u, r, rfl, ?_, ?_, ?_⟩
    · intro e
      have := trim_first (u :: r) u (by rw [htrim]; rfl)
      rw [e] at this
      exact absurd this (by decide)
    · intro e
      exact hav u (by simp) (by simp [e])
    · intro e
      rcases e with e | e <;> exact hav u (by simp) (by simp [e])

theorem IsStatement.last_ok {s : wstring} (h : IsStatement s) :
    ∀ v ∈ s.getLast?, v ≠ ';' ∧ ¬ isBrace v := by
  intro v hv
  have hm : v ∈ s := List.mem_of_getLast?_eq_some hv
  obtain ⟨_, _, _, hav, _, _⟩ := h
  refine ⟨fun e => hav v hm (by simp [e]), fun e => ?_⟩
  rcases e with e | e <;> exact hav v hm (by simp [e])

theorem IsStatement.chain {s : wstring} (h : IsStatement s) : List.Chain' okPair s := by
  obtain ⟨_, _, _, hav, _, hsp⟩ := h
  have h2 : List.Chain' (fun a b => ¬(a = ' ' ∧ b = ' ')) s :=
    (chain_no_pair_iff ' ' s).mp (by rw [hsp]; rfl)
  rw [List.Chain'.iff_mem] at h2
  refine h2.imp ?_
  intro a b hab
  obtain ⟨ha, hb, hnp⟩ := hab
  refine ⟨fun e => ?_, fun e => ?_, fun e => ?_, hnp⟩
  · rcases e with e | e <;> exact absurd (by simp [e]) (hav b hb)
  · rcases e with e | e <;> exact absurd (by simp [e]) (hav a ha)
  · exact hav a ha (by simp [e.1])

theorem statementsText_chain (ss : List wstring) (h : ∀ s ∈ ss, IsStatement s) :
    ∀ x, (x = 'a' ∨ x = ';') → List.Chain' okPair (x :: statementsText ss ++ ['a']) := by
  induction ss with
  | nil =>
    intro x hx
    show List.Chain' okPair [x, 'a']
    rw [List.chain'_cons]
    exact ⟨okPair_frame x 'a' hx (Or.inl rfl) (by simp), List.chain'_singleton _⟩
  | cons s r ih =>
    intro x hx
    have hs : IsStatement s := h s (by simp)
    have e : x :: statementsText (s :: r) ++ ['a']
        = (x :: s) ++ (';' :: statementsText r ++ ['a']) := by
      simp [statementsText]
    rw [e, List.chain'_append]
    obtain ⟨u, t, rfl, hu1, hu2, hu3⟩ := hs.head_ok
    have hxb : ¬ isBrace x := by rcases hx with rfl | rfl <;> decide
    refine ⟨?_, ih (fun q hq => h q (by simp [hq])) ';' (Or.inr rfl), ?_⟩
    · rw [List.chain'_cons']
      refine ⟨?_, hs.chain⟩
      intro y hy
      simp only [List.head?_cons, Option.mem_def, Option.some.injEq] at hy
      subst hy
      exact ⟨fun e => absurd e hu3, fun e => absurd e hxb, fun e => hu2 e.2, fun e => hu1 e.2⟩
    · intro v hv y hy
      have hy' : ';' = y := by simpa using hy
      subst hy'
      rw [Option.mem_def, List.getLast?_cons_cons] at hv
      obtain ⟨hv1, hv2⟩ := hs.last_ok v hv
      exact ⟨fun e => absurd e (by decide), fun e => absurd e hv2, fun e => hv1 e.1,
        fun e => absurd e.2 (by decide)⟩

theorem plain_topFree (s : wstring) (h : ∀ c ∈ s, c ≠ ';' ∧ c ≠ '(' ∧ c ≠ ')') :
    ∀ d, topFree ';' skip d s ∧ scanDepth skip d s = d := by
  induction s with
  | nil => intro d; exact ⟨trivial, rfl⟩
  | cons x r ih =>
    intro d
    obtain ⟨h1, h2, h3⟩ := h x (by simp)
    have hd : skipDepth skip d x = d := by simp [skipDepth, skip, h2, h3]
    have := ih (fun c hc => h c (by simp [hc])) d
    rw [topFree, scanDepth, hd]
    exact ⟨⟨fun e => h1 e.2, this.1⟩, this.2⟩

theorem IsStatement.plain {s : wstring} (h : IsStatement s) :
    ∀ c ∈ s, c ≠ ';' ∧ c ≠ '(' ∧ c ≠ ')' := by
  intro c hc
  have := h.2.2.2.1 c hc
  refine ⟨fun e => this (by simp [e]), fun e => this (by simp [e]), fun e => this (by simp [e])⟩

theorem statements_pieces (ss : List wstring) (h : ∀ s ∈ ss, IsStatement s) :
    Pieces ';' skip 0 (ss ++ [[]]) := by
  induction ss with
  | nil => exact trivial
  | cons s r ih =>
    have hp := plain_topFree s (h s (by simp)).plain 0
    have hr := ih (fun q hq => h q (by simp [hq]))
    cases r with
    | nil => exact ⟨hp.1, hp.2, hr⟩
    | cons q r' => exact ⟨hp.1, hp.2, hr⟩

/-- C11: the normalizer neither merges nor reorders statements. For statements that
are already normalized, the lines of the text `s1;s2;...;sn;` are `s1`, ..., `sn` in
that order, followed by one empty line, so its non-empty lines are exactly the
statements. -/
theorem statements_never_merged (ss : List wstring) (h : ∀ s ∈ ss, IsStatement s)
    (fuel : Nat) :
    GetCodeLines (fuel + 1) (statementsText ss) = some (ss ++ [[]])
    ∧ ∀ L, GetCodeLines (fuel + 1) (statementsText ss) = some L →
        L.filter (fun l => decide (l ≠ [])) = ss := by
  have hmain : GetCodeLines (fuel + 1) (statementsText ss) = some (ss ++ [[]]) := by
    have hnc : (findSubIdx ['/', '/'] (statementsText ss)).isSome = false := by
      rw [chain_no_pair_iff, statementsText_join]
      apply join_chain_sep (fun a e => absurd e.2 (by decide)) (fun b e => absurd e.1 (by decide))
      intro p hp
      rcases List.mem_append.mp hp with hp | hp
      · exact (chain_no_pair_iff '/' p).mp (by rw [(h p hp).2.2.2.2.1]; rfl)
      · rw [List.mem_singleton.mp hp]
        exact List.chain'_nil
    have hnorm : Normalized (statementsText ss) := by
      refine ⟨?_, statementsText_chain ss h 'a' (Or.inl rfl)⟩
      intro c hc
      rw [statementsText_join] at hc
      rcases mem_intercalate c _ hc with rfl | ⟨p, hp, hcp⟩
      · exact ⟨by decide, by decide, by decide, by decide⟩
      · rcases List.mem_append.mp hp with hp | hp
        · obtain ⟨_, _, hup, hav, _, _⟩ := h p hp
          have := hav c hcp
          exact ⟨fun e => this (by simp [e]), fun e => this (by simp [e]),
            fun e => this (by simp [e]), isUpper_false_toLower c (hup c hcp)⟩
        · rw [List.mem_singleton.mp hp] at hcp
          exact absurd hcp (List.not_mem_nil c)
    have htrim : (ss ++ [[]]).map trim = ss ++ [[]] := by
      rw [List.map_append]
      congr 1
      conv_rhs => rw [← List.map_id ss]
      exact List.map_congr_left (fun s hs => (h s hs).2.1)
    unfold GetCodeLines
    rw [RemoveComments_none fuel _ hnc, Option.map_some', normalizeText_fixed _ hnorm,
      statementsText_join]
    have := splitLines_join (ss ++ [[]]) (statements_pieces ss h)
    rw [htrim] at this
    rw [this]
  refine ⟨hmain, ?_⟩
  intro L hL
  rw [hmain] at hL
  cases hL
  rw [List.filter_append]
  have : List.filter (fun l => decide (l ≠ [])) ss = ss := by
    rw [List.filter_eq_self]
    intro s hs
    simpa using (h s hs).1
  rw [this]
  simp

theorem statements_never_merged_witness :
    (∀ s ∈ ["integer x = 1".toList, "x++".toList, "y = x - 2".toList], IsStatement s)
    ∧ GetCodeLines 1 (statementsText ["integer x = 1".toList, "x++".toList, "y = x - 2".toList])
      = some (["integer x = 1".toList, "x++".toList, "y = x - 2".toList] ++ [[]]) :=
  ⟨by decide,
    (statements_never_merged ["integer x = 1".toList, "x++".toList, "y = x - 2".toList]
      (by decide) 0).1⟩

/-! ## Comments -/

theorem findSubIdx_some (pat : wstring) (s : wstring) :
    ∀ k, findSubIdx pat s = some k → pat.isPrefixOf (s.drop k) = true := by
  induction s with
  | nil =>
    intro k h
    simp only [findSubIdx] at h
    split at h
    · next hp => subst hp; simp
    · exact absurd h (by simp)
  | cons c cs ih =>
    intro k h
    rw [findSubIdx] at h
    split at h
    · next hp =>
      cases h
      exact hp
    · next hp =>
      cases hk : findSubIdx pat cs with
      | none => rw [hk] at h; exact absurd h (by simp)
      | some k' =>
        rw [hk] at h
        cases h
        exact ih k' hk

theorem stripGo_before (s : wstring) :
    ∀ k, findSubIdx ['/', '/'] s = some k →
      stripGo false s = s.take k ++ stripGo true (s.drop (k + 1)) := by
  induction s with
  | nil =>
    intro k h
    simp [findSubIdx] at h
  | cons c cs ih =>
    intro k h
    rw [findSubIdx] at h
    split at h
    · next hp =>
      cases h
      rw [stripGo, if_pos hp]
      rfl
    · next hp =>
      cases hk : findSubIdx ['/', '/'] cs with
      | none => rw [hk] at h; exact absurd h (by simp)
      | some k' =>
        rw [hk] at h
        cases h
        rw [stripGo, if_neg hp, ih k' hk]
        rfl

theorem stripGo_plain (s : wstring) (h : findSubIdx ['/', '/'] s = none) :
    stripGo false s = s := by
  induction s with
  | nil => rfl
  | cons c cs ih =>
    rw [findSubIdx] at h
    split at h
    · exact absurd h (by simp)
    · next hp =>
      rw [stripGo, if_neg hp, ih (by simpa using h)]

theorem stripGo_comment (t : wstring) :
    ∀ j, findIdx '\n' t = some j → stripGo true t = stripGo false (t.drop (j + 1)) := by
  induction t with
  | nil =>
    intro j h
    simp [findIdx] at h
  | cons c cs ih =>
    intro j h
    rw [findIdx] at h
    split at h
    · next hc =>
      cases h
      rw [stripGo, if_pos hc]
      rfl
    · next hc =>
      cases hk : findIdx '\n' cs with
      | none => rw [hk] at h; exact absurd h (by simp)
      | some j' =>
        rw [hk] at h
        cases h
        rw [stripGo, if_neg hc, ih j' hk]
        rfl

theorem findIdx_of_mem (c : Char) (s : wstring) (h : c ∈ s) :
    ∃ j, findIdx c s = some j ∧ j < s.length := by
  induction s with
  | nil => exact absurd h (List.not_mem_nil c)
  | cons x r ih =>
    by_cases hx : x = c
    · exact ⟨0, by simp [findIdx, hx], by simp⟩
    · have hr : c ∈ r := by
        rcases List.mem_cons.mp h with e | e
        · exact absurd e.symm hx
        · exact e
      obtain ⟨j, hj, hlt⟩ := ih hr
      exact ⟨j + 1, by simp [findIdx, hx, hj], by simp [hlt]⟩

theorem CommentsClosed.drop {s : wstring} (h : CommentsClosed s) (n : Nat) :
    CommentsClosed (s.drop n) := by
  intro t ht hp
  rw [List.mem_tails] at ht
  exact h t ((List.mem_tails _ _).mpr (ht.trans (List.drop_suffix n s))) hp

/-- The loop of `RemoveComments` on a text whose comments are all closed: behind the
part already scanned it leaves what the spec describes. -/
theorem RemoveCommentsLoop_closed :
    ∀ (fuel : Nat) (pre rest : wstring), rest.length < fuel → CommentsClosed rest →
      RemoveCommentsLoop fuel (pre ++ rest) pre.length = some (pre ++ stripGo false rest) := by
  intro fuel
  induction fuel with
  | zero => intro pre rest h; exact absurd h (Nat.not_lt_zero _)
  | succ fuel ih =>
    intro pre rest hlen hcl
    rw [RemoveCommentsLoop, List.drop_left]
    cases hk : findSubIdx ['/', '/'] rest with
    | none =>
      show some (pre ++ rest) = _
      rw [stripGo_plain rest hk]
    | some k =>
      show RemoveCommentsLoop fuel _ (pre.length + k) = _
      have hpre : ['/', '/'].isPrefixOf (rest.drop k) = true := findSubIdx_some _ _ k hk
      have hkle : k ≤ rest.length := findSubIdx_le _ _ k hk
      have hnl : '\n' ∈ rest.drop k :=
        hcl _ ((List.mem_tails _ _).mpr (List.drop_suffix k rest))
          (List.isPrefixOf_iff_prefix.mp hpre)
      -- the comment starts with its two marks
      obtain ⟨tl, htl⟩ : ∃ tl, rest.drop k = '/' :: '/' :: tl := by
        obtain ⟨tl, e⟩ := List.isPrefixOf_iff_prefix.mp hpre
        exact ⟨tl, e.symm⟩
      have hnl1 : '\n' ∈ rest.drop (k + 1) := by
        have e : rest.drop (k + 1) = '/' :: tl := by
          rw [← List.drop_drop, htl]; rfl
        rw [e]
        rw [htl] at hnl
        rcases List.mem_cons.mp hnl with h1 | h1
        · exact absurd h1 (by decide)
        · exact h1
      obtain ⟨j, hj, hjlt⟩ := findIdx_of_mem '\n' _ hnl1
      have hlen1 : (rest.drop (k + 1)).length = rest.length - (k + 1) := List.length_drop _ _
      have hwf : wfind (pre ++ rest) '\n' (pre.length + k + 1)
          = ((pre.length + k + 1 + j : Nat) : Int) := by
        have e : (pre ++ rest).drop (pre.length + k + 1) = rest.drop (k + 1) := by
          rw [Nat.add_assoc, List.drop_append]
        rw [wfind, e, hj]
      have hcut1 : substr (pre ++ rest) 0 ((pre.length + k : Nat) : Int) = pre ++ rest.take k := by
        have : ¬ ((pre.length + k : Nat) : Int) < 0 := by omega
        rw [substr, if_neg this, List.drop_zero, Int.toNat_ofNat, List.take_append]
      have hcut2 : substr (pre ++ rest) (((pre.length + k + 1 + j : Nat) : Int) + 1).toNat (-1)
          = rest.drop (k + 1 + (j + 1)) := by
        have e : (((pre.length + k + 1 + j : Nat) : Int) + 1).toNat
            = pre.length + (k + 1 + (j + 1)) := by omega
        rw [substr, if_pos (by decide), e, List.drop_append]
      rw [hwf, hcut1, hcut2]
      have := ih (pre ++ rest.take k) (rest.drop (k + 1 + (j + 1)))
        (by rw [List.length_drop]; omega) (hcl.drop _)
      have hl : (pre ++ rest.take k).length = pre.length + k := by
        rw [List.length_append, List.length_take, Nat.min_eq_left hkle]
      rw [hl] at this
      rw [this, stripGo_before rest k hk, stripGo_comment _ j hj, List.drop_drop,
        List.append_assoc]

theorem stripGo_head (s : wstring) (h : (stripGo false s).head? = some '/') :
    s.head? = some '/' := by
  cases s with
  | nil => exact absurd h (by simp [stripGo])
  | cons c cs =>
    by_cases hp : ['/', '/'].isPrefixOf (c :: cs) = true
    · obtain ⟨tl, e⟩ := List.isPrefixOf_iff_prefix.mp hp
      have : c = '/' := by
        have := congrArg List.head? e
        simpa using this.symm
      rw [this]; rfl
    · rw [stripGo, if_neg hp] at h
      exact h

/-- What the spec describes never contains a comment mark. -/
theorem stripGo_clean (s : wstring) :
    ∀ b, List.Chain' (fun x y => ¬(x = '/' ∧ y = '/')) (stripGo b s) := by
  induction s with
  | nil => intro b; cases b <;> exact List.chain'_nil
  | cons c cs ih =>
    intro b
    cases b with
    | true =>
      rw [stripGo]
      split
      · exact ih false
      · exact ih true
    | false =>
      rw [stripGo]
      split
      · exact ih true
      · next hp =>
        rw [List.chain'_cons']
        refine ⟨?_, ih false⟩
        intro y hy e
        obtain ⟨rfl, rfl⟩ := e
        have hh := stripGo_head cs hy
        apply hp
        cases cs with
        | nil => exact absurd hh (by simp)
        | cons d ds =>
          have : d = '/' := by simpa using hh
          subst this
          simp [List.isPrefixOf]

/-- The result of `RemoveComments` when every comment is closed. -/
theorem comments_closed_result (c : wstring) (h : CommentsClosed c) (fuel : Nat)
    (hfuel : c.length < fuel) : RemoveComments fuel c = some (stripComments c) :=
  RemoveCommentsLoop_closed fuel [] c hfuel h

/-- C14: on a text in which every `//` is followed by a line break, `RemoveComments`
returns, with any fuel above the length of the text, the text with every span from a
`//` through the next line break deleted and every other character kept in order;
the result contains no `//`. -/
theorem comments_removed (c : wstring) (h : CommentsClosed c) (fuel : Nat)
    (hfuel : c.length < fuel) :
    RemoveComments fuel c = some (stripComments c)
    ∧ findSubIdx ['/', '/'] (stripComments c) = none := by
  refine ⟨RemoveCommentsLoop_closed fuel [] c hfuel h, ?_⟩
  have := (chain_no_pair_iff '/' (stripComments c)).mpr (stripGo_clean c false)
  cases hf : findSubIdx ['/', '/'] (stripComments c) with
  | none => rfl
  | some k => rw [hf] at this; exact absurd this (by simp)

theorem comments_removed_witness :
    CommentsClosed "x++; // one\ny = x / 2; /// two\n/z".toList
    ∧ RemoveComments 40 "x++; // one\ny = x / 2; /// two\n/z".toList
      = some "x++; y = x / 2; /z".toList :=
  ⟨by decide, (comments_removed "x++; // one\ny = x / 2; /// two\n/z".toList (by decide) 40
    (by decide)).1⟩

/-! ## The lines are trimmed, and may be empty -/

theorem mem_splitLines (code l : wstring) (h : l ∈ splitLines code) : trim l = l := by
  obtain ⟨p, _, rfl⟩ := List.mem_map.mp h
  exact trim_trim p

/-- C13, as amended: whenever `GetCodeLines` returns, and it does on every text in
which each `//` is followed by a line break, every line returned is trimmed: it
neither starts nor ends with white space. A line may be empty. -/
theorem lines_are_trimmed (c : wstring) :
    (CommentsClosed c →
      ∃ L, ∀ fuel, c.length < fuel → GetCodeLines fuel c = some L)
    ∧ ∀ fuel L, GetCodeLines fuel c = some L →
        ∀ l ∈ L, trim l = l ∧ (∀ x ∈ l.head?, iswspace x = false)
          ∧ ∀ x ∈ l.getLast?, iswspace x = false := by
  constructor
  · intro h
    refine ⟨splitLines (normalizeText (stripComments c)), fun fuel hf => ?_⟩
    unfold GetCodeLines
    rw [(comments_closed_result c h fuel hf)]
    rfl
  · intro fuel L hL l hl
    unfold GetCodeLines at hL
    cases hr : RemoveComments fuel c with
    | none => rw [hr] at hL; exact absurd hL (by simp)
    | some c' =>
      rw [hr, Option.map_some', Option.some.injEq] at hL
      subst hL
      have ht := mem_splitLines _ l hl
      refine ⟨ht, ?_, ?_⟩
      · rw [← ht]; exact trim_first l
      · rw [← ht]; exact trim_last l

theorem lines_are_trimmed_witness :
    GetCodeLines 1 "  x++ ; y++;".toList = some ["x++".toList, "y++".toList, []]
    ∧ ∀ l ∈ ["x++".toList, "y++".toList, []], trim l = l :=
  ⟨by decide, fun l hl =>
    ((lines_are_trimmed "  x++ ; y++;".toList).2 1 ["x++".toList, "y++".toList, []]
      (by decide) l hl).1⟩

/-- C13 as stated fails: the text `x++;` yields the line `x++` followed by an empty
line. -/
theorem empty_line_returned :
    GetCodeLines 1 "x++;".toList = some ["x++".toList, []]
    ∧ ¬ ∀ l ∈ ["x++".toList, ([] : wstring)], l ≠ [] := by
  decide

/-! ## A comment that no line break ends -/

theorem findIdx_getElem (c : Char) (s : wstring) :
    ∀ j, findIdx c s = some j → s[j]? = some c := by
  induction s with
  | nil => intro j h; simp [findIdx] at h
  | cons x r ih =>
    intro j h
    rw [findIdx] at h
    split at h
    · next hx =>
      cases h
      simp [hx]
    · cases hk : findIdx c r with
      | none => rw [hk] at h; exact absurd h (by simp)
      | some j' =>
        rw [hk] at h
        cases h
        simpa using ih j' hk

theorem findSubIdx_of_suffix (pat t s : wstring) (hs : t <:+ s) (hp : pat <+: t) :
    (findSubIdx pat s).isSome = true := by
  obtain ⟨n, rfl⟩ : ∃ n, t = s.drop n := ⟨_, List.suffix_iff_eq_drop.mp hs⟩
  apply findSubIdx_of_drop pat s n
  have hpre : pat.isPrefixOf (s.drop n) = true := List.isPrefixOf_iff_prefix.mpr hp
  cases hd : s.drop n with
  | nil =>
    rw [hd] at hpre
    have : pat = [] := by
      cases pat with
      | nil => rfl
      | cons a b => simp [List.isPrefixOf] at hpre
    simp [findSubIdx, this]
  | cons x r =>
    rw [hd] at hpre
    simp [findSubIdx, hpre]

/-- The loop of `RemoveComments` never returns once a `//` ahead of it has no line
break behind it: the cut keeps that comment, whatever the fuel. -/
theorem RemoveCommentsLoop_open :
    ∀ (fuel : Nat) (str : wstring) (lastindex : Nat),
      (∃ t, t <:+ str.drop lastindex ∧ ['/', '/'] <+: t ∧ '\n' ∉ t) →
      RemoveCommentsLoop fuel str lastindex = none := by
  intro fuel
  induction fuel with
  | zero => intro str lastindex _; rfl
  | succ fuel ih =>
    intro str lastindex h
    obtain ⟨t, hts, htp, htn⟩ := h
    have htne : t ≠ [] := by
      intro e
      rw [e] at htp
      exact absurd (List.prefix_nil.mp htp) (by simp)
    have hlast : lastindex ≤ str.length := by
      by_contra hc
      rw [List.drop_eq_nil_of_le (by omega)] at hts
      exact htne (List.suffix_nil.mp hts)
    rw [RemoveCommentsLoop]
    cases hk : findSubIdx ['/', '/'] (str.drop lastindex) with
    | none =>
      have := findSubIdx_of_suffix _ t _ hts htp
      rw [hk] at this
      exact absurd this (by simp)
    | some k =>
      show RemoveCommentsLoop fuel _ (lastindex + k) = none
      have hkle : k ≤ (str.drop lastindex).length := findSubIdx_le _ _ k hk
      rw [List.length_drop] at hkle
      apply ih
      have hcut1 : substr str 0 ((lastindex + k : Nat) : Int) = str.take (lastindex + k) := by
        have : ¬ ((lastindex + k : Nat) : Int) < 0 := by omega
        rw [substr, if_neg this, List.drop_zero, Int.toNat_ofNat]
      have hcut2 : ∀ m, substr str m (-1) = str.drop m := fun m => by
        rw [substr, if_pos (by decide)]
      have hlen : (str.take (lastindex + k)).length = lastindex + k := by
        rw [List.length_take]; omega
      rw [hcut1, hcut2, List.drop_left' hlen]
      refine ⟨t, ?_, htp, htn⟩
      have hts' : t <:+ str := hts.trans (List.drop_suffix _ _)
      rw [wfind]
      cases hj : findIdx '\n' (str.drop (lastindex + k + 1)) with
      | none => exact hts'
      | some j =>
        show t <:+ str.drop (((lastindex + k + 1 + j : Nat) : Int) + 1).toNat
        have e : (((lastindex + k + 1 + j : Nat) : Int) + 1).toNat = lastindex + k + 1 + j + 1 := by
          omega
        rw [e]
        have hget : str[lastindex + k + 1 + j]? = some '\n' := by
          have := findIdx_getElem '\n' _ j hj
          rwa [List.getElem?_drop] at this
        obtain ⟨n, hn⟩ : ∃ n, t = str.drop n := ⟨_, List.suffix_iff_eq_drop.mp hts'⟩
        have hnlt : lastindex + k + 1 + j < n := by
          by_contra hc
          apply htn
          rw [hn]
          have : (str.drop n)[lastindex + k + 1 + j - n]? = some '\n' := by
            rw [List.getElem?_drop]
            have e2 : n + (lastindex + k + 1 + j - n) = lastindex + k + 1 + j := by omega
            rw [e2, hget]
          exact List.getElem?_mem this
        have e3 : str.drop n = (str.drop (lastindex + k + 1 + j + 1)).drop
            (n - (lastindex + k + 1 + j + 1)) := by
          rw [List.drop_drop]
          congr 1
          omega
        rw [hn, e3]
        exact List.drop_suffix _ _

/-- C19: a text whose last line holds a `//` (the comment is followed by no line
break) makes `RemoveComments`, and with it `GetCodeLines`, run for ever: no amount
of fuel yields a result. The comment is not removed up to the end of the text. -/
theorem unclosed_comment_never_returns (c : wstring) (h : ¬ CommentsClosed c) (fuel : Nat) :
    RemoveComments fuel c = none ∧ GetCodeLines fuel c = none := by
  have hr : RemoveComments fuel c = none := by
    apply RemoveCommentsLoop_open
    unfold CommentsClosed at h
    push_neg at h
    obtain ⟨t, ht, hp, hn⟩ := h
    exact ⟨t, by rw [List.drop_zero]; exact (List.mem_tails _ _).mp ht, hp, hn⟩
  refine ⟨hr, ?_⟩
  unfold GetCodeLines
  rw [hr]
  rfl

theorem unclosed_comment_never_returns_witness :
    ¬ CommentsClosed "x++; // one\ny++; // two".toList
    ∧ ∀ fuel, RemoveComments fuel "x++; // one\ny++; // two".toList = none :=
  ⟨by decide, fun fuel =>
    (unclosed_comment_never_returns "x++; // one\ny++; // two".toList (by decide) fuel).1⟩

/-! ## Case folding commutes with the normalizer -/

theorem toLower_of_upper (c : Char) (h : c.toNat ≥ 65 ∧ c.toNat ≤ 90) :
    97 ≤ c.toLower.toNat := by
  unfold Char.toLower
  simp only [h, and_self, if_true]
  obtain ⟨n, hn⟩ : ∃ n, c.toNat = n := ⟨_, rfl⟩
  rw [hn] at h ⊢
  obtain ⟨h1, h2⟩ := h
  interval_cases n <;> decide

theorem isUpper_false_of_toLower (c : Char) (h : c.toLower = c) : c.isUpper = false := by
  by_contra hu
  have hu' : c.isUpper = true := by simpa using hu
  simp only [Char.isUpper, Bool.and_eq_true, decide_eq_true_eq] at hu'
  have h1 : c.toNat ≥ 65 := hu'.1
  have h2 : c.toNat ≤ 90 := hu'.2
  have := toLower_of_upper c ⟨h1, h2⟩
  rw [h] at this
  omega

/-- A character that is no lower-case letter is the image of itself only. -/
theorem toLower_eq_iff (c x : Char) (hx : ¬ (97 ≤ x.toNat ∧ x.toNat ≤ 122))
    (hx' : x.toLower = x) : c.toLower = x ↔ c = x :=
  ⟨toLower_eq_of_not_letter c x hx, fun e => by rw [e, hx']⟩

theorem findIdx_lower (x : Char) (hx : ¬ (97 ≤ x.toNat ∧ x.toNat ≤ 122)) (hx' : x.toLower = x)
    (s : wstring) : findIdx x (makelowercase s) = findIdx x s := by
  induction s with
  | nil => rfl
  | cons c cs ih =>
    show findIdx x (c.toLower :: makelowercase cs) = _
    rw [findIdx, findIdx, ih]
    simp only [toLower_eq_iff c x hx hx']

theorem wfind_lower (x : Char) (hx : ¬ (97 ≤ x.toNat ∧ x.toNat ≤ 122)) (hx' : x.toLower = x)
    (s : wstring) (pos : Nat) : wfind (makelowercase s) x pos = wfind s x pos := by
  have e : (makelowercase s).drop pos = makelowercase (s.drop pos) := by
    simp [makelowercase, List.map_drop]
  rw [wfind, wfind, e, findIdx_lower x hx hx']

theorem substr_lower (s : wstring) (pos : Nat) (n : Int) :
    substr (makelowercase s) pos n = makelowercase (substr s pos n) := by
  unfold substr makelowercase
  split
  · rw [List.map_drop]
  · rw [List.map_take, List.map_drop]

theorem isPrefixOf_lower (pat : wstring)
    (hp : ∀ x ∈ pat, ¬ (97 ≤ x.toNat ∧ x.toNat ≤ 122) ∧ x.toLower = x) :
    ∀ s : wstring, pat.isPrefixOf (makelowercase s) = pat.isPrefixOf s := by
  induction pat with
  | nil => intro s; simp
  | cons p ps ih =>
    intro s
    cases s with
    | nil => rfl
    | cons c cs =>
      show List.isPrefixOf (p :: ps) (c.toLower :: makelowercase cs) = _
      obtain ⟨h1, h2⟩ := hp p (by simp)
      simp only [List.isPrefixOf, ih (fun x hx => hp x (by simp [hx])) cs]
      congr 1
      have := toLower_eq_iff c p h1 h2
      by_cases hc : c = p
      · subst hc; simp [h2]
      · have hc' : ¬ c.toLower = p := fun e => hc (this.mp e)
        have a1 : (p == c.toLower) = false := by
          simpa using fun e : p = c.toLower => hc' e.symm
        have a2 : (p == c) = false := by
          simpa using fun e : p = c => hc e.symm
        rw [a1, a2]

theorem findSubIdx_lower (pat : wstring)
    (hp : ∀ x ∈ pat, ¬ (97 ≤ x.toNat ∧ x.toNat ≤ 122) ∧ x.toLower = x) (s : wstring) :
    findSubIdx pat (makelowercase s) = findSubIdx pat s := by
  induction s with
  | nil => rfl
  | cons c cs ih =>
    have e := isPrefixOf_lower pat hp (c :: cs)
    show findSubIdx pat (c.toLower :: makelowercase cs) = _
    rw [findSubIdx, findSubIdx, ih]
    have e' : pat.isPrefixOf (c.toLower :: makelowercase cs) = pat.isPrefixOf (c :: cs) := e
    rw [e']

theorem RemoveCommentsLoop_lower :
    ∀ (fuel : Nat) (s : wstring) (i : Nat),
      RemoveCommentsLoop fuel (makelowercase s) i
        = (RemoveCommentsLoop fuel s i).map makelowercase := by
  intro fuel
  induction fuel with
  | zero => intro s i; rfl
  | succ fuel ih =>
    intro s i
    have e : (makelowercase s).drop i = makelowercase (s.drop i) := by
      simp [makelowercase, List.map_drop]
    rw [RemoveCommentsLoop, RemoveCommentsLoop, e,
      findSubIdx_lower _ (by intro x hx; simp at hx; subst hx; exact ⟨by decide, by decide⟩)]
    cases findSubIdx ['/', '/'] (s.drop i) with
    | none => rfl
    | some k =>
      simp only
      rw [wfind_lower '\n' (by decide) (by decide), substr_lower, substr_lower, ← ih]
      congr 1
      simp [makelowercase]

theorem replaceAll_lower (x : Char) (rep : wstring)
    (hx : ¬ (97 ≤ x.toNat ∧ x.toNat ≤ 122)) (hx' : x.toLower = x)
    (hrep : makelowercase rep = rep) (s : wstring) :
    replaceAll (makelowercase s) [x] rep = makelowercase (replaceAll s [x] rep) := by
  rw [replaceAll_single, replaceAll_single]
  induction s with
  | nil => rfl
  | cons c cs ih =>
    show List.flatMap (c.toLower :: makelowercase cs) _ = _
    rw [List.flatMap_cons, List.flatMap_cons, ih]
    have e : makelowercase ((if c = x then rep else [c]) ++ cs.flatMap fun y => if y = x then rep else [y])
        = makelowercase (if c = x then rep else [c])
          ++ makelowercase (cs.flatMap fun y => if y = x then rep else [y]) := by
      simp [makelowercase]
    rw [e]
    congr 1
    by_cases hc : c = x
    · subst hc
      rw [if_pos hx', if_pos rfl, hrep]
    · have : ¬ c.toLower = x := fun e => hc ((toLower_eq_iff c x hx hx').mp e)
      rw [if_neg this, if_neg hc]
      rfl

theorem flattenText_lower (s : wstring) :
    flattenText (makelowercase s) = makelowercase (flattenText s) := by
  unfold flattenText
  rw [replaceAll_lower '\n' [] (by decide) (by decide) rfl,
    replaceAll_lower '\r' [] (by decide) (by decide) rfl,
    replaceAll_lower '\t' [' '] (by decide) (by decide) (by decide)]

theorem braceText_lower (s : wstring) :
    (makelowercase s).flatMap braceText = makelowercase (s.flatMap braceText) := by
  rw [← replaceAll_braces, ← replaceAll_braces,
    replaceAll_lower '}' _ (by decide) (by decide) (by decide),
    replaceAll_lower '{' _ (by decide) (by decide) (by decide)]

theorem makelowercase_idem (s : wstring) : makelowercase (makelowercase s) = makelowercase s := by
  simp [makelowercase, toLower_idem]

theorem normalizeText_lower (s : wstring) :
    normalizeText (makelowercase s) = normalizeText s := by
  rw [normalizeText_eq, normalizeText_eq, flattenText_lower, braceText_lower, makelowercase_idem]

theorem mem_splitLines_text (code l : wstring) (x : Char) (hl : l ∈ splitLines code)
    (hx : x ∈ l) : x ∈ code := by
  obtain ⟨p, hp, rfl⟩ := List.mem_map.mp hl
  have := mem_intercalate_of_mem x _ p hp (mem_of_mem_trim x p hx)
  rwa [join_split] at this

/-- C15: the normalizer is insensitive to case. A text and the same text with its
letters in lower case have the same lines, and no line holds an upper-case
letter. -/
theorem normalizer_case_insensitive (fuel : Nat) (c : wstring) :
    GetCodeLines fuel (makelowercase c) = GetCodeLines fuel c
    ∧ ∀ L, GetCodeLines fuel c = some L → ∀ l ∈ L, ∀ x ∈ l, x.isUpper = false := by
  constructor
  · unfold GetCodeLines RemoveComments
    rw [RemoveCommentsLoop_lower]
    cases RemoveCommentsLoop fuel c 0 with
    | none => rfl
    | some c' =>
      show some (splitLines (normalizeText (makelowercase c'))) = _
      rw [normalizeText_lower]
      rfl
  · intro L hL l hl x hx
    unfold GetCodeLines at hL
    cases hr : RemoveComments fuel c with
    | none => rw [hr] at hL; exact absurd hL (by simp)
    | some c' =>
      rw [hr, Option.map_some', Option.some.injEq] at hL
      subst hL
      have hmem := mem_splitLines_text _ l x hl hx
      exact isUpper_false_of_toLower x ((normalizeText_normalized c').1 x hmem).2.2.2

theorem normalizer_case_insensitive_witness :
    GetCodeLines 3 "Integer X = 1; // Set\nIF (X < 2) \x7b X++;\x7d".toList
      = some ["integer x = 1".toList, "if (x < 2)".toList, ['{'], "x++".toList, ['}'], []]
    ∧ GetCodeLines 3 (makelowercase "Integer X = 1; // Set\nIF (X < 2) \x7b X++;\x7d".toList)
      = some ["integer x = 1".toList, "if (x < 2)".toList, ['{'], "x++".toList, ['}'], []] := by
  have h := (normalizer_case_insensitive 3
    "Integer X = 1; // Set\nIF (X < 2) \x7b X++;\x7d".toList).1
  have e : GetCodeLines 3 "Integer X = 1; // Set\nIF (X < 2) \x7b X++;\x7d".toList
      = some ["integer x = 1".toList, "if (x < 2)".toList, ['{'], "x++".toList, ['}'], []] := by
    decide
  exact ⟨e, h.trans e⟩

/-! ## Braces stand alone -/

theorem isStructural_of_brace (x : Char) (h : isBrace x) : isStructural x = true := by
  rcases h with rfl | rfl <;> rfl

theorem skipDepth_plain (d : Nat) (x : Char) (h : isStructural x = false) :
    skipDepth skip d x = d := by
  have h1 : x ≠ '(' := fun e => by rw [e] at h; exact absurd h (by decide)
  have h2 : x ≠ ')' := fun e => by rw [e] at h; exact absurd h (by decide)
  simp [skipDepth, skip, h1, h2]

theorem skipDepth_brace (d : Nat) (x : Char) (h : isBrace x) : skipDepth skip d x = d := by
  rcases h with rfl | rfl <;> simp [skipDepth, skip]

theorem bracesOutside_filter (s : wstring) :
    ∀ d, bracesOutside d (s.filter isStructural) ↔ bracesOutside d s := by
  induction s with
  | nil => intro d; rfl
  | cons x r ih =>
    intro d
    by_cases hx : isStructural x = true
    · rw [List.filter_cons_of_pos hx, bracesOutside, bracesOutside, ih]
    · have hx' : isStructural x = false := by simpa using hx
      have hb : ¬ isBrace x := fun e => hx (isStructural_of_brace x e)
      rw [List.filter_cons_of_neg hx, bracesOutside, skipDepth_plain d x hx', ih]
      exact ⟨fun h => ⟨fun e => absurd e hb, h⟩, fun h => h.2⟩

theorem bracesOf_filter (s : wstring) : bracesOf (s.filter isStructural) = bracesOf s := by
  unfold bracesOf
  rw [List.filter_filter]
  congr 1
  funext x
  by_cases hb : isBrace x
  · simp [hb, isStructural_of_brace x hb]
  · simp [hb]

theorem filter_squeeze (c : Char) (hc : isStructural c = false) (s : wstring) :
    (squeeze c s).filter isStructural = s.filter isStructural := by
  induction s with
  | nil => rfl
  | cons x r ih =>
    rw [squeeze_cons]
    split
    · next h =>
      have hx : ¬ isStructural x = true := by rw [h.1, hc]; simp
      rw [ih, List.filter_cons_of_neg hx]
    · by_cases hx : isStructural x = true
      · rw [List.filter_cons_of_pos hx, List.filter_cons_of_pos hx, ih]
      · rw [List.filter_cons_of_neg hx, List.filter_cons_of_neg hx, ih]

theorem isStructural_lower (x : Char) :
    isStructural x.toLower = isStructural x
    ∧ (isStructural x = true → x.toLower = x) := by
  have key : ∀ p : Char, ¬ (97 ≤ p.toNat ∧ p.toNat ≤ 122) → p.toLower = p →
      (decide (x.toLower = p) = decide (x = p)) := fun p h1 h2 => by
    simp only [toLower_eq_iff x p h1 h2]
  constructor
  · unfold isStructural
    rw [key '(' (by decide) (by decide), key ')' (by decide) (by decide),
      key '{' (by decide) (by decide), key '}' (by decide) (by decide)]
  · intro h
    simp only [isStructural, Bool.or_eq_true, decide_eq_true_eq] at h
    rcases h with ((rfl | rfl) | rfl) | rfl <;> decide

theorem filter_lower (s : wstring) :
    (makelowercase s).filter isStructural = s.filter isStructural := by
  induction s with
  | nil => rfl
  | cons x r ih =>
    show List.filter isStructural (x.toLower :: makelowercase r) = _
    obtain ⟨h1, h2⟩ := isStructural_lower x
    by_cases hx : isStructural x = true
    · rw [List.filter_cons_of_pos (by rw [h1]; exact hx), List.filter_cons_of_pos hx, ih, h2 hx]
    · rw [List.filter_cons_of_neg (by rw [h1]; exact hx), List.filter_cons_of_neg hx, ih]

theorem filter_flatMap (f : Char → wstring)
    (hf : ∀ x, (f x).filter isStructural = [x].filter isStructural) (s : wstring) :
    (s.flatMap f).filter isStructural = s.filter isStructural := by
  induction s with
  | nil => rfl
  | cons x r ih =>
    rw [List.flatMap_cons, List.filter_append, ih, hf x]
    by_cases hx : isStructural x = true
    · rw [List.filter_cons_of_pos hx, List.filter_cons_of_pos hx]; rfl
    · rw [List.filter_cons_of_neg hx, List.filter_cons_of_neg hx]; rfl

theorem filter_replaceAll (c : Char) (rep : wstring) (hc : isStructural c = false)
    (hrep : rep.filter isStructural = []) (s : wstring) :
    (replaceAll s [c] rep).filter isStructural = s.filter isStructural := by
  rw [replaceAll_single]
  apply filter_flatMap
  intro x
  by_cases hx : x = c
  · subst hx
    rw [if_pos rfl, hrep, List.filter_cons_of_neg (by rw [hc]; simp)]
    rfl
  · rw [if_neg hx]

theorem filter_braceText (x : Char) :
    (braceText x).filter isStructural = [x].filter isStructural := by
  unfold braceText
  split
  · next h => subst h; rfl
  · split
    · next h => subst h; rfl
    · rfl

/-- The rewriting of the text keeps its parentheses and braces, in their order. -/
theorem filter_normalizeText (s : wstring) :
    (normalizeText s).filter isStructural = s.filter isStructural := by
  rw [normalizeText_eq, filter_squeeze ' ' rfl, filter_squeeze ';' rfl, filter_lower,
    filter_flatMap braceText filter_braceText]
  unfold flattenText
  rw [filter_replaceAll '\t' [' '] rfl rfl, filter_replaceAll '\r' [] rfl rfl,
    filter_replaceAll '\n' [] rfl rfl]

theorem bracesOutside_append (a b : wstring) :
    ∀ d, bracesOutside d (a ++ b)
      ↔ bracesOutside d a ∧ bracesOutside (scanDepth skip d a) b := by
  induction a with
  | nil => intro d; simp [bracesOutside, scanDepth]
  | cons x r ih =>
    intro d
    rw [List.cons_append, bracesOutside, bracesOutside, scanDepth, ih, and_assoc]

/-- Behind a character that is no brace, a piece without a separator outside the
parentheses holds no brace: a brace would need the separator before it. -/
theorem piece_no_brace (r : wstring) :
    ∀ (d : Nat) (c : Char), ¬ isBrace c → topFree ';' skip d (c :: r) →
      bracesOutside d (c :: r) → List.Chain' okPair (c :: r) → ∀ b ∈ r, ¬ isBrace b := by
  induction r with
  | nil => intro d c _ _ _ _ b hb; exact absurd hb (List.not_mem_nil b)
  | cons c2 r' ih =>
    intro d c hc htop hout hch b hb
    rw [topFree] at htop
    rw [bracesOutside] at hout
    rw [List.chain'_cons] at hch
    have hc2 : ¬ isBrace c2 := by
      intro e
      have hsep : c = ';' := hch.1.1 e
      have hd : skipDepth skip d c = 0 := by
        have := hout.2
        rw [bracesOutside] at this
        exact this.1 e
      have hd' : skipDepth skip d c = d := by
        rw [hsep]; simp [skipDepth, skip]
      exact htop.1 ⟨by omega, hsep⟩
    rcases List.mem_cons.mp hb with rfl | hb'
    · exact hc2
    · exact ih _ c2 hc2 htop.2 hout.2 hch.2 b hb'

/-- A piece that starts with a brace is that brace: behind it there would be a
separator outside the parentheses. -/
theorem piece_brace_alone (c : Char) (r : wstring) (d : Nat) (hc : isBrace c)
    (htop : topFree ';' skip d (c :: r)) (hout : bracesOutside d (c :: r))
    (hch : List.Chain' okPair (c :: r)) : r = [] := by
  cases r with
  | nil => rfl
  | cons c2 r' =>
    exfalso
    rw [topFree] at htop
    rw [bracesOutside] at hout
    rw [List.chain'_cons] at hch
    have hsep : c2 = ';' := hch.1.2.1 hc
    have hd : d = 0 := hout.1 hc
    have hd' : skipDepth skip d c = 0 := by rw [skipDepth_brace d c hc, hd]
    have := htop.2
    rw [topFree] at this
    exact this.1 ⟨hd', hsep⟩

theorem piece_good (p : wstring) (d : Nat) (htop : topFree ';' skip d p)
    (hout : bracesOutside d p) (hch : List.Chain' okPair p) :
    (∃ b, isBrace b ∧ p = [b]) ∨ ∀ x ∈ p, ¬ isBrace x := by
  cases p with
  | nil => exact Or.inr fun x hx => absurd hx (List.not_mem_nil x)
  | cons c r =>
    by_cases hc : isBrace c
    · left
      exact ⟨c, hc, by rw [piece_brace_alone c r d hc htop hout hch]⟩
    · right
      intro x hx
      rcases List.mem_cons.mp hx with rfl | hx'
      · exact hc
      · exact piece_no_brace r d c hc htop hout hch x hx'

theorem pieces_good (P : List wstring) :
    Pieces ';' skip 0 P → bracesOutside 0 (List.intercalate [';'] P) →
      List.Chain' okPair (List.intercalate [';'] P) →
      ∀ p ∈ P, (∃ b, isBrace b ∧ p = [b]) ∨ ∀ x ∈ p, ¬ isBrace x := by
  induction P with
  | nil => intro h; exact absurd h (by simp [Pieces])
  | cons p Q ih =>
    cases Q with
    | nil =>
      intro hP hout hch q hq
      rw [intercalate_singleton] at hout hch
      rw [List.mem_singleton.mp hq]
      exact piece_good p 0 hP hout hch
    | cons q Q' =>
      intro hP hout hch t ht
      obtain ⟨htop, hdep, hrest⟩ := hP
      rw [intercalate_cons_cons] at hout hch
      rw [bracesOutside_append, hdep, bracesOutside] at hout
      have hs : skipDepth skip 0 ';' = 0 := by simp [skipDepth, skip]
      rw [hs] at hout
      obtain ⟨hch1, hch2, _⟩ := List.chain'_append.mp hch
      rcases List.mem_cons.mp ht with rfl | ht'
      · exact piece_good t 0 htop hout.1 hch1
      · exact ih hrest hout.2.2 hch2.tail t ht'

theorem trim_brace (b : Char) (hb : isBrace b) : trim [b] = [b] := by
  rcases hb with rfl | rfl <;> decide

theorem bracesOf_join (P : List wstring) (hne : P ≠ [])
    (h : ∀ p ∈ P, (∃ b, isBrace b ∧ p = [b]) ∨ ∀ x ∈ p, ¬ isBrace x) :
    (P.map trim).filter (fun l => decide (isBraceLine l))
      = (bracesOf (List.intercalate [';'] P)).map fun x => [x] := by
  induction P with
  | nil => exact absurd rfl hne
  | cons p Q ih =>
    have hp := h p (by simp)
    have hhead : ([trim p].filter fun l => decide (isBraceLine l))
        = (bracesOf p).map fun x => [x] := by
      rcases hp with ⟨b, hb, rfl⟩ | hp
      · rw [trim_brace b hb]
        have h1 : decide (isBraceLine [b]) = true := by
          rcases hb with rfl | rfl <;> decide
        have h2 : bracesOf [b] = [b] := by
          rcases hb with rfl | rfl <;> decide
        rw [h2, List.filter_cons]
        simp only [h1, if_true]
        rfl
      · have h1 : ¬ decide (isBraceLine (trim p)) = true := by
          intro e
          have e' : isBraceLine (trim p) := by simpa using e
          rcases e' with e' | e'
          · exact hp '{' (mem_of_mem_trim _ p (by rw [e']; simp)) (Or.inl rfl)
          · exact hp '}' (mem_of_mem_trim _ p (by rw [e']; simp)) (Or.inr rfl)
        have h2 : bracesOf p = [] := by
          unfold bracesOf
          rw [List.filter_eq_nil_iff]
          intro x hx
          simpa using hp x hx
        rw [h2, List.filter_cons]
        simp only [h1, if_false]
        rfl
    cases Q with
    | nil =>
      rw [intercalate_singleton]
      exact hhead
    | cons q Q' =>
      have e1 : bracesOf (List.intercalate [';'] (p :: q :: Q'))
          = bracesOf p ++ bracesOf (List.intercalate [';'] (q :: Q')) := by
        rw [intercalate_cons_cons]
        unfold bracesOf
        rw [List.filter_append, List.filter_cons_of_neg (by decide)]
      have e2 : (p :: q :: Q').map trim = [trim p] ++ (q :: Q').map trim := rfl
      rw [e1, e2, List.filter_append, hhead, List.map_append,
        ih (by simp) (fun t ht => h t (by simp [ht]))]

/-- C12: braces are isolated. On a text whose comments are closed and in which,
outside the comments, no brace lies inside a parenthesised group, `GetCodeLines`
returns lines of which each one that holds a brace is the one-character line of that
brace, and the brace lines are, in order and number, the braces of the text outside
its comments. -/
theorem braces_isolated (c : wstring) (h : CommentsClosed c)
    (hout : bracesOutside 0 (stripComments c)) (fuel : Nat) (hfuel : c.length < fuel) :
    ∃ L, GetCodeLines fuel c = some L
      ∧ (∀ l ∈ L, (∃ x ∈ l, isBrace x) → isBraceLine l)
      ∧ L.filter (fun l => decide (isBraceLine l))
          = (bracesOf (stripComments c)).map fun x => [x] := by
  refine ⟨splitLines (normalizeText (stripComments c)), ?_, ?_, ?_⟩
  · unfold GetCodeLines
    rw [comments_closed_result c h fuel hfuel]
    rfl
  all_goals
    have hP := Pieces_split ';' skip (normalizeText (stripComments c)) 0
    have hj := join_split ';' skip (normalizeText (stripComments c)) 0
    have hch : List.Chain' okPair (normalizeText (stripComments c)) := by
      have := (normalizeText_normalized (stripComments c)).2
      exact (List.chain'_cons'.mp (List.chain'_append.mp this).1).2
    have hbo : bracesOutside 0 (normalizeText (stripComments c)) := by
      rw [← bracesOutside_filter, filter_normalizeText, bracesOutside_filter]
      exact hout
    have hgood := pieces_good _ hP (by rw [hj]; exact hbo) (by rw [hj]; exact hch)
  · intro l hl hx
    obtain ⟨p, hp, rfl⟩ := List.mem_map.mp hl
    rcases hgood p hp with ⟨b, hb, rfl⟩ | hno
    · rw [trim_brace b hb]
      rcases hb with rfl | rfl
      · exact Or.inl rfl
      · exact Or.inr rfl
    · obtain ⟨x, hx1, hx2⟩ := hx
      exact absurd hx2 (hno x (mem_of_mem_trim x p hx1))
  · unfold splitLines
    rw [bracesOf_join _ (split_string_skip_ne_nil _ _ _ _) hgood, hj,
      ← bracesOf_filter, filter_normalizeText, bracesOf_filter]

theorem braces_isolated_witness :
    CommentsClosed ("if (a < b) ".toList ++ '{' :: " // then \x7d\n f(1; 2); ".toList
        ++ '}' :: " else ".toList ++ '{' :: "b++;".toList ++ ['}'])
    ∧ ∃ L, GetCodeLines 60 ("if (a < b) ".toList ++ '{' :: " // then \x7d\n f(1; 2); ".toList
        ++ '}' :: " else ".toList ++ '{' :: "b++;".toList ++ ['}']) = some L
      ∧ (∀ l ∈ L, (∃ x ∈ l, isBrace x) → isBraceLine l)
      ∧ L.filter (fun l => decide (isBraceLine l)) = [['{'], ['}'], ['{'], ['}']] :=
  ⟨by decide,
    braces_isolated ("if (a < b) ".toList ++ '{' :: " // then \x7d\n f(1; 2); ".toList
        ++ '}' :: " else ".toList ++ '{' :: "b++;".toList ++ ['}'])
      (by decide) (by decide) 60 (by decide)⟩

/-! ## The `const` qualifier -/

section Qualifier

variable {Calc : Type}

theorem compileLine_scalars (env : Env Calc)
    (rec : List wstring → area Calc → Outcome (area Calc))
    (lines : List wstring) (cur : area Calc) (i : Nat) (line : wstring) (t : types)
    (hlen : line.length > 2) (hdecl : declaredType env line = some t)
    (hnext : lines[i + 1]? ≠ some ['{']) :
    ∃ nameindex, compileLine env rec lines cur i line
      = compileScalars env cur i line t nameindex := by
  unfold declaredType at hdecl
  unfold compileLine
  cases h0 : (split_string ' ' line)[0]? with
  | none => rw [h0] at hdecl; cases hdecl
  | some word0 =>
    rw [h0] at hdecl
    simp only at hdecl
    cases h1 : (split_string ' ' line)[if substrcomp word0 kwConst then 1 else 0]? with
    | none => rw [h1] at hdecl; cases hdecl
    | some typeword =>
      rw [h1] at hdecl
      simp only at hdecl
      refine ⟨if substrcomp word0 kwConst then
          wfind line ' ' (wfind line ' ' 0 + 1).toNat else wfind line ' ' 0, ?_⟩
      simp only [hlen, if_true, index, h0, h1, Outcome.bind_ret, hdecl, hnext, if_false]

theorem declareNames_mutable (env : Env Calc) (t : types) (names : List wstring) :
    ∀ cur : area Calc, ∀ v ∈ (declareNames env t cur names).vars,
      v ∈ cur.vars ∨ v.modifyable = true := by
  induction names with
  | nil => intro cur v hv; exact Or.inl hv
  | cons n names ih =>
    intro cur v hv
    have step : ∀ (w : Variable) (cur1 : area Calc), w.modifyable = true →
        cur1.vars = cur.vars ++ [w] →
        v ∈ (declareNames env t cur1 names).vars → v ∈ cur.vars ∨ v.modifyable = true := by
      intro w cur1 hw he hv1
      rcases ih cur1 v hv1 with h | h
      · rw [he] at h
        rcases List.mem_append.mp h with h | h
        · exact Or.inl h
        · rw [List.mem_singleton.mp h]; exact Or.inr hw
      · exact Or.inr h
    rw [declareNames] at hv
    simp only at hv
    split at hv
    · split at hv
      · split at hv
        · exact step _ _ rfl rfl hv
        · exact step _ _ rfl rfl hv
      · exact step _ _ rfl rfl hv
    · exact ih cur v hv

/-- C16: the qualifier `const` does not reach the variables. Whatever scalar
declaration line is compiled, with or without `const`, every variable that it adds
to the scope is modifiable: the declaration passes `true` for the flag without
looking at the qualifier. -/
theorem const_declaration_stays_mutable (env : Env Calc)
    (rec : List wstring → area Calc → Outcome (area Calc))
    (lines : List wstring) (cur : area Calc) (i : Nat) (line : wstring) (t : types)
    (hlen : line.length > 2) (hdecl : declaredType env line = some t)
    (hnext : lines[i + 1]? ≠ some ['{']) (r : area Calc × Int)
    (h : (compileLine env rec lines cur i line).value = .ok r) :
    ∀ v ∈ r.1.vars, v ∈ cur.vars ∨ v.modifyable = true := by
  obtain ⟨nameindex, e⟩ := compileLine_scalars env rec lines cur i line t hlen hdecl hnext
  rw [e] at h
  unfold compileScalars at h
  split at h
  · cases h
  · cases h
    exact declareNames_mutable env t _ cur

end Qualifier

theorem const_declaration_stays_mutable_witness :
    (compileLine demoEnv (recCompile demoEnv 1) ["const integer x = 5, y".toList]
        (area.fresh none) 0 "const integer x = 5, y".toList).value
      = .ok ({ Parent := none
               vars := [ { type := some types.tint, modifyable := true, name := "x".toList
                           var := storage.scalar },
                         { type := some types.tint, modifyable := true, name := "y".toList
                           var := storage.scalar } ]
               functions := []
               actions := [action.calculation "x = 5".toList] }, 0)
    ∧ ∀ v ∈ [ ({ type := some types.tint, modifyable := true, name := "x".toList
                 var := storage.scalar } : Variable),
              { type := some types.tint, modifyable := true, name := "y".toList
                var := storage.scalar } ],
        v ∈ ([] : List Variable) ∨ v.modifyable = true :=
  ⟨rfl,
    const_declaration_stays_mutable demoEnv (recCompile demoEnv 1)
      ["const integer x = 5, y".toList] (area.fresh none) 0 "const integer x = 5, y".toList
      types.tint (by decide) (by decide) (by decide) _ rfl⟩

/-! ## General statements -/

section Statements

variable {Calc : Type}

theorem compileLine_statement (env : Env Calc)
    (rec : List wstring → area Calc → Outcome (area Calc))
    (lines : List wstring) (cur : area Calc) (i : Nat) (line w : wstring)
    (hlen : line.length > 2) (hw : typeWord line = some w) (hty : env.GetType w = none)
    (hfor : substrcomp line kwFor = false) (hif : substrcomp line kwIf = false) :
    compileLine env rec lines cur i line = compileStatement env cur i line := by
  unfold typeWord at hw
  unfold compileLine
  cases h0 : (split_string ' ' line)[0]? with
  | none => rw [h0] at hw; cases hw
  | some word0 =>
    rw [h0] at hw
    simp only at hw
    simp only [hlen, if_true, index, h0, hw, Outcome.bind_ret, hty, hfor, hif]
    rfl

/-- C17: a general statement for which the sub-evaluator produces nothing. The
pointer that `GetCalculation` returns is pushed as it is: with a calculation the
action sequence grows by that calculation, and with the null result it grows by a
null entry. No diagnostic is reported either way. -/
theorem null_result_is_appended (env : Env Calc)
    (rec : List wstring → area Calc → Outcome (area Calc))
    (lines : List wstring) (cur : area Calc) (i : Nat) (line w : wstring)
    (hlen : line.length > 2) (hw : typeWord line = some w) (hty : env.GetType w = none)
    (hfor : substrcomp line kwFor = false) (hif : substrcomp line kwIf = false) :
    (∀ c, env.GetCalculation cur line false = some c →
      compileLine env rec lines cur i line
        = ⟨[], .ok ({ cur with actions := cur.actions ++ [action.calculation c] }, (i : Int))⟩)
    ∧ (env.GetCalculation cur line false = none →
      compileLine env rec lines cur i line
        = ⟨[], .ok ({ cur with actions := cur.actions ++ [action.null] }, (i : Int))⟩) := by
  rw [compileLine_statement env rec lines cur i line w hlen hw hty hfor hif]
  unfold compileStatement
  constructor
  · intro c hc
    rw [hc]
    rfl
  · intro hc
    rw [hc]
    rfl

end Statements

theorem null_result_is_appended_witness :
    silentEnv.GetCalculation (area.fresh none) "nop()".toList false = none
    ∧ compileLine silentEnv (recCompile silentEnv 1) ["nop()".toList] (area.fresh none) 0
        "nop()".toList
      = ⟨[], .ok ({ Parent := none, vars := [], functions := []
                    actions := [action.null] }, 0)⟩ :=
  ⟨rfl,
    (null_result_is_appended silentEnv (recCompile silentEnv 1) ["nop()".toList]
      (area.fresh none) 0 "nop()".toList "nop()".toList (by decide) (by decide) (by decide)
      (by decide) (by decide)).2 rfl⟩

/-! ## An `if` without `else` -/

section IfAlone

variable {Calc : Type}

/-- The scope in which the blocks of an `if` are compiled: the current scope with
the check of the condition, when the sub-evaluator gives one. -/
theorem compileIf_block (env : Env Calc)
    (rec : List wstring → area Calc → Outcome (area Calc))
    (pre S post : List wstring) (cur : area Calc) (pad : Nat) (cond : wstring)
    (h1 : Balanced skip cond) (hS : Balanced braces S) :
    compileIf env rec (pre ++ ifHeader pad cond :: ['{'] :: S ++ ['}'] :: post)
        cur pre.length (ifHeader pad cond)
      = (rec S (match env.GetCalculation cur cond true with
                | some check => cur.pushAction (action.calculation check)
                | none => cur)).bind fun truea =>
        (index (pre ++ ifHeader pad cond :: ['{'] :: S ++ ['}'] :: post)
          (pre.length + 2 + S.length + 1)).bind fun next =>
        if substrcomp next kwElse then
          (lineRange (pre ++ ifHeader pad cond :: ['{'] :: S ++ ['}'] :: post)
            (pre.length + 2 + S.length + 3)
            (FindLine (pre ++ ifHeader pad cond :: ['{'] :: S ++ ['}'] :: post)
              (pre.length + 2 + S.length + 3) ['}'] braces)).bind fun falselines =>
          (rec falselines (match env.GetCalculation cur cond true with
                | some check => cur.pushAction (action.calculation check)
                | none => cur)).bind fun falsea =>
          Outcome.ret
            ((match env.GetCalculation cur cond true with
                | some check => cur.pushAction (action.calculation check)
                | none => cur).pushAction (action.ifstatement truea.actions falsea.actions),
              FindLine (pre ++ ifHeader pad cond :: ['{'] :: S ++ ['}'] :: post)
                (pre.length + 2 + S.length + 3) ['}'] braces)
        else
          Outcome.ret
            ((match env.GetCalculation cur cond true with
                | some check => cur.pushAction (action.calculation check)
                | none => cur).pushAction (action.ifstatement truea.actions []),
              ((pre.length + 2 + S.length : Nat) : Int)) := by
  have el1 : pre ++ ifHeader pad cond :: ['{'] :: S ++ ['}'] :: post
      = (pre ++ [ifHeader pad cond, ['{']]) ++ S ++ ['}'] :: post := by simp
  have hA1 : pre.length + 1 + 1 = (pre ++ [ifHeader pad cond, ['{']]).length := by simp
  have hfind1 := FindLine_at _ S post _ hA1 hS
  have hrange1 := lineRange_at _ S (['}'] :: post) _ hA1
  have hj : pre.length + 1 + 1 + S.length = pre.length + 2 + S.length := by omega
  rw [hj, ← el1] at hfind1 hrange1
  have hopen : (wfind (ifHeader pad cond) '(' 0 + 1).toNat = 2 + pad + 1 := by
    rw [ifHeader_open]; omega
  have eh : ifHeader pad cond = (kwIf ++ spaces pad ++ ['(']) ++ cond ++ ')' :: [] := by
    simp [ifHeader]
  have hl : 2 + pad + 1 = (kwIf ++ spaces pad ++ ['(']).length := by
    simp [kwIf, spaces]
    omega
  have hclose : Find (ifHeader pad cond) (2 + pad + 1) ')' skip
      = ((2 + pad + 1 + cond.length : Nat) : Int) := by
    rw [eh, hl]
    exact Find_group _ _ [] h1
  have hbetween : substr (ifHeader pad cond) (2 + pad + 1)
      (((2 + pad + 1 + cond.length : Nat) : Int) - ((2 + pad + 1 : Nat) : Int)) = cond := by
    rw [eh]
    exact substr_mid' _ _ _ _ _ hl (by push_cast; omega)
  have hn1 : (((pre.length + 2 + S.length : Nat) : Int) + 1).toNat
      = pre.length + 2 + S.length + 1 := by omega
  have hn2 : (((pre.length + 2 + S.length : Nat) : Int) + 2).toNat + 1
      = pre.length + 2 + S.length + 3 := by omega
  unfold compileIf
  simp only [hopen, hclose, hbetween, hfind1, hrange1, hn1, hn2, Outcome.bind_ret]

theorem block_last_length (pre S : List wstring) (x : wstring) :
    (pre ++ x :: ['{'] :: S ++ [['}']])[pre.length + 2 + S.length + 1]? = none := by
  apply List.getElem?_eq_none
  simp
  omega

/-- An `if` without `else` that is followed by another line: the false branch is
empty and the cursor is left on the closing brace of the true block. -/
theorem if_without_else_compiled (env : Env Calc) (fuel : Nat)
    (pre S post : List wstring) (next : wstring) (cur : area Calc) (pad : Nat) (cond : wstring)
    (truea : area Calc)
    (hty : env.GetType (firstWord (ifHeader pad cond)) = none)
    (h1 : Balanced skip cond) (hS : Balanced braces S)
    (hnext : substrcomp next kwElse = false)
    (htrue : (Compile env fuel S
        (some (match env.GetCalculation cur cond true with
                | some check => cur.pushAction (action.calculation check)
                | none => cur))).value = .ok truea) :
    (compileLine env (recCompile env fuel)
        (pre ++ ifHeader pad cond :: ['{'] :: S ++ ['}'] :: next :: post)
        cur pre.length (ifHeader pad cond)).value
      = .ok ((match env.GetCalculation cur cond true with
                | some check => cur.pushAction (action.calculation check)
                | none => cur).pushAction (action.ifstatement truea.actions []),
             ((pre.length + 2 + S.length : Nat) : Int)) := by
  have hget : (pre ++ ifHeader pad cond :: ['{'] :: S ++ ['}'] :: next :: post)[
      pre.length + 2 + S.length + 1]? = some next := by
    have := getElem?_block (pre ++ ifHeader pad cond :: ['{'] :: S ++ [['}']]) next post
    have hl : (pre ++ ifHeader pad cond :: ['{'] :: S ++ [['}']]).length
        = pre.length + 2 + S.length + 1 := by
      simp; omega
    rw [hl] at this
    simpa using this
  have ht : (recCompile env fuel S (match env.GetCalculation cur cond true with
              | some check => cur.pushAction (action.calculation check)
              | none => cur)).value = .ok truea := htrue
  rw [compileLine_if env _ _ cur _ pad cond hty,
    compileIf_block env _ pre S (next :: post) cur pad cond h1 hS,
    Outcome.bind_value_ok _ _ truea ht]
  simp only [index, hget, Outcome.bind_ret, hnext]
  rfl

/-- C18: an `if` whose closing brace is the last line of the sequence. The look-ahead
for `else` reads the line behind that brace, an index outside the sequence: the loop
body returns no scope, and when the true block compiles, the run ends in the fault
of that read. No if-statement is produced. -/
theorem if_at_end_reads_outside (env : Env Calc) (fuel : Nat)
    (pre S : List wstring) (cur : area Calc) (pad : Nat) (cond : wstring)
    (hty : env.GetType (firstWord (ifHeader pad cond)) = none)
    (h1 : Balanced skip cond) (hS : Balanced braces S) :
    (pre ++ ifHeader pad cond :: ['{'] :: S ++ [['}']])[pre.length + 2 + S.length + 1]? = none
    ∧ (∀ r, (compileLine env (recCompile env fuel)
          (pre ++ ifHeader pad cond :: ['{'] :: S ++ [['}']])
          cur pre.length (ifHeader pad cond)).value ≠ .ok r)
    ∧ ∀ truea,
        (Compile env fuel S
          (some (match env.GetCalculation cur cond true with
                  | some check => cur.pushAction (action.calculation check)
                  | none => cur))).value = .ok truea →
        (compileLine env (recCompile env fuel)
          (pre ++ ifHeader pad cond :: ['{'] :: S ++ [['}']])
          cur pre.length (ifHeader pad cond)).value = .error Fault.badIndex := by
  have hnone := block_last_length pre S (ifHeader pad cond)
  have e : compileLine env (recCompile env fuel)
        (pre ++ ifHeader pad cond :: ['{'] :: S ++ [['}']]) cur pre.length (ifHeader pad cond)
      = (recCompile env fuel S (match env.GetCalculation cur cond true with
                | some check => cur.pushAction (action.calculation check)
                | none => cur)).bind fun _ => Outcome.fail Fault.badIndex := by
    rw [compileLine_if env _ _ cur _ pad cond hty,
      compileIf_block env _ pre S [] cur pad cond h1 hS]
    simp only [index, hnone, Outcome.bind_fail]
  refine ⟨hnone, ?_, ?_⟩
  · intro r
    rw [e, Outcome.bind_value]
    split
    · simp
    · simp [Outcome.fail]
  · intro truea htrue
    have ht : (recCompile env fuel S (match env.GetCalculation cur cond true with
                | some check => cur.pushAction (action.calculation check)
                | none => cur)).value = .ok truea := htrue
    rw [e, Outcome.bind_value_ok _ _ truea ht]
    rfl

end IfAlone

theorem if_at_end_reads_outside_witness :
    (Compile demoEnv 5 ["a++".toList]
        (some ((area.fresh none).pushAction (action.calculation "a < b".toList)))).value.toOption.isSome
      = true
    ∧ (compileLine demoEnv (recCompile demoEnv 5)
        ["integer f()".toList, ['{'], "if (a < b)".toList, ['{'], "a++".toList, ['}']]
        (area.fresh none) 2 "if (a < b)".toList).value = .error Fault.badIndex :=
  ⟨by decide,
    (if_at_end_reads_outside demoEnv 5 ["integer f()".toList, ['{']] ["a++".toList]
      (area.fresh none) 1 "a < b".toList (by decide) (by decide) (by decide)).2.2 _ rfl⟩

/-! ## Which lines are general statements -/

section Classification

variable {Calc : Type}

/-- C20, as amended: a line of more than two characters whose type word is no type
keyword and which does not begin with the letters `for` or `if` is a general
statement. The whole line is handed to the sub-evaluator in the current scope, what
it returns is the one action appended (no loop and no if-statement is made), and the
main loop goes on with the next line. -/
theorem general_statement_classified (env : Env Calc) (fuel : Nat)
    (lines : List wstring) (cur : area Calc) (i : Nat) (line w : wstring)
    (hi : lines[i]? = some line)
    (hlen : line.length > 2) (hw : typeWord line = some w) (hty : env.GetType w = none)
    (hfor : substrcomp line kwFor = false) (hif : substrcomp line kwIf = false) :
    compileLine env (recCompile env fuel) lines cur i line
      = Outcome.ret
          (cur.pushAction
            (match env.GetCalculation cur line false with
              | some c => action.calculation c
              | none => action.null), (i : Int))
    ∧ CompileLoop env (fuel + 1) lines cur i
      = CompileLoop env fuel lines
          (cur.pushAction
            (match env.GetCalculation cur line false with
              | some c => action.calculation c
              | none => action.null)) (i + 1) := by
  have e : compileLine env (recCompile env fuel) lines cur i line
      = Outcome.ret
          (cur.pushAction
            (match env.GetCalculation cur line false with
              | some c => action.calculation c
              | none => action.null), (i : Int)) := by
    rw [compileLine_statement env _ lines cur i line w hlen hw hty hfor hif]
    unfold compileStatement
    cases env.GetCalculation cur line false <;> rfl
  refine ⟨e, ?_⟩
  rw [CompileLoop_succ, hi]
  simp only
  rw [e, Outcome.bind_ret]
  congr 1

end Classification

theorem general_statement_classified_witness :
    compileLine demoEnv (recCompile demoEnv 1) ["x = force + 1".toList] (area.fresh none) 0
        "x = force + 1".toList
      = Outcome.ret
          ({ Parent := none, vars := [], functions := []
             actions := [action.calculation "x = force + 1".toList] }, 0) :=
  (general_statement_classified demoEnv 1 ["x = force + 1".toList] (area.fresh none) 0
    "x = force + 1".toList "x".toList (by decide) (by decide) (by decide) (by decide)
    (by decide) (by decide)).1

/-- C20 as stated fails: the first words of `force = 1`, `format(x)` and `ifx = 2` are
no keywords, yet the lines begin with the letters of `for` and `if` and are taken for
a loop and a conditional; without a block behind them the run ends in a fault where
the general statement would have been appended. The line `constant++` begins with
the letters of `const`, so its second word is looked up, and it has none. -/
theorem keyword_prefix_misclassified :
    (firstWord "force = 1".toList = "force".toList
      ∧ keywordTable "force".toList = none
      ∧ (Compile demoEnv 5 ["force = 1".toList] none).value = .error Fault.badIndex
      ∧ (compileStatement demoEnv (area.fresh none) 0 "force = 1".toList).value
          = .ok ({ Parent := none, vars := [], functions := []
                   actions := [action.calculation "force = 1".toList] }, 0))
    ∧ (Compile demoEnv 5 ["format(x)".toList] none).value = .error Fault.badIndex
    ∧ (Compile demoEnv 5 ["ifx = 2".toList] none).value = .error Fault.badIndex
    ∧ (Compile demoEnv 5 ["constant++".toList] none).value = .error Fault.badIndex := by
  refine ⟨⟨by decide, by decide, rfl, rfl⟩, rfl, rfl, rfl⟩

/-! ## The balance search inside a block -/

section Inside

variable {α : Type} [DecidableEq α]

theorem seekBalanced_lt (seek : α) (pair : α × α) (xs : List α) :
    ∀ d k, seekBalanced seek pair d xs = some k → k < xs.length := by
  induction xs with
  | nil => intro d k h; simp [seekBalanced] at h
  | cons x xs ih =>
    intro d k h
    rw [seekBalanced] at h
    split at h
    · cases h; simp
    · cases hr : seekBalanced seek pair (skipDepth pair d x) xs with
      | none => rw [hr] at h; exact absurd h (by simp)
      | some k' =>
        rw [hr] at h
        simp only [Option.map_some', Option.some.injEq] at h
        subst h
        have := ih _ _ hr
        simp only [List.length_cons]
        omega

/-- A search started one level deeper ends later. -/
theorem seekBalanced_shallower (pair : α × α) (hne : pair.1 ≠ pair.2) (xs : List α) :
    ∀ d k, seekBalanced pair.2 pair (d + 1) xs = some k →
      ∃ m, m < k ∧ seekBalanced pair.2 pair d xs = some m := by
  induction xs with
  | nil => intro d k h; simp [seekBalanced] at h
  | cons x xs ih =>
    intro d k h
    rw [seekBalanced, if_neg (fun hh => absurd hh.1 (Nat.succ_ne_zero d))] at h
    cases hr : seekBalanced pair.2 pair (skipDepth pair (d + 1) x) xs with
    | none => rw [hr] at h; exact absurd h (by simp)
    | some k' =>
      rw [hr] at h
      simp only [Option.map_some', Option.some.injEq] at h
      subst h
      by_cases hfound : d = 0 ∧ x = pair.2
      · exact ⟨0, by omega, by rw [seekBalanced, if_pos hfound]⟩
      · rw [seekBalanced, if_neg hfound]
        have key : ∃ m, m < k' ∧ seekBalanced pair.2 pair (skipDepth pair d x) xs = some m := by
          by_cases hx1 : x = pair.1
          · have e1 : skipDepth pair (d + 1) x = d + 1 + 1 := by simp [skipDepth, hx1]
            have e2 : skipDepth pair d x = d + 1 := by simp [skipDepth, hx1]
            rw [e1] at hr
            rw [e2]
            exact ih (d + 1) k' hr
          · by_cases hx2 : x = pair.2
            · have hd : d ≠ 0 := fun e => hfound ⟨e, hx2⟩
              have hne' : ¬ pair.2 = pair.1 := fun e => hne e.symm
              have e1 : skipDepth pair (d + 1) x = (d - 1) + 1 := by
                simp only [skipDepth, hx2, hne', if_false, if_true]
                omega
              have e2 : skipDepth pair d x = d - 1 := by
                simp only [skipDepth, hx2, hne', if_false, if_true]
              rw [e1] at hr
              rw [e2]
              exact ih (d - 1) k' hr
            · have e1 : skipDepth pair (d + 1) x = d + 1 := by simp [skipDepth, hx1, hx2]
              have e2 : skipDepth pair d x = d := by simp [skipDepth, hx1, hx2]
              rw [e1] at hr
              rw [e2]
              exact ih d k' hr
        obtain ⟨m, hm, hs⟩ := key
        exact ⟨m + 1, by omega, by rw [hs]; rfl⟩

theorem seekBalanced_surface (pair : α × α) (hne : pair.1 ≠ pair.2) (xs : List α) :
    ∀ d k, seekBalanced pair.2 pair (d + 1) xs = some k →
      ∃ m, m < k ∧ seekBalanced pair.2 pair 0 xs = some m := by
  intro d
  induction d with
  | zero => intro k h; exact seekBalanced_shallower pair hne xs 0 k h
  | succ d ih =>
    intro k h
    obtain ⟨m1, hm1, h1⟩ := seekBalanced_shallower pair hne xs (d + 1) k h
    obtain ⟨m, hm, h2⟩ := ih m1 h1
    exact ⟨m, by omega, h2⟩

/-- Inside the stretch that a search passes over, every opener has its closer. -/
theorem seekBalanced_inner (pair : α × α) (hne : pair.1 ≠ pair.2) (xs : List α) :
    ∀ d k, seekBalanced pair.2 pair d xs = some k →
      ∀ j, j < k → xs[j]? = some pair.1 →
        ∃ m, seekBalanced pair.2 pair 0 (xs.drop (j + 1)) = some m ∧ j + 1 + m < k := by
  induction xs with
  | nil => intro d k h; simp [seekBalanced] at h
  | cons x xs ih =>
    intro d k h j hj hx
    rw [seekBalanced] at h
    split at h
    · cases h; exact absurd hj (Nat.not_lt_zero _)
    · cases hr : seekBalanced pair.2 pair (skipDepth pair d x) xs with
      | none => rw [hr] at h; exact absurd h (by simp)
      | some k' =>
        rw [hr] at h
        simp only [Option.map_some', Option.some.injEq] at h
        subst h
        cases j with
        | zero =>
          have hx1 : x = pair.1 := by simpa using hx
          have e1 : skipDepth pair d x = d + 1 := by simp [skipDepth, hx1]
          rw [e1] at hr
          obtain ⟨m, hm, hs⟩ := seekBalanced_surface pair hne xs d k' hr
          exact ⟨m, hs, by omega⟩
        | succ j =>
          have hx' : xs[j]? = some pair.1 := by simpa using hx
          obtain ⟨m, hs, hm⟩ := ih _ k' hr j (by omega) hx'
          exact ⟨m, hs, by omega⟩

theorem seekBalanced_take (seek : α) (pair : α × α) (xs : List α) :
    ∀ d m n, seekBalanced seek pair d xs = some m → m < n →
      seekBalanced seek pair d (xs.take n) = some m := by
  induction xs with
  | nil => intro d m n h; simp [seekBalanced] at h
  | cons x xs ih =>
    intro d m n h hn
    cases n with
    | zero => exact absurd hn (Nat.not_lt_zero _)
    | succ n =>
      rw [List.take_succ_cons]
      rw [seekBalanced] at h ⊢
      split at h
      · next hf => rw [if_pos hf]; exact h
      · next hf =>
        rw [if_neg hf]
        cases hr : seekBalanced seek pair (skipDepth pair d x) xs with
        | none => rw [hr] at h; exact absurd h (by simp)
        | some k' =>
          rw [hr] at h
          simp only [Option.map_some', Option.some.injEq] at h
          subst h
          rw [ih _ k' n hr (by omega)]
          rfl

theorem seekBalanced_append (seek : α) (pair : α × α) (xs ys : List α) :
    ∀ d m, seekBalanced seek pair d xs = some m →
      seekBalanced seek pair d (xs ++ ys) = some m := by
  induction xs with
  | nil => intro d m h; simp [seekBalanced] at h
  | cons x xs ih =>
    intro d m h
    rw [List.cons_append]
    rw [seekBalanced] at h ⊢
    split at h
    · next hf => rw [if_pos hf]; exact h
    · next hf =>
      rw [if_neg hf]
      cases hr : seekBalanced seek pair (skipDepth pair d x) xs with
      | none => rw [hr] at h; exact absurd h (by simp)
      | some k' =>
        rw [hr] at h
        simp only [Option.map_some', Option.some.injEq] at h
        subst h
        rw [ih _ k' hr]
        rfl

end Inside

/-! ## The size of a block -/

theorem totalChars_nil : totalChars [] = 0 := rfl

theorem totalChars_cons (l : wstring) (ls : List wstring) :
    totalChars (l :: ls) = l.length + totalChars ls := by
  simp [totalChars]

theorem totalChars_append (a b : List wstring) :
    totalChars (a ++ b) = totalChars a + totalChars b := by
  simp [totalChars]

theorem totalChars_take_le (n : Nat) (ls : List wstring) :
    totalChars (ls.take n) ≤ totalChars ls := by
  conv_rhs => rw [← List.take_append_drop n ls]
  rw [totalChars_append]
  omega

theorem totalChars_drop_le (n : Nat) (ls : List wstring) :
    totalChars (ls.drop n) ≤ totalChars ls := by
  conv_rhs => rw [← List.take_append_drop n ls]
  rw [totalChars_append]
  omega

theorem totalChars_drop_mono (m n : Nat) (h : m ≤ n) (ls : List wstring) :
    totalChars (ls.drop n) ≤ totalChars (ls.drop m) := by
  have : ls.drop n = (ls.drop m).drop (n - m) := by
    rw [List.drop_drop]
    congr 1
    omega
  rw [this]
  exact totalChars_drop_le _ _

/-- The line at the cursor and the lines behind it are part of the sequence. -/
theorem totalChars_at (lines : List wstring) (i : Nat) (line : wstring)
    (hi : lines[i]? = some line) :
    line.length + totalChars (lines.drop (i + 1)) ≤ totalChars lines
    ∧ i < lines.length := by
  have hlt : i < lines.length := by
    by_contra hc
    rw [List.getElem?_eq_none (by omega)] at hi
    cases hi
  have hget : lines[i] = line := by
    rw [List.getElem?_eq_getElem hlt] at hi
    exact Option.some.inj hi
  refine ⟨?_, hlt⟩
  have e : lines = lines.take i ++ line :: lines.drop (i + 1) := by
    conv_lhs => rw [← List.take_append_drop i lines]
    rw [List.drop_eq_getElem_cons hlt, hget]
  conv_rhs => rw [e]
  rw [totalChars_append, totalChars_cons]
  omega

theorem split_string_size (d : Char) (s : wstring) :
    totalChars (split_string d s) + (split_string d s).length = s.length + 1 := by
  induction s with
  | nil => rfl
  | cons c cs ih =>
    rw [split_string]
    split
    · rw [totalChars_cons]
      simp only [List.length_cons, List.length_nil]
      omega
    · cases hs : split_string d cs with
      | nil => exact absurd hs (split_string_ne_nil d cs)
      | cons p ps =>
        rw [hs] at ih
        rw [totalChars_cons] at ih ⊢
        simp only [List.length_cons] at ih ⊢
        omega

theorem totalChars_mem (p : wstring) (ls : List wstring) (h : p ∈ ls) :
    p.length ≤ totalChars ls := by
  induction ls with
  | nil => exact absurd h (List.not_mem_nil p)
  | cons l r ih =>
    rw [totalChars_cons]
    rcases List.mem_cons.mp h with e | e
    · rw [e]; omega
    · have := ih e
      omega

/-- A clause of a header with three clauses is shorter than the header by the two
separators at least. -/
theorem clause_shorter (d : Char) (s z p : wstring) (k : Nat)
    (h2 : (split_string d s)[2]? = some z) (hp : (split_string d s)[k]? = some p) :
    p.length + 2 ≤ s.length := by
  have hsize := split_string_size d s
  have hlen : 2 < (split_string d s).length := by
    by_contra hc
    rw [List.getElem?_eq_none (by omega)] at h2
    cases h2
  have := totalChars_mem p _ (List.getElem?_mem hp)
  omega

theorem substr_length_le (s : wstring) (pos : Nat) (n : Int) :
    (substr s pos n).length ≤ s.length := by
  unfold substr
  split
  · rw [List.length_drop]; omega
  · rw [List.length_take, List.length_drop]; omega

/-- A range of lines cut out behind the position `s` up to the closer that the balance
search from `s` finds. -/
theorem lineRange_found (lines : List wstring) (s : Nat) (ls : List wstring)
    (h : (lineRange lines s (FindLine lines s ['}'] braces)).value = .ok ls) :
    ∃ k, seekBalanced ['}'] braces 0 (lines.drop s) = some k
      ∧ FindLine lines s ['}'] braces = ((s + k : Nat) : Int)
      ∧ ls = (lines.drop s).take k := by
  unfold FindLine at h ⊢
  cases hk : seekBalanced ['}'] braces 0 (lines.drop s) with
  | none =>
    rw [hk] at h
    simp [lineRange, Outcome.fail] at h
  | some k =>
    rw [hk] at h
    refine ⟨k, rfl, rfl, ?_⟩
    simp only [lineRange] at h
    have hn : ¬ ((s + k : Nat) : Int) < 0 := by omega
    rw [if_neg hn] at h
    simp only [Outcome.ret, Int.toNat_ofNat, Except.ok.injEq] at h
    rw [← h]
    congr 1
    omega

/-- In a block that the balance search has passed over, and in the block followed by
one more line, every `{` line that is not the last line has its `}` line. -/
theorem InnerBracesClosed_block (L : List wstring) (k : Nat)
    (h : seekBalanced ['}'] braces 0 L = some k) (ys : List wstring) (hy : ys.length ≤ 1) :
    InnerBracesClosed (L.take k ++ ys) := by
  intro j hj hopen
  have hk : k < L.length := seekBalanced_lt _ _ _ _ _ h
  have hlen : (L.take k).length = k := by rw [List.length_take]; omega
  rw [List.length_append, hlen] at hj
  have hjk : j < k := by omega
  have hopen' : L[j]? = some ['{'] := by
    rw [List.getElem?_append_left (by omega), List.getElem?_take_of_lt hjk] at hopen
    exact hopen
  obtain ⟨m, hm, hlt⟩ := seekBalanced_inner braces (by decide) L 0 k h j hjk hopen'
  have hdrop : (L.take k ++ ys).drop (j + 1)
      = (L.drop (j + 1)).take (k - (j + 1)) ++ ys := by
    rw [List.drop_append_of_le_length (by omega), List.drop_take]
  have hm' : seekBalanced ['}'] braces 0 (L.drop (j + 1)) = some m := hm
  have hfound : seekBalanced ['}'] braces 0 ((L.drop (j + 1)).take (k - (j + 1)) ++ ys)
      = some m :=
    seekBalanced_append _ _ _ _ _ _ (seekBalanced_take _ _ _ _ _ _ hm' (by omega))
  unfold FindLine
  rw [hdrop, hfound]
  simp only
  omega

theorem block_smaller (lines : List wstring) (i : Nat) (line : wstring)
    (hi : lines[i]? = some line) (hlen : 2 < line.length) (s : Nat) (hs : i + 2 ≤ s)
    (ls : List wstring)
    (h : (lineRange lines s (FindLine lines s ['}'] braces)).value = .ok ls)
    (ys : List wstring) (hy : ys = [] ∨ ∃ x, ys = [x] ∧ x.length + 2 ≤ line.length) :
    SmallerBlock lines i (ls ++ ys) := by
  obtain ⟨k, hk, _, rfl⟩ := lineRange_found lines s ls h
  have hklt : k < (lines.drop s).length := seekBalanced_lt _ _ _ _ _ hk
  rw [List.length_drop] at hklt
  obtain ⟨hat, hilt⟩ := totalChars_at lines i line hi
  have h1 := totalChars_take_le k (lines.drop s)
  have h2 := totalChars_drop_mono (i + 1) s (by omega) lines
  have hlen' : ((lines.drop s).take k).length = k := by
    rw [List.length_take, List.length_drop]; omega
  have hys : totalChars ys + 2 ≤ line.length ∧ ys.length ≤ 1 := by
    rcases hy with rfl | ⟨x, rfl, hx⟩
    · exact ⟨by rw [totalChars_nil]; omega, by simp⟩
    · exact ⟨by rw [totalChars_cons, totalChars_nil]; omega, by simp⟩
  refine ⟨?_, ?_, InnerBracesClosed_block _ k hk ys hys.2⟩
  · rw [totalChars_append]
    omega
  · unfold enoughFuel
    rw [totalChars_append, List.length_append, hlen']
    omega

theorem clause_smaller (lines : List wstring) (i : Nat) (line : wstring)
    (hi : lines[i]? = some line) (x : wstring) (hx : x.length + 2 ≤ line.length) :
    SmallerBlock lines i [x] := by
  obtain ⟨hat, hilt⟩ := totalChars_at lines i line hi
  refine ⟨?_, ?_, ?_⟩
  · rw [totalChars_cons, totalChars_nil]
    omega
  · unfold enoughFuel
    rw [totalChars_cons, totalChars_nil]
    simp only [List.length_cons, List.length_nil]
    omega
  · intro j hj
    simp only [List.length_cons, List.length_nil] at hj
    omega

/-! ## The recursive calls of the loop body -/

section Calls

variable {Calc : Type} {α β : Type}

theorem Outcome.bind_congr (x : Outcome α) (f g : α → Outcome β)
    (h : ∀ a, x.value = .ok a → f a = g a) : x.bind f = x.bind g := by
  unfold Outcome.bind
  split
  · rfl
  · next a ha => rw [h a ha]

theorem Outcome.bind_ok (x : Outcome α) (f : α → Outcome β) (r : β)
    (h : (x.bind f).value = .ok r) : ∃ a, x.value = .ok a ∧ (f a).value = .ok r := by
  rw [Outcome.bind_value] at h
  split at h
  · cases h
  · next a ha => exact ⟨a, ha, h⟩

theorem index_ok (xs : List α) (k : Nat) (x : α) (h : (index xs k).value = .ok x) :
    xs[k]? = some x := by
  unfold index at h
  split at h
  · next y hy =>
    simp only [Outcome.ret, Except.ok.injEq] at h
    rw [hy, h]
  · simp [Outcome.fail] at h

/-- The function path calls `Compile` on the body only. -/
theorem compileFunction_congr (env : Env Calc)
    (rec1 rec2 : List wstring → area Calc → Outcome (area Calc))
    (lines : List wstring) (cur : area Calc) (i : Nat) (line : wstring)
    (hi : lines[i]? = some line) (hlen : 2 < line.length)
    (h : ∀ ls p, SmallerBlock lines i ls → rec1 ls p = rec2 ls p) (a b c : Int) :
    compileFunction env rec1 lines cur i line a b c (FindLine lines (i + 1 + 1) ['}'] braces)
      = compileFunction env rec2 lines cur i line a b c
          (FindLine lines (i + 1 + 1) ['}'] braces) := by
  unfold compileFunction
  apply Outcome.bind_congr
  intro fl hfl
  have hsub := block_smaller lines i line hi hlen (i + 2) (Nat.le_refl _) fl hfl []
    (Or.inl rfl)
  rw [List.append_nil] at hsub
  rw [h fl _ hsub]

/-- The `for` path calls `Compile` on the init clause and on the body followed by the
increment clause. -/
theorem compileFor_congr (env : Env Calc)
    (rec1 rec2 : List wstring → area Calc → Outcome (area Calc))
    (lines : List wstring) (cur : area Calc) (i : Nat) (line : wstring)
    (hi : lines[i]? = some line) (hlen : 2 < line.length)
    (h : ∀ ls p, SmallerBlock lines i ls → rec1 ls p = rec2 ls p) :
    compileFor env rec1 lines cur i line = compileFor env rec2 lines cur i line := by
  unfold compileFor
  simp only
  apply Outcome.bind_congr
  intro bb hbb
  apply Outcome.bind_congr
  intro incr hincr
  apply Outcome.bind_congr
  intro init hinit
  have h2 := index_ok _ _ _ hincr
  have h0 := index_ok _ _ _ hinit
  have hsl := substr_length_le line (wfind line '(' 0 + 1).toNat
    (Find line (wfind line '(' 0 + 1).toNat ')' skip - ((wfind line '(' 0 + 1).toNat : Int))
  have hincr' : incr.length + 2 ≤ line.length := by
    have := clause_shorter ';' _ incr incr 2 h2 h2
    omega
  have hinit' : init.length + 2 ≤ line.length := by
    have := clause_shorter ';' _ incr init 0 h2 h0
    omega
  rw [h [init] cur (clause_smaller lines i line hi init hinit')]
  apply Outcome.bind_congr
  intro abegin _
  rw [h (bb ++ [incr]) _
    (block_smaller lines i line hi hlen (i + 1 + 1) (Nat.le_refl _) bb hbb [incr]
      (Or.inr ⟨incr, rfl, hincr'⟩))]

/-- The `if` path calls `Compile` on the true block and on the false block. -/
theorem compileIf_congr (env : Env Calc)
    (rec1 rec2 : List wstring → area Calc → Outcome (area Calc))
    (lines : List wstring) (cur : area Calc) (i : Nat) (line : wstring)
    (hi : lines[i]? = some line) (hlen : 2 < line.length)
    (h : ∀ ls p, SmallerBlock lines i ls → rec1 ls p = rec2 ls p) :
    compileIf env rec1 lines cur i line = compileIf env rec2 lines cur i line := by
  unfold compileIf
  simp only
  apply Outcome.bind_congr
  intro bc hbc
  have hsub1 := block_smaller lines i line hi hlen (i + 1 + 1) (Nat.le_refl _) bc hbc []
    (Or.inl rfl)
  rw [List.append_nil] at hsub1
  rw [h bc _ hsub1]
  apply Outcome.bind_congr
  intro truea _
  apply Outcome.bind_congr
  intro next _
  split
  · apply Outcome.bind_congr
    intro fbc hfbc
    obtain ⟨k, _, hk, _⟩ := lineRange_found lines (i + 1 + 1) bc hbc
    have hsub2 := block_smaller lines i line hi hlen
      ((FindLine lines (i + 1 + 1) ['}'] braces + 2).toNat + 1) (by rw [hk]; omega) fbc hfbc []
      (Or.inl rfl)
    rw [List.append_nil] at hsub2
    rw [h fbc _ hsub2]
  · rfl

/-- Every recursive call of the loop body is made on a smaller block: two functions
that agree on the smaller blocks give the same run of the body. -/
theorem compileLine_congr (env : Env Calc)
    (rec1 rec2 : List wstring → area Calc → Outcome (area Calc))
    (lines : List wstring) (cur : area Calc) (i : Nat) (line : wstring)
    (hi : lines[i]? = some line)
    (h : ∀ ls p, SmallerBlock lines i ls → rec1 ls p = rec2 ls p) :
    compileLine env rec1 lines cur i line = compileLine env rec2 lines cur i line := by
  unfold compileLine
  by_cases hlen : line.length > 2
  · simp only [hlen, if_true]
    apply Outcome.bind_congr
    intro word0 _
    apply Outcome.bind_congr
    intro typeword _
    split
    · split
      · apply Outcome.bind_congr
        intro _ _
        split
        · exact compileFunction_congr env rec1 rec2 lines cur i line hi hlen h _ _ _
        · rfl
      · rfl
    · split
      · exact compileFor_congr env rec1 rec2 lines cur i line hi hlen h
      · split
        · exact compileIf_congr env rec1 rec2 lines cur i line hi hlen h
        · rfl
  · simp only [hlen, if_false]

end Calls

/-! ## Runs that end -/

section Ending

variable {Calc : Type} {α β : Type}

theorem Outcome.Ends.bind {x : Outcome α} {f : α → Outcome β} (hx : x.Ends)
    (hf : ∀ a, x.value = .ok a → (f a).Ends) : (x.bind f).Ends := by
  unfold Outcome.Ends at hx ⊢
  rw [Outcome.bind_value]
  split
  · next e he =>
    rw [he] at hx
    intro hh
    apply hx
    have : e = Fault.outOfFuel := by injection hh
    rw [this]
  · next a ha => exact hf a ha

theorem Outcome.Ends.ret (a : α) : (Outcome.ret a).Ends := by
  simp [Outcome.Ends, Outcome.ret]

theorem Outcome.Ends.fail (e : Fault) (he : e ≠ Fault.outOfFuel) :
    (Outcome.fail e : Outcome α).Ends := by
  simpa [Outcome.Ends, Outcome.fail] using he

theorem Outcome.Ends.report (k : compilererror) (t : wstring) : (Outcome.report k t).Ends := by
  simp [Outcome.Ends, Outcome.report]

theorem index_ends (xs : List α) (k : Nat) : (index xs k).Ends := by
  unfold index
  split
  · exact Outcome.Ends.ret _
  · exact Outcome.Ends.fail _ (by decide)

theorem lineRange_ends (lines : List wstring) (first : Nat) (last : Int) :
    (lineRange lines first last).Ends := by
  unfold lineRange
  split
  · exact Outcome.Ends.fail _ (by decide)
  · exact Outcome.Ends.ret _

theorem fillArray_ends (conv : wstring → Outcome β) (hconv : ∀ v, (conv v).Ends) :
    ∀ (n : Nat) (vs : List wstring), (fillArray conv n vs).Ends := by
  intro n
  induction n with
  | zero => intro vs; rw [fillArray]; exact Outcome.Ends.ret _
  | succ n ih =>
    intro vs
    cases vs with
    | nil => rw [fillArray]; exact Outcome.Ends.fail _ (by decide)
    | cons v vs =>
      rw [fillArray]
      exact (hconv _).bind fun _ _ => (ih vs).bind fun _ _ => Outcome.Ends.ret _

theorem arrayStorage_ends (t : types) (count : Int) (vs : List wstring) :
    (arrayStorage t count vs).Ends := by
  unfold arrayStorage
  split
  · exact Outcome.Ends.fail _ (by decide)
  · cases t with
    | tbool =>
      exact (fillArray_ends _ (fun _ => Outcome.Ends.ret _) _ _).bind
        fun _ _ => Outcome.Ends.ret _
    | tint =>
      refine (fillArray_ends _ (fun v => ?_) _ _).bind fun _ _ => Outcome.Ends.ret _
      split
      · exact Outcome.Ends.ret _
      · exact Outcome.Ends.fail _ (by decide)
    | tfp =>
      exact (fillArray_ends _ (fun _ => Outcome.Ends.ret _) _ _).bind
        fun _ _ => Outcome.Ends.ret _

theorem compileArray_ends (env : Env Calc) (lines : List wstring) (cur : area Calc) (i : Nat)
    (line : wstring) (words : List wstring) (typeindex : Nat) (vartype : types) (brace2 : Int) :
    (compileArray env lines cur i line words typeindex vartype brace2).Ends := by
  unfold compileArray
  simp only
  refine (index_ends _ _).bind fun _ _ => Outcome.Ends.bind ?_ fun _ _ =>
    (index_ends _ _).bind fun _ _ => Outcome.Ends.bind ?_ fun _ _ =>
    (arrayStorage_ends _ _ _).bind fun _ _ => Outcome.Ends.ret _
  · split
    · exact Outcome.Ends.ret _
    · exact Outcome.Ends.fail _ (by decide)
  · split
    · exact Outcome.Ends.report _ _
    · exact Outcome.Ends.ret _

theorem compileFunction_ends (env : Env Calc)
    (rec : List wstring → area Calc → Outcome (area Calc))
    (hrec : ∀ ls p, (rec ls p).Ends)
    (lines : List wstring) (cur : area Calc) (i : Nat) (line : wstring) (a b c d : Int) :
    (compileFunction env rec lines cur i line a b c d).Ends := by
  unfold compileFunction
  exact (lineRange_ends _ _ _).bind fun _ _ => (hrec _ _).bind fun _ _ => Outcome.Ends.ret _

theorem compileScalars_ends (env : Env Calc) (cur : area Calc) (i : Nat) (line : wstring)
    (t : types) (nameindex : Int) : (compileScalars env cur i line t nameindex).Ends := by
  unfold compileScalars
  split
  · exact Outcome.Ends.fail _ (by decide)
  · exact Outcome.Ends.ret _

theorem compileFor_ends (env : Env Calc)
    (rec : List wstring → area Calc → Outcome (area Calc))
    (hrec : ∀ ls p, (rec ls p).Ends)
    (lines : List wstring) (cur : area Calc) (i : Nat) (line : wstring) :
    (compileFor env rec lines cur i line).Ends := by
  unfold compileFor
  simp only
  refine (lineRange_ends _ _ _).bind fun _ _ => (index_ends _ _).bind fun _ _ =>
    (index_ends _ _).bind fun _ _ => (hrec _ _).bind fun _ _ => (hrec _ _).bind
    fun _ _ => (index_ends _ _).bind fun _ _ => ?_
  split
  · exact Outcome.Ends.ret _
  · exact Outcome.Ends.ret _

theorem compileIf_ends (env : Env Calc)
    (rec : List wstring → area Calc → Outcome (area Calc))
    (hrec : ∀ ls p, (rec ls p).Ends)
    (lines : List wstring) (cur : area Calc) (i : Nat) (line : wstring) :
    (compileIf env rec lines cur i line).Ends := by
  unfold compileIf
  simp only
  refine (lineRange_ends _ _ _).bind fun _ _ => (hrec _ _).bind fun _ _ =>
    (index_ends _ _).bind fun _ _ => ?_
  split
  · exact (lineRange_ends _ _ _).bind fun _ _ => (hrec _ _).bind
      fun _ _ => Outcome.Ends.ret _
  · exact Outcome.Ends.ret _

theorem compileStatement_ends (env : Env Calc) (cur : area Calc) (i : Nat) (line : wstring) :
    (compileStatement env cur i line).Ends := by
  unfold compileStatement
  split
  · exact Outcome.Ends.ret _
  · exact Outcome.Ends.ret _

/-- The loop body ends when the recursive calls end: no fault of its own is the lack
of fuel. -/
theorem compileLine_ends (env : Env Calc)
    (rec : List wstring → area Calc → Outcome (area Calc))
    (hrec : ∀ ls p, (rec ls p).Ends)
    (lines : List wstring) (cur : area Calc) (i : Nat) (line : wstring) :
    (compileLine env rec lines cur i line).Ends := by
  unfold compileLine
  by_cases hlen : line.length > 2
  · simp only [hlen, if_true]
    refine (index_ends _ _).bind fun word0 _ => (index_ends _ _).bind fun typeword _ => ?_
    cases env.GetType typeword with
    | some vartype =>
      simp only
      by_cases hnext : lines[i + 1]? = some ['{']
      · rw [if_pos hnext]
        refine Outcome.Ends.bind ?_ fun _ _ => ?_
        · by_cases hb : FindLine lines (i + 1 + 1) ['}'] braces < 0
          · rw [if_pos hb]; exact Outcome.Ends.report _ _
          · rw [if_neg hb]; exact Outcome.Ends.ret _
        · by_cases hidx : Find line (wfind line '(' 0 + 1).toNat ')' skip ≥ 0
          · rw [if_pos hidx]
            exact compileFunction_ends env rec hrec _ _ _ _ _ _ _ _
          · rw [if_neg hidx]
            exact compileArray_ends env _ _ _ _ _ _ _ _
      · rw [if_neg hnext]
        exact compileScalars_ends env _ _ _ _ _
    | none =>
      simp only
      by_cases hfor : substrcomp line kwFor = true
      · rw [if_pos hfor]
        exact compileFor_ends env rec hrec _ _ _ _
      · rw [if_neg hfor]
        by_cases hif : substrcomp line kwIf = true
        · rw [if_pos hif]
          exact compileIf_ends env rec hrec _ _ _ _
        · rw [if_neg hif]
          exact compileStatement_ends env _ _ _
  · simp only [hlen, if_false]
    by_cases h0 : line.length ≠ 0
    · rw [if_pos h0]
      exact (Outcome.Ends.report _ _).bind fun _ _ => Outcome.Ends.ret _
    · rw [if_neg h0]
      exact Outcome.Ends.ret _

end Ending

/-! ## The cursor moves forward -/

section Cursor

variable {Calc : Type} {α : Type}

theorem FindLine_ge (lines : List wstring) (s : Nat) (seek : wstring)
    (pair : wstring × wstring) (h : 0 ≤ FindLine lines s seek pair) :
    (s : Int) ≤ FindLine lines s seek pair := by
  unfold FindLine at h ⊢
  split
  · omega
  · next hn =>
    rw [hn] at h
    simp at h

theorem lineRange_ok (lines : List wstring) (first : Nat) (last : Int) (ls : List wstring)
    (h : (lineRange lines first last).value = .ok ls) : 0 ≤ last := by
  unfold lineRange at h
  split at h
  · simp [Outcome.fail] at h
  · omega

theorem cursor_bind {x : Outcome α} {f : α → Outcome (area Calc × Int)} {i : Nat}
    (h : ∀ a, x.value = .ok a → ∀ r, (f a).value = .ok r → (i : Int) ≤ r.2) :
    ∀ r, (x.bind f).value = .ok r → (i : Int) ≤ r.2 := by
  intro r hr
  obtain ⟨a, ha, hfa⟩ := Outcome.bind_ok x f r hr
  exact h a ha r hfa

theorem cursor_ret {c : area Calc} {j : Int} {i : Nat} (h : (i : Int) ≤ j) :
    ∀ r, (Outcome.ret (c, j)).value = .ok r → (i : Int) ≤ r.2 := by
  intro r hr
  simp only [Outcome.ret, Except.ok.injEq] at hr
  rw [← hr]
  exact h

theorem compileFunction_cursor (env : Env Calc)
    (rec : List wstring → area Calc → Outcome (area Calc))
    (lines : List wstring) (cur : area Calc) (i : Nat) (line : wstring) (a b c : Int) :
    ∀ r, (compileFunction env rec lines cur i line a b c
        (FindLine lines (i + 1 + 1) ['}'] braces)).value = .ok r → (i : Int) ≤ r.2 := by
  unfold compileFunction
  refine cursor_bind fun fl hfl => cursor_bind fun _ _ => cursor_ret ?_
  have := FindLine_ge _ _ _ _ (lineRange_ok _ _ _ _ hfl)
  omega

theorem compileArray_cursor (env : Env Calc) (lines : List wstring) (cur : area Calc)
    (i : Nat) (line : wstring) (words : List wstring) (typeindex : Nat) (vartype : types)
    (hbc : InnerBracesClosed lines) (hnext : lines[i + 1]? = some ['{']) :
    ∀ r, (compileArray env lines cur i line words typeindex vartype
        (FindLine lines (i + 1 + 1) ['}'] braces)).value = .ok r → (i : Int) ≤ r.2 := by
  unfold compileArray
  simp only
  refine cursor_bind fun _ _ => cursor_bind fun _ _ => cursor_bind fun values hv =>
    cursor_bind fun _ _ => cursor_bind fun _ _ => cursor_ret ?_
  have hget := index_ok _ _ _ hv
  have hlt : i + 2 < lines.length := by
    by_contra hc
    rw [List.getElem?_eq_none (by omega)] at hget
    cases hget
  have := FindLine_ge _ _ _ _ (hbc (i + 1) (by omega) hnext)
  omega

theorem compileFor_cursor (env : Env Calc)
    (rec : List wstring → area Calc → Outcome (area Calc))
    (lines : List wstring) (cur : area Calc) (i : Nat) (line : wstring) :
    ∀ r, (compileFor env rec lines cur i line).value = .ok r → (i : Int) ≤ r.2 := by
  unfold compileFor
  simp only
  refine cursor_bind fun bb hbb => cursor_bind fun _ _ => cursor_bind fun _ _ =>
    cursor_bind fun _ _ => cursor_bind fun _ _ => cursor_bind fun _ _ => ?_
  have := FindLine_ge _ _ _ _ (lineRange_ok _ _ _ _ hbb)
  split
  · exact cursor_ret (by omega)
  · exact cursor_ret (by omega)

theorem compileIf_cursor (env : Env Calc)
    (rec : List wstring → area Calc → Outcome (area Calc))
    (lines : List wstring) (cur : area Calc) (i : Nat) (line : wstring) :
    ∀ r, (compileIf env rec lines cur i line).value = .ok r → (i : Int) ≤ r.2 := by
  unfold compileIf
  simp only
  refine cursor_bind fun bc hbc => cursor_bind fun _ _ => cursor_bind fun _ _ => ?_
  have h1 := FindLine_ge _ _ _ _ (lineRange_ok _ _ _ _ hbc)
  split
  · refine cursor_bind fun fbc hfbc => cursor_bind fun _ _ => cursor_ret ?_
    have h2 := FindLine_ge _ _ _ _ (lineRange_ok _ _ _ _ hfbc)
    omega
  · exact cursor_ret (by omega)

theorem compileScalars_cursor (env : Env Calc) (cur : area Calc) (i : Nat) (line : wstring)
    (t : types) (nameindex : Int) :
    ∀ r, (compileScalars env cur i line t nameindex).value = .ok r → (i : Int) ≤ r.2 := by
  unfold compileScalars
  split
  · intro r hr
    simp [Outcome.fail] at hr
  · exact cursor_ret (Int.le_refl _)

/-- A run of the loop body that returns leaves the cursor at or behind the line it
was on, so that the increment of the loop moves it strictly forward. -/
theorem compileLine_cursor (env : Env Calc)
    (rec : List wstring → area Calc → Outcome (area Calc))
    (lines : List wstring) (cur : area Calc) (i : Nat) (line : wstring)
    (hbc : InnerBracesClosed lines) :
    ∀ r, (compileLine env rec lines cur i line).value = .ok r → (i : Int) ≤ r.2 := by
  unfold compileLine
  by_cases hlen : line.length > 2
  · simp only [hlen, if_true]
    refine cursor_bind fun word0 _ => cursor_bind fun typeword _ => ?_
    cases env.GetType typeword with
    | some vartype =>
      simp only
      by_cases hnext : lines[i + 1]? = some ['{']
      · rw [if_pos hnext]
        refine cursor_bind fun _ _ => ?_
        by_cases hidx : Find line (wfind line '(' 0 + 1).toNat ')' skip ≥ 0
        · rw [if_pos hidx]
          exact compileFunction_cursor env rec lines cur i line _ _ _
        · rw [if_neg hidx]
          exact compileArray_cursor env lines cur i line _ _ _ hbc hnext
      · rw [if_neg hnext]
        exact compileScalars_cursor env cur i line _ _
    | none =>
      simp only
      by_cases hfor : substrcomp line kwFor = true
      · rw [if_pos hfor]
        exact compileFor_cursor env rec lines cur i line
      · rw [if_neg hfor]
        by_cases hif : substrcomp line kwIf = true
        · rw [if_pos hif]
          exact compileIf_cursor env rec lines cur i line
        · rw [if_neg hif]
          unfold compileStatement
          split
          · exact cursor_ret (Int.le_refl _)
          · exact cursor_ret (Int.le_refl _)
  · simp only [hlen, if_false]
    by_cases h0 : line.length ≠ 0
    · rw [if_pos h0]
      exact cursor_bind fun _ _ => cursor_ret (Int.le_refl _)
    · rw [if_neg h0]
      exact cursor_ret (Int.le_refl _)

end Cursor

end Compiler

namespace SimplexNoise

/-! ## The table is a permutation -/

theorem fillTable_eq (n : Nat) (h : n ≤ 256) : fillTable n = List.range n := by
  unfold fillTable
  conv_rhs => rw [← List.map_id (List.range n)]
  apply List.map_congr_left
  intro i hi
  have : i < n := List.mem_range.mp hi
  unfold toUInt8
  simp only [id]
  omega

/-- Two entries of a list that change places leave a permutation of the list. -/
theorem swap_perm (l : List Nat) (i j : Nat) (hi : i < l.length) (hj : j < l.length) :
    ((l.set i (l.getD j 0)).set j (l.getD i 0)).Perm l := by
  rw [List.perm_iff_count]
  intro b
  rw [List.getD_eq_getElem _ _ hi, List.getD_eq_getElem _ _ hj]
  rw [List.count_set _ _ _ _ (by rw [List.length_set]; exact hj),
    List.count_set _ _ _ _ hi]
  have h1 : (if (l[i] == b) = true then 1 else 0) ≤ l.count b := by
    split
    · next h =>
      have : l[i] = b := by simpa using h
      rw [← this]
      exact List.count_pos_iff.mpr (List.getElem_mem _)
    · exact Nat.zero_le _
  by_cases hij : i = j
  · subst hij
    simp only [List.getElem_set_self]
    omega
  · rw [List.getElem_set_ne hij]
    omega

theorem shuffleLoop_perm (rand : Nat → Nat) :
    ∀ (i k : Nat) (perm : List Nat), i < perm.length →
      (shuffleLoop rand i k perm).Perm perm := by
  intro i
  induction i with
  | zero => intro k perm _; exact List.Perm.refl _
  | succ i ih =>
    intro k perm hi
    rw [shuffleLoop]
    have hidx : rand k % (i + 1 + 1) < perm.length := by
      have := Nat.mod_lt (rand k) (show 0 < i + 1 + 1 by omega)
      omega
    have hsw := swap_perm perm (i + 1) (rand k % (i + 1 + 1)) hi hidx
    refine (ih (k + 1) _ ?_).trans hsw
    rw [List.length_set, List.length_set]
    omega

/-- C23: for every sequence of values of `rand()`, the table `perm` that the
constructor leaves is a permutation of `0..255`: it has 256 entries, every value
below 256 occurs in it exactly once, and `hash` yields, for every integer, an entry
of the table, a value below 256. -/
theorem perm_is_permutation (rand : Nat → Nat) :
    (SimplexNoise rand).Perm (List.range 256)
    ∧ (SimplexNoise rand).length = 256
    ∧ (∀ v, v < 256 → (SimplexNoise rand).count v = 1)
    ∧ ∀ i : Int, ∃ v, hash (SimplexNoise rand) i = some v ∧ v < 256 := by
  have hp : (SimplexNoise rand).Perm (List.range 256) := by
    have hlen : 255 < (fillTable 256).length := by
      rw [fillTable, List.length_map, List.length_range]
      omega
    have h1 := shuffleLoop_perm rand 255 0 (fillTable 256) hlen
    have h3 : SimplexNoise rand = shuffleLoop rand 255 0 (fillTable 256) := rfl
    rw [h3]
    rw [fillTable_eq 256 (Nat.le_refl _)] at h1 ⊢
    exact h1
  have hl : (SimplexNoise rand).length = 256 := by
    rw [hp.length_eq, List.length_range]
  refine ⟨hp, hl, ?_, ?_⟩
  · intro v hv
    rw [hp.count_eq]
    exact List.count_eq_one_of_mem (List.nodup_range 256) (List.mem_range.mpr hv)
  · intro i
    have hlt : toUInt8 i < (SimplexNoise rand).length := by
      rw [hl]
      unfold toUInt8
      omega
    refine ⟨(SimplexNoise rand)[toUInt8 i], ?_, ?_⟩
    · unfold hash
      exact List.getElem?_eq_getElem hlt
    · have hm : (SimplexNoise rand)[toUInt8 i] ∈ List.range 256 :=
        hp.subset (List.getElem_mem _)
      exact List.mem_range.mp hm

theorem perm_is_permutation_witness :
    (SimplexNoise fun k => 7 * k + 3).count 200 = 1
    ∧ ∃ v, hash (SimplexNoise fun k => 7 * k + 3) (-1) = some v ∧ v < 256 :=
  ⟨(perm_is_permutation fun k => 7 * k + 3).2.2.1 200 (by decide),
    (perm_is_permutation fun k => 7 * k + 3).2.2.2 (-1)⟩

end SimplexNoise

namespace Compiler

/-! ## Termination of the scope builder -/

section Termination

variable {Calc : Type}

theorem BracesClosed.inner {lines : List wstring} (h : BracesClosed lines) :
    InnerBracesClosed lines :=
  fun j hj hopen => h j (by omega) hopen

/-- With the fuel that the lines behind the cursor and the characters of the sequence
call for, the main loop ends, and one more unit of fuel does not change its run. -/
theorem CompileLoop_enough (env : Env Calc) :
    ∀ (fuel : Nat) (lines : List wstring) (cur : area Calc) (i : Nat),
      InnerBracesClosed lines → totalChars lines + (lines.length - i) + 1 ≤ fuel →
      (CompileLoop env fuel lines cur i).Ends
      ∧ CompileLoop env (fuel + 1) lines cur i = CompileLoop env fuel lines cur i := by
  intro fuel
  induction fuel with
  | zero => intro lines cur i _ h; omega
  | succ fuel ih =>
    intro lines cur i hbc hfuel
    rw [CompileLoop_succ env (fuel + 1), CompileLoop_succ env fuel]
    cases hline : lines[i]? with
    | none => exact ⟨Outcome.Ends.ret _, rfl⟩
    | some line =>
      simp only
      obtain ⟨_, hilt⟩ := totalChars_at lines i line hline
      have hsmall : ∀ ls (p : area Calc), SmallerBlock lines i ls →
          (recCompile env fuel ls p).Ends
          ∧ recCompile env (fuel + 1) ls p = recCompile env fuel ls p := by
        intro ls p hsub
        have hb : totalChars ls + (ls.length - 0) + 1 ≤ fuel := by
          have := hsub.2.1
          unfold enoughFuel at this
          omega
        exact ih ls (area.fresh (some p)) 0 hsub.2.2 hb
      have hsame : compileLine env (recCompile env (fuel + 1)) lines cur i line
          = compileLine env (recCompile env fuel) lines cur i line :=
        compileLine_congr env _ _ lines cur i line hline fun ls p hsub => (hsmall ls p hsub).2
      have hends : (compileLine env (recCompile env fuel) lines cur i line).Ends := by
        classical
        have hguard : compileLine env (recCompile env fuel) lines cur i line
            = compileLine env
                (fun ls p => if SmallerBlock lines i ls then recCompile env fuel ls p
                  else Outcome.fail Fault.badIndex) lines cur i line :=
          compileLine_congr env _ _ lines cur i line hline fun ls p hsub => by
            simp only [hsub, if_true]
        rw [hguard]
        apply compileLine_ends
        intro ls p
        by_cases hsub : SmallerBlock lines i ls
        · simp only [hsub, if_true]
          exact (hsmall ls p hsub).1
        · simp only [hsub, if_false]
          exact Outcome.Ends.fail _ (by decide)
      have hnext : ∀ r, (compileLine env (recCompile env fuel) lines cur i line).value = .ok r →
          (CompileLoop env fuel lines r.1 (r.2 + 1).toNat).Ends
          ∧ CompileLoop env (fuel + 1) lines r.1 (r.2 + 1).toNat
              = CompileLoop env fuel lines r.1 (r.2 + 1).toNat := by
        intro r hr
        have hc := compileLine_cursor env _ lines cur i line hbc r hr
        exact ih lines r.1 (r.2 + 1).toNat hbc (by omega)
      refine ⟨hends.bind fun r hr => (hnext r hr).1, ?_⟩
      rw [hsame]
      exact Outcome.bind_congr _ _ _ fun r hr => (hnext r hr).2

theorem CompileLoop_fuel (env : Env Calc) (lines : List wstring) (cur : area Calc) (i : Nat)
    (hbc : InnerBracesClosed lines) (base : Nat)
    (hbase : totalChars lines + (lines.length - i) + 1 ≤ base) :
    ∀ extra, CompileLoop env (base + extra) lines cur i = CompileLoop env base lines cur i := by
  intro extra
  induction extra with
  | zero => rfl
  | succ n ih =>
    rw [← ih]
    exact (CompileLoop_enough env (base + n) lines cur i hbc (by omega)).2

/-- C21: the scope builder terminates on a line sequence in which every `{` line has a
balancing `}` line. Every iteration of the main loop that returns leaves the cursor
strictly greater than it was; every recursive call is made on a line sequence with
strictly fewer characters (two functions that agree on those give the same run of the
loop body); and with the fuel `enoughFuel lines` or more the run ends, with the same
result whatever the fuel. -/
theorem compile_terminates (env : Env Calc) (lines : List wstring) (h : BracesClosed lines) :
    (∀ (rec : List wstring → area Calc → Outcome (area Calc)) (cur : area Calc) (i : Nat)
        (line : wstring) (r : area Calc × Int),
      lines[i]? = some line → (compileLine env rec lines cur i line).value = .ok r →
        i < (r.2 + 1).toNat)
    ∧ (∀ (rec1 rec2 : List wstring → area Calc → Outcome (area Calc)) (cur : area Calc)
        (i : Nat) (line : wstring),
      lines[i]? = some line →
      (∀ ls p, totalChars ls < totalChars lines → rec1 ls p = rec2 ls p) →
        compileLine env rec1 lines cur i line = compileLine env rec2 lines cur i line)
    ∧ ∀ (parent : Option (area Calc)) (fuel : Nat), enoughFuel lines ≤ fuel →
        (Compile env fuel lines parent).Ends
        ∧ Compile env fuel lines parent = Compile env (enoughFuel lines) lines parent := by
  refine ⟨?_, ?_, ?_⟩
  · intro rec cur i line r _ hr
    have := compileLine_cursor env rec lines cur i line h.inner r hr
    omega
  · intro rec1 rec2 cur i line hline hagree
    exact compileLine_congr env rec1 rec2 lines cur i line hline
      fun ls p hsub => hagree ls p hsub.1
  · intro parent fuel hfuel
    have hb : totalChars lines + (lines.length - 0) + 1 ≤ enoughFuel lines := by
      unfold enoughFuel
      omega
    obtain ⟨extra, rfl⟩ : ∃ extra, fuel = enoughFuel lines + extra := ⟨fuel - enoughFuel lines, by omega⟩
    unfold Compile
    rw [CompileLoop_fuel env lines _ 0 h.inner (enoughFuel lines) hb extra]
    exact ⟨(CompileLoop_enough env _ lines _ 0 h.inner hb).1, rfl⟩

end Termination

theorem compile_terminates_witness :
    BracesClosed demoProgram
    ∧ (Compile demoEnv (enoughFuel demoProgram) demoProgram none).Ends
    ∧ Compile demoEnv (enoughFuel demoProgram + 7) demoProgram none
        = Compile demoEnv (enoughFuel demoProgram) demoProgram none :=
  ⟨by decide,
    ((compile_terminates demoEnv demoProgram (by decide)).2.2 none (enoughFuel demoProgram)
      (Nat.le_refl _)).1,
    ((compile_terminates demoEnv demoProgram (by decide)).2.2 none (enoughFuel demoProgram + 7)
      (Nat.le_add_right _ _)).2⟩

/-! ## What a line that stands alone declares -/

section StandAlone

variable {Calc : Type}

theorem declareNames_frame (env : Env Calc) (t : types) (ds : List Declarator) :
    ∀ cur : area Calc, (∀ x ∈ ds, x.WellFormed) →
      (declareNames env t cur (ds.map Declarator.text)).vars
          = cur.vars ++ ds.map (Declarator.toVariable t)
      ∧ (declareNames env t cur (ds.map Declarator.text)).functions = cur.functions
      ∧ (declareNames env t cur (ds.map Declarator.text)).Parent = cur.Parent := by
  induction ds with
  | nil => intro cur _; simp [declareNames]
  | cons d ds ih =>
    intro cur hwf
    rw [List.map_cons, declareNames_cons env t cur d _ (hwf d (by simp))]
    have hrest : ∀ x ∈ ds, x.WellFormed := fun x hx => hwf x (by simp [hx])
    have key : ∀ c : area Calc, c.vars = cur.vars ++ [d.toVariable t] →
        c.functions = cur.functions → c.Parent = cur.Parent →
        (declareNames env t c (ds.map Declarator.text)).vars
            = cur.vars ++ (d.toVariable t :: ds.map (Declarator.toVariable t))
        ∧ (declareNames env t c (ds.map Declarator.text)).functions = cur.functions
        ∧ (declareNames env t c (ds.map Declarator.text)).Parent = cur.Parent := by
      intro c h1 h2 h3
      obtain ⟨e1, e2, e3⟩ := ih c hrest
      refine ⟨?_, by rw [e2, h2], by rw [e3, h3]⟩
      rw [e1, h1]
      simp
    cases d.init with
    | none => exact key _ rfl rfl rfl
    | some ex =>
      simp only
      cases env.GetCalculation (cur.pushVariable (d.toVariable t)) (trim d.text) false with
      | none => exact key _ rfl rfl rfl
      | some c => exact key _ rfl rfl rfl

/-- A scalar declaration line that no `{` line follows: the scope afterwards has the
variables of its declarators appended, and the same functions. -/
theorem compileLine_declaration (env : Env Calc)
    (rec : List wstring → area Calc → Outcome (area Calc))
    (lines : List wstring) (cur : area Calc) (i : Nat) (ty : wstring) (t : types)
    (d : Declarator) (ds : List Declarator)
    (hty : env.GetType ty = some t) (hne : ty ≠ []) (hconst : substrcomp ty kwConst = false)
    (hsp : ' ' ∉ ty) (hnext : lines[i + 1]? ≠ some ['{'])
    (hwf : ∀ x ∈ d :: ds, x.WellFormed) :
    ∃ r : area Calc,
      compileLine env rec lines cur i (declarationText ty (d :: ds)) = Outcome.ret (r, (i : Int))
      ∧ r.vars = cur.vars ++ (d :: ds).map (Declarator.toVariable t)
      ∧ r.functions = cur.functions ∧ r.Parent = cur.Parent := by
  have hd := hwf d (by simp)
  obtain ⟨d1, htext, hvar, hd1⟩ : ∃ d1 : Declarator,
      ' ' :: d.text = d1.text ∧ d1.toVariable t = d.toVariable t ∧ d1.WellFormed := by
    have e : ' ' :: d.text = ({ d with lead := d.lead + 1 } : Declarator).text := by
      simp [Declarator.text, spaces, List.replicate_succ]
    exact ⟨{ d with lead := d.lead + 1 }, e, rfl, hd⟩
  have hwf1 : ∀ x ∈ d1 :: ds, x.WellFormed := by
    intro x hx
    rcases List.mem_cons.mp hx with rfl | hx
    · exact hd1
    · exact hwf x (by simp [hx])
  have hline : declarationText ty (d :: ds)
      = ty ++ ' ' :: List.intercalate [','] ((d :: ds).map Declarator.text) := rfl
  obtain ⟨tail, htail⟩ := intercalate_head d.text (ds.map Declarator.text)
  obtain ⟨x, xs, hx, _⟩ := hd.1.head
  have hlen : (declarationText ty (d :: ds)).length > 2 := by
    have h1 : ty.length > 0 := List.length_pos.mpr hne
    rw [hline, List.map_cons, htail]
    simp only [Declarator.text, hx, List.length_append, List.length_cons]
    omega
  have hwords : index (split_string ' ' (declarationText ty (d :: ds))) 0 = Outcome.ret ty := by
    rw [hline, split_string_append ' ' ty _ hsp]
    simp [index]
  have hspace : wfind (declarationText ty (d :: ds)) ' ' 0 = (ty.length : Int) := by
    rw [hline]
    exact wfind_append ' ' ty _ hsp
  have hnames : split_string_skip ',' skip 0
      (substr (declarationText ty (d :: ds)) ((ty.length : Int)).toNat (-1))
      = (d1 :: ds).map Declarator.text := by
    have hs : substr (declarationText ty (d :: ds)) ((ty.length : Int)).toNat (-1)
        = ' ' :: List.intercalate [','] ((d :: ds).map Declarator.text) := by
      rw [hline]
      exact substr_tail ty _ _ _ (by simp) (by decide)
    rw [hs, List.map_cons, intercalate_cons_head, htext]
    exact split_string_skip_intercalate ',' skip _ _ (by
      intro q hq
      have : q ∈ (d1 :: ds).map Declarator.text := by simpa using hq
      obtain ⟨y, hy, rfl⟩ := List.mem_map.mp this
      exact y.text_balanced (hwf1 y hy))
  obtain ⟨h1, h2, h3⟩ := declareNames_frame env t (d1 :: ds) cur hwf1
  refine ⟨declareNames env t cur ((d1 :: ds).map Declarator.text), ?_, ?_, h2, h3⟩
  · have hnn : ¬ ((ty.length : Int) < 0) := by omega
    unfold compileLine
    simp only [hlen, if_true, hwords, Outcome.bind_ret, hconst, Bool.false_eq_true, if_false,
      hty, hnext, hspace, compileScalars, hnn, hnames]
  · rw [h1, List.map_cons, List.map_cons, hvar]

theorem compileLine_empty (env : Env Calc)
    (rec : List wstring → area Calc → Outcome (area Calc))
    (lines : List wstring) (cur : area Calc) (i : Nat) :
    compileLine env rec lines cur i [] = Outcome.ret (cur, (i : Int)) := by
  simp [compileLine]

/-- A well-formed line that stands alone and that no `{` line follows: the loop body
returns with the cursor where it was, and the scope has the variables that the line
declares appended, and the same functions. -/
theorem simple_value (env : Env Calc)
    (rec : List wstring → area Calc → Outcome (area Calc))
    (lines : List wstring) (cur : area Calc) (i : Nat) (s : Simple)
    (hwf : s.WellFormed env) (hnext : lines[i + 1]? ≠ some ['{']) :
    ∃ r : area Calc,
      (compileLine env rec lines cur i s.text).value = .ok (r, (i : Int))
      ∧ r.vars = cur.vars ++ s.vars env
      ∧ r.functions = cur.functions ∧ r.Parent = cur.Parent := by
  cases s with
  | declaration ty ds =>
    obtain ⟨hty, hne, hconst, hsp, hds, hd⟩ := hwf
    obtain ⟨t, ht⟩ := Option.isSome_iff_exists.mp hty
    cases ds with
    | nil => exact absurd rfl hds
    | cons d ds =>
      obtain ⟨r, h1, h2, h3, h4⟩ :=
        compileLine_declaration env rec lines cur i ty t d ds ht hne hconst hsp hnext hd
      refine ⟨r, ?_, ?_, h3, h4⟩
      · show (compileLine env rec lines cur i (declarationText ty (d :: ds))).value = _
        rw [h1]
        rfl
      · rw [h2]
        simp only [Simple.vars, ht]
  | statement line =>
    obtain ⟨hlen, hw, hty, hfor, hif⟩ := hwf
    obtain ⟨w, hw'⟩ := Option.isSome_iff_exists.mp hw
    have hnone := hty w (by rw [hw']; exact rfl)
    show ∃ r, (compileLine env rec lines cur i line).value = _ ∧ _
    rw [compileLine_statement env rec lines cur i line w hlen hw' hnone hfor hif]
    unfold compileStatement
    cases env.GetCalculation cur line false with
    | none => exact ⟨_, rfl, by simp [Simple.vars, area.pushAction], rfl, rfl⟩
    | some c => exact ⟨_, rfl, by simp [Simple.vars, area.pushAction], rfl, rfl⟩
  | blank line =>
    have hlen : line.length ≤ 2 := hwf
    show ∃ r, (compileLine env rec lines cur i line).value = _ ∧ _
    by_cases h0 : line.length = 0
    · have : line = [] := List.length_eq_zero.mp h0
      rw [this, compileLine_empty]
      exact ⟨cur, rfl, by simp [Simple.vars], rfl, rfl⟩
    · rw [compileLine_short env rec lines cur i line (by omega)]
      exact ⟨cur, rfl, by simp [Simple.vars], rfl, rfl⟩

/-- The compilation of a sequence of one line that stands alone, when it returns,
returns a scope with the variables that the line declares. -/
theorem single_vars (env : Env Calc) (fuel : Nat) (s : Simple) (hwf : s.WellFormed env)
    (parent : area Calc) (a : area Calc)
    (h : (recCompile env fuel [s.text] parent).value = .ok a) : a.vars = s.vars env := by
  unfold recCompile Compile at h
  cases fuel with
  | zero => simp [CompileLoop, Outcome.fail] at h
  | succ fuel =>
    rw [CompileLoop_succ] at h
    simp only [List.getElem?_cons_zero] at h
    obtain ⟨r, hr1, hr2, _, _⟩ := simple_value env (recCompile env fuel) [s.text]
      (area.fresh (some parent)) 0 s hwf (by simp)
    obtain ⟨r', hr', hloop⟩ := Outcome.bind_ok _ _ _ h
    rw [hr1] at hr'
    cases hr'
    simp only at hloop
    cases fuel with
    | zero => simp [CompileLoop, Outcome.fail] at hloop
    | succ fuel =>
      rw [CompileLoop_succ] at hloop
      simp only [Nat.cast_zero, zero_add, Int.toNat_one, List.getElem?_cons_succ,
        List.getElem?_nil, Outcome.ret, Except.ok.injEq] at hloop
      rw [← hloop, hr2]
      simp [area.fresh]

end StandAlone

/-! ## What a top-level construct leaves in the scope it stands in -/

section Frame

variable {Calc : Type}

theorem getElem?_after (pre : List wstring) (x : wstring) (post : List wstring) :
    (pre ++ x :: post)[pre.length + 1]? = post.head? := by
  rw [List.getElem?_append_right (by omega)]
  have : pre.length + 1 - pre.length = 1 := by omega
  rw [this]
  cases post <;> simp

theorem getElem?_behind (A : List wstring) (post : List wstring) (n : Nat) (hn : n = A.length) :
    (A ++ post)[n]? = post.head? := by
  subst hn
  rw [List.getElem?_append_right (Nat.le_refl _), Nat.sub_self]
  cases post <;> simp

/-- One pass of the loop body over a top-level construct, when it returns: the scope
has the variables that the construct declares appended, the names of the functions
that it defines appended, the same parent, and the cursor is on the last line of the
construct. -/
theorem item_value (env : Env Calc) (fuel : Nat) (pre post : List wstring) (cur : area Calc)
    (it : Item) (hwf : it.Shaped env)
    (hp1 : post.head? ≠ some ['{'])
    (hp2 : ∀ x, post.head? = some x → substrcomp x kwElse = false)
    (r : area Calc × Int)
    (h : (compileLine env (recCompile env fuel) (pre ++ it.lines ++ post) cur pre.length
      it.header).value = .ok r) :
    r.1.vars = cur.vars ++ it.vars env
    ∧ r.1.functions.map (fun f => f.name) = cur.functions.map (fun f => f.name) ++ it.functionNames
    ∧ r.1.Parent = cur.Parent
    ∧ (r.2 + 1).toNat = pre.length + it.lines.length := by
  cases it with
  | simple s =>
    have hl : pre ++ (Item.simple s).lines ++ post = pre ++ s.text :: post := by
      simp [Item.lines, Item.block, Item.header]
    have hh : (Item.simple s).header = s.text := rfl
    rw [hl, hh] at h
    obtain ⟨r0, h1, h2, h3, h4⟩ := simple_value env (recCompile env fuel) (pre ++ s.text :: post)
      cur pre.length s hwf (by rw [getElem?_after]; exact hp1)
    rw [h1] at h
    cases h
    refine ⟨h2, ?_, h4, ?_⟩
    · rw [h3]
      simp [Item.functionNames]
    · simp only [Item.lines, Item.block, List.length_cons, List.length_nil]
      omega
  | array ty name capacity values =>
    obtain ⟨hty, hconst, hT, hN, hds, hv1, hv2⟩ := hwf
    obtain ⟨t, ht⟩ := Option.isSome_iff_exists.mp hty
    have hl : pre ++ (Item.array ty name capacity values).lines ++ post
        = pre ++ arrayHeader ty name capacity :: ['{'] :: values :: ['}'] :: post := by
      simp [Item.lines, Item.block, Item.header]
    have hh : (Item.array ty name capacity values).header = arrayHeader ty name capacity := rfl
    rw [hl, hh, compileLine_array env _ pre post cur ty name capacity values t ht hconst hT hN hds
      hv1 hv2] at h
    obtain ⟨_, _, h⟩ := Outcome.bind_ok _ _ _ h
    obtain ⟨var, hvar, h⟩ := Outcome.bind_ok _ _ _ h
    simp only [Outcome.ret, Except.ok.injEq] at h
    subst h
    refine ⟨?_, ?_, rfl, ?_⟩
    · simp only [area.pushVariable, Item.vars, ht, arrayVariable, hvar]
    · simp [area.pushVariable, Item.functionNames]
    · simp only [Item.lines, Item.block, List.length_cons, List.length_nil]
      omega
  | function ty name args body =>
    obtain ⟨hty, hconst, hsp, hp1', hp2', hargs, hS⟩ := hwf
    obtain ⟨t, ht⟩ := Option.isSome_iff_exists.mp hty
    have hl : pre ++ (Item.function ty name args body).lines ++ post
        = pre ++ functionHeader ty name args :: ['{'] :: body ++ ['}'] :: post := by
      simp [Item.lines, Item.block, Item.header]
    have hh : (Item.function ty name args body).header = functionHeader ty name args := rfl
    rw [hl, hh, compileLine_function env _ pre body post cur ty name args t ht hconst hsp hp1'
      hp2' hargs hS] at h
    obtain ⟨a, _, h⟩ := Outcome.bind_ok _ _ _ h
    simp only [Outcome.ret, Except.ok.injEq] at h
    subst h
    refine ⟨?_, ?_, rfl, ?_⟩
    · simp [area.pushFunction, Item.vars]
    · simp [area.pushFunction, Item.functionNames]
    · simp only [Item.lines, Item.block, List.length_cons, List.length_append, List.length_nil]
      omega
  | forLoop pad init cond incr body =>
    obtain ⟨hinit, hty, h0, h1, h2, s0, s1, s2, hS⟩ := hwf
    have hl : pre ++ (Item.forLoop pad init cond incr body).lines ++ post
        = pre ++ forHeader pad init.text cond incr :: ['{'] :: body ++ ['}'] :: post := by
      simp [Item.lines, Item.block, Item.header]
    have hh : (Item.forLoop pad init cond incr body).header
        = forHeader pad init.text cond incr := rfl
    rw [hl, hh, compileLine_for env _ _ cur _ pad init.text cond incr hty,
      compileFor_header env _ pre body post cur pad init.text cond incr h0 h1 h2 s0 s1 s2 hS] at h
    obtain ⟨abegin, hbegin, h⟩ := Outcome.bind_ok _ _ _ h
    obtain ⟨a, _, h⟩ := Outcome.bind_ok _ _ _ h
    have hv := single_vars env fuel init hinit cur abegin hbegin
    have hlen : pre.length + (Item.forLoop pad init cond incr body).lines.length
        = pre.length + 2 + body.length + 1 := by
      simp only [Item.lines, Item.block, List.length_cons, List.length_append, List.length_nil]
      omega
    rw [hlen]
    cases hc : env.GetCalculation a cond true with
    | none =>
      rw [hc] at h
      simp only [Outcome.ret, Except.ok.injEq] at h
      subst h
      refine ⟨?_, ?_, rfl, ?_⟩
      · simp [area.pushAction, Item.vars, hv]
      · simp [area.pushAction, Item.functionNames]
      · simp only
        omega
    | some check =>
      rw [hc] at h
      simp only [Outcome.ret, Except.ok.injEq] at h
      subst h
      refine ⟨?_, ?_, rfl, ?_⟩
      · simp [area.pushAction, Item.vars, hv]
      · simp [area.pushAction, Item.functionNames]
      · simp only
        omega
  | ifOnly pad cond body =>
    obtain ⟨hty, h1, hS⟩ := hwf
    have hl : pre ++ (Item.ifOnly pad cond body).lines ++ post
        = pre ++ ifHeader pad cond :: ['{'] :: body ++ ['}'] :: post := by
      simp [Item.lines, Item.block, Item.header]
    have hh : (Item.ifOnly pad cond body).header = ifHeader pad cond := rfl
    rw [hl, hh, compileLine_if env _ _ cur _ pad cond hty,
      compileIf_block env _ pre body post cur pad cond h1 hS] at h
    obtain ⟨truea, _, h⟩ := Outcome.bind_ok _ _ _ h
    obtain ⟨next, hnext, h⟩ := Outcome.bind_ok _ _ _ h
    have hnext := index_ok _ _ _ hnext
    have el : pre ++ ifHeader pad cond :: ['{'] :: body ++ ['}'] :: post
        = (pre ++ ifHeader pad cond :: ['{'] :: body ++ [['}']]) ++ post := by simp
    rw [el, getElem?_behind _ post _ (by simp; omega)] at hnext
    rw [if_neg (by rw [hp2 next hnext]; decide)] at h
    simp only [Outcome.ret, Except.ok.injEq] at h
    subst h
    have hlen : pre.length + (Item.ifOnly pad cond body).lines.length
        = pre.length + 2 + body.length + 1 := by
      simp only [Item.lines, Item.block, List.length_cons, List.length_append, List.length_nil]
      omega
    rw [hlen]
    refine ⟨?_, ?_, ?_, ?_⟩
    · cases env.GetCalculation cur cond true <;> simp [area.pushAction, Item.vars]
    · cases env.GetCalculation cur cond true <;> simp [area.pushAction, Item.functionNames]
    · cases env.GetCalculation cur cond true <;> rfl
    · simp only
      omega
  | ifElse pad cond body1 body2 =>
    obtain ⟨hty, h1, hS1, hS2⟩ := hwf
    have hl : pre ++ (Item.ifElse pad cond body1 body2).lines ++ post
        = pre ++ ifHeader pad cond :: ['{'] :: body1 ++ ['}'] :: kwElse :: ['{'] :: body2
          ++ ['}'] :: post := by
      simp [Item.lines, Item.block, Item.header]
    have hh : (Item.ifElse pad cond body1 body2).header = ifHeader pad cond := rfl
    rw [hl, hh, compileLine_if env _ _ cur _ pad cond hty,
      compileIf_else env _ pre body1 body2 post cur pad cond h1 hS1 hS2] at h
    obtain ⟨truea, _, h⟩ := Outcome.bind_ok _ _ _ h
    obtain ⟨falsea, _, h⟩ := Outcome.bind_ok _ _ _ h
    simp only [Outcome.ret, Except.ok.injEq] at h
    subst h
    have hlen : pre.length + (Item.ifElse pad cond body1 body2).lines.length
        = pre.length + 2 + body1.length + 3 + body2.length + 1 := by
      simp only [Item.lines, Item.block, List.length_cons, List.length_append, List.length_nil]
      omega
    rw [hlen]
    refine ⟨?_, ?_, ?_, ?_⟩
    · cases env.GetCalculation cur cond true <;> simp [area.pushAction, Item.vars]
    · cases env.GetCalculation cur cond true <;> simp [area.pushAction, Item.functionNames]
    · cases env.GetCalculation cur cond true <;> rfl
    · simp only
      omega

end Frame

/-! ## Declarations in blocks stay in their blocks -/

section NoLeak

variable {Calc : Type}

theorem programLines_cons (it : Item) (items : List Item) :
    programLines (it :: items) = it.lines ++ programLines items := by
  simp [programLines]

theorem programLines_head (env : Env Calc) (items : List Item)
    (hwf : ∀ it ∈ items, it.WellFormed env) :
    (programLines items).head? ≠ some ['{']
    ∧ ∀ x, (programLines items).head? = some x → substrcomp x kwElse = false := by
  cases items with
  | nil => exact ⟨by simp [programLines], by simp [programLines]⟩
  | cons it items =>
    obtain ⟨_, h1, h2⟩ := hwf it (by simp)
    have e : (programLines (it :: items)).head? = some it.header := by
      rw [programLines_cons]
      rfl
    rw [e]
    exact ⟨fun hh => h1 (Option.some.inj hh),
      fun x hx => by rw [← Option.some.inj hx]; exact h2⟩

/-- The main loop from the first line of a sequence of well-formed constructs on, when
it returns: the scope has the variables that the constructs declare appended, in
order, and the names of the functions that they define. -/
theorem run_items (env : Env Calc) :
    ∀ (items : List Item) (fuel : Nat) (pre : List wstring) (cur scope : area Calc),
      (∀ it ∈ items, it.WellFormed env) →
      (CompileLoop env fuel (pre ++ programLines items) cur pre.length).value = .ok scope →
      scope.vars = cur.vars ++ items.flatMap (Item.vars env)
      ∧ scope.functions.map (fun f => f.name)
          = cur.functions.map (fun f => f.name) ++ items.flatMap Item.functionNames
      ∧ scope.Parent = cur.Parent := by
  intro items
  induction items with
  | nil =>
    intro fuel pre cur scope _ h
    cases fuel with
    | zero => simp [CompileLoop, Outcome.fail] at h
    | succ fuel =>
      rw [CompileLoop_succ] at h
      have hnone : (pre ++ programLines [])[pre.length]? = none := by
        simp [programLines]
      rw [hnone] at h
      simp only [Outcome.ret, Except.ok.injEq] at h
      subst h
      simp
  | cons it items ih =>
    intro fuel pre cur scope hwf h
    cases fuel with
    | zero => simp [CompileLoop, Outcome.fail] at h
    | succ fuel =>
      have hrest : ∀ x ∈ items, x.WellFormed env := fun x hx => hwf x (by simp [hx])
      have hl : pre ++ programLines (it :: items) = pre ++ it.lines ++ programLines items := by
        rw [programLines_cons, List.append_assoc]
      have hat : (pre ++ it.lines ++ programLines items)[pre.length]? = some it.header := by
        rw [List.append_assoc]
        exact getElem?_block pre it.header _
      rw [hl, CompileLoop_succ, hat] at h
      obtain ⟨r, hr, h⟩ := Outcome.bind_ok _ _ _ h
      obtain ⟨hp1, hp2⟩ := programLines_head env items hrest
      obtain ⟨e1, e2, e3, e4⟩ := item_value env fuel pre (programLines items) cur it
        (hwf it (by simp)).1 hp1 hp2 r hr
      have hpos : (r.2 + 1).toNat = (pre ++ it.lines).length := by
        rw [e4, List.length_append]
      rw [hpos] at h
      obtain ⟨i1, i2, i3⟩ := ih fuel (pre ++ it.lines) r.1 scope hrest h
      refine ⟨?_, ?_, ?_⟩
      · rw [i1, e1]
        simp
      · rw [i2, e2]
        simp
      · rw [i3, e3]

/-- C22: declarations inside blocks do not leak into the enclosing scope. For a
sequence of well-formed top-level constructs, whatever lines their bodies hold, the
scope that `Compile` returns has as its variables exactly those declared by the
top-level scalar and array declarations and by the init clauses of the top-level
`for` headers, in source order, and as its functions those defined at top level;
nothing declared inside a function body, a `for` body or an `if`/`else` branch, and
no function parameter, is among them. -/
theorem block_declarations_stay_local (env : Env Calc) (items : List Item)
    (hwf : ∀ it ∈ items, it.WellFormed env) (fuel : Nat) (parent : Option (area Calc))
    (scope : area Calc)
    (h : (Compile env fuel (programLines items) parent).value = .ok scope) :
    scope.vars = items.flatMap (Item.vars env)
    ∧ scope.functions.map (fun f => f.name) = items.flatMap Item.functionNames
    ∧ scope.Parent = parent := by
  have h0 : (CompileLoop env fuel ([] ++ programLines items) (area.fresh parent)
      ([] : List wstring).length).value = .ok scope := h
  obtain ⟨h1, h2, h3⟩ := run_items env items fuel [] (area.fresh parent) scope hwf h0
  exact ⟨by rw [h1]; simp [area.fresh], by rw [h2]; simp [area.fresh], by rw [h3]; rfl⟩

end NoLeak

theorem block_declarations_stay_local_witness :
    (∀ it ∈ demoItems, it.WellFormed demoEnv)
    ∧ (programLines demoItems).length = 26
    ∧ (demoItems.flatMap (Item.vars demoEnv)).map (fun v => v.name)
        = ["i".toList, "arr".toList, "x".toList, "y".toList]
    ∧ demoItems.flatMap Item.functionNames = ["f".toList]
    ∧ ∃ scope : area wstring,
        (Compile demoEnv 30 (programLines demoItems) none).value = .ok scope
        ∧ scope.vars = demoItems.flatMap (Item.vars demoEnv)
        ∧ scope.functions.map (fun f => f.name) = demoItems.flatMap Item.functionNames
        ∧ scope.Parent = none := by
  have hwf : ∀ it ∈ demoItems, it.WellFormed demoEnv := by
    intro it hit
    simp only [demoItems, List.mem_cons, List.mem_singleton, List.not_mem_nil, or_false] at hit
    rcases hit with rfl | rfl | rfl | rfl | rfl | rfl
    · exact ⟨⟨by decide, by decide, by decide, by decide, by decide, by decide, by decide⟩,
        by decide, by decide⟩
    · exact ⟨⟨⟨by decide, by decide, by decide, by decide, List.cons_ne_nil _ _, by decide⟩,
        by decide, by decide, by decide, by decide, by decide, by decide, by decide, by decide⟩,
        by decide, by decide⟩
    · exact ⟨⟨by decide, by decide, by decide, by decide⟩, by decide, by decide⟩
    · exact ⟨⟨by decide, by decide, by decide, by decide, by decide, by decide, by decide⟩,
        by decide, by decide⟩
    · exact ⟨⟨by decide, by decide, by decide, by decide, List.cons_ne_nil _ _, by decide⟩,
        by decide, by decide⟩
    · exact ⟨⟨by decide, by decide, by decide, by decide, by decide⟩, by decide, by decide⟩
  refine ⟨hwf, by decide, by decide, by decide, ?_⟩
  cases h : (Compile demoEnv 30 (programLines demoItems) none).value with
  | error e =>
    have hok : (Compile demoEnv 30 (programLines demoItems) none).value.toOption.isSome
        = true := by rfl
    rw [h] at hok
    cases hok
  | ok scope =>
    exact ⟨scope, rfl, block_declarations_stay_local demoEnv demoItems hwf 30 none scope h⟩

end Compiler
